import Mathlib

/-!
# Prometheus pod disk-usage report: a verification development

A shallow embedding of `main.go`: command dispatch (`getCommands`), pod discovery
(`getPods`, `filterPods`), the probe (`runKubectlCommand`, `getDiskUsage`), the
aggregation loop and the ranking step of `main`.  Go strings are lists of
characters; a run-time panic is an explicit fault value.
-/

namespace PodDiskUsage

/-- A Go string, as the list of its characters. -/
abbrev Str := List Char

/-! ## Library functions of package `strings`, `regexp` and `strconv` used by the program -/

/-- Go `unicode.IsSpace`: the characters `strings.Fields` and `strings.TrimSpace` treat as blank. -/
def isSpace (c : Char) : Bool :=
  let n := c.toNat
  n == 0x09 || n == 0x0A || n == 0x0B || n == 0x0C || n == 0x0D || n == 0x20
    || n == 0x85 || n == 0xA0 || n == 0x1680 || (0x2000 ≤ n && n ≤ 0x200A)
    || n == 0x2028 || n == 0x2029 || n == 0x202F || n == 0x205F || n == 0x3000

/-- One right-to-left pass of `strings.Fields`: the token that starts at the head of the
input (empty when the head is blank) and the tokens after it. -/
def fieldsGo : Str → Str × List Str
  | [] => ([], [])
  | c :: cs =>
    let r := fieldsGo cs
    if isSpace c then ([], if r.1 = [] then r.2 else r.1 :: r.2) else (c :: r.1, r.2)

/-- Go `strings.Fields`: the maximal blank-free runs of the input, in order. -/
def fields (s : Str) : List Str :=
  let r := fieldsGo s
  if r.1 = [] then r.2 else r.1 :: r.2

/-- Go `strings.Join`. -/
def join (sep : Str) : List Str → Str
  | [] => []
  | [t] => t
  | t :: u :: ts => t ++ sep ++ join sep (u :: ts)

/-- Go `strings.TrimSpace`. -/
def trimSpace (s : Str) : Str :=
  ((s.dropWhile isSpace).reverse.dropWhile isSpace).reverse

/-- One right-to-left pass of `strings.Split(s, "\n")`: the piece at the head and the
pieces after it. -/
def splitGo : Str → Str × List Str
  | [] => ([], [])
  | c :: cs =>
    let r := splitGo cs
    if c = '\n' then ([], r.1 :: r.2) else (c :: r.1, r.2)

/-- Go `strings.Split(s, "\n")`: one piece more than there are newlines. -/
def splitLines (s : Str) : List Str :=
  let r := splitGo s
  r.1 :: r.2

/-- The class `\d` of Go regular expressions: an ASCII digit. -/
def isDigit (c : Char) : Bool := 48 ≤ c.toNat && c.toNat ≤ 57

/-- The match of the regular expression `\d+%` that starts at the head of the input, if any:
the longest run of digits, provided it is not empty and a percent sign follows. -/
def matchPercentAt (s : Str) : Option Str :=
  let ds := s.takeWhile isDigit
  if ds ≠ [] ∧ (s.dropWhile isDigit).head? = some '%' then some (ds ++ ['%']) else none

/-- Go `regexp.MustCompile("\\d+%").FindString`: the leftmost match, the empty string when
there is none. -/
def findString : Str → Str
  | [] => []
  | c :: cs =>
    match matchPercentAt (c :: cs) with
    | some m => m
    | none => findString cs

/-- The two workload prefixes of the pod patterns. -/
def prefixK8s : Str := "prometheus-k8s".toList

/-- The second workload prefix. -/
def prefixIstio : Str := "prometheus-istio".toList

/-- The expression `(^prometheus-k8s|^prometheus-istio)` of `getPods`, as `MatchString`:
either alternative matches at the start of the text. -/
def matchGetPods (s : Str) : Bool :=
  prefixK8s.isPrefixOf s || prefixIstio.isPrefixOf s

/-- The expression `^(prometheus-k8s|prometheus-istio)` of `main` (`podFilter`), as
`MatchString`: at the start of the text, one of the two alternatives. -/
def matchPodFilter (s : Str) : Bool :=
  prefixK8s.isPrefixOf s || prefixIstio.isPrefixOf s

/-- The largest value of a 64-bit Go `int`. -/
def maxInt : Int := 2 ^ 63 - 1

/-- How the digit loop of `strconv.ParseUint` (base 10, 64 bits) ends: with the value of
the digits, with a range error at the first digit that takes the value past `2^64 - 1`,
or with a syntax error at the first character that is not a digit. -/
inductive UintParse where
  | value (n : Nat)
  | rangeError
  | syntaxError
deriving DecidableEq, Repr

/-- The digit loop of `strconv.ParseUint` in base 10 with `maxVal = 2^64 - 1` and
`cutoff = maxVal / 10 + 1`: it stops at the first overflow or the first non-digit,
whichever comes first. -/
def parseUint : Str → Nat → UintParse
  | [], n => .value n
  | c :: cs, n =>
    if isDigit c then
      if n ≥ 1844674407370955162 then .rangeError
      else if n * 10 + (c.toNat - 48) > 2 ^ 64 - 1 then .rangeError
      else parseUint cs (n * 10 + (c.toNat - 48))
    else .syntaxError

/-- Go `strconv.Atoi` on a 64-bit platform with the error dropped, as `atoi` of the program
does: an optional sign, then `ParseUint`; a syntax error (also the empty string and a lone
sign) gives 0, a range error or a value outside `int` gives the nearest bound of `int`
(the value `Atoi` returns next to the range error). -/
def atoi (s : Str) : Int :=
  let body : Str := match s with
    | '-' :: r => r
    | '+' :: r => r
    | r => r
  let neg : Bool := s.head? = some '-'
  if body = [] then 0 else
  match parseUint body 0 with
  | .syntaxError => 0
  | .rangeError => if neg then -(maxInt + 1) else maxInt
  | .value n =>
    if neg then (if (n : Int) > maxInt + 1 then -(maxInt + 1) else -(n : Int))
    else (if (n : Int) > maxInt then maxInt else (n : Int))

/-! ## Command dispatch -/

/-- The grep-then-awk variant of the free-space command. -/
def grepThenAwk : Str :=
  "df -h | grep -w /prometheus | awk \x27\x7bprint $2, $3, $4, $5, $6\x7d\x27".toList

/-- The default awk-then-grep variant of the free-space command. -/
def awkThenGrep : Str :=
  "df -h | awk \x27\x7bprint $1, $2, $3, $4, $5, $6\x7d\x27 | grep -w /prometheus".toList

/-- The usage command, the same in both branches. -/
def duCommandText : Str := "du -sh /prometheus/ | awk \x27\x7bprint $1, $2\x7d\x27".toList

/-- The four configuration paths of the special branch of `getCommands`. -/
def specialConfigs : List Str :=
  [ "/root/.kube/sys/putuo-pt-rke.yaml".toList,
    "/root/.kube/sys/stage-rke.yaml".toList,
    "/root/.kube/sys/z-prod-ack.yaml".toList,
    "/root/.kube/sys/z-prod-tke.yaml".toList ]

/-- The function `getCommands`: the `switch` on the configuration path. -/
def getCommands (config : Str) : Str × Str :=
  if config = "/root/.kube/sys/putuo-pt-rke.yaml".toList
      ∨ config = "/root/.kube/sys/stage-rke.yaml".toList
      ∨ config = "/root/.kube/sys/z-prod-ack.yaml".toList
      ∨ config = "/root/.kube/sys/z-prod-tke.yaml".toList then
    (grepThenAwk, duCommandText)
  else
    (awkThenGrep, duCommandText)

/-! ## Pod discovery -/

/-- The loop of `getPods` over the lines of the listing: trim, test, append. -/
def getPodsLoop : List Str → List Str → List Str
  | [], filteredPods => filteredPods
  | pod :: rest, filteredPods =>
    let pod := trimSpace pod
    if matchGetPods pod then getPodsLoop rest (filteredPods ++ [pod])
    else getPodsLoop rest filteredPods

/-- The function `getPods` on the raw output of the remote listing (the case in which the
listing command succeeded). -/
def getPods (out : Str) : List Str :=
  getPodsLoop (splitLines out) []

/-- The loop of `filterPods`. -/
def filterPodsLoop (podFilter : Str → Bool) : List Str → List Str → List Str
  | [], filteredPods => filteredPods
  | pod :: rest, filteredPods =>
    if podFilter pod then filterPodsLoop podFilter rest (filteredPods ++ [pod])
    else filterPodsLoop podFilter rest filteredPods

/-- The function `filterPods`. -/
def filterPods (pods : List Str) (podFilter : Str → Bool) : List Str :=
  filterPodsLoop podFilter pods []

/-- The pods `main` launches probes for, from one raw listing. -/
def discoveredPods (out : Str) : List Str :=
  filterPods (getPods out) matchPodFilter

/-! ## The probe -/

/-- A probe result, the four-element slice sent on the results channel:
configuration, pod, free-space output, usage output.  `runKubectlCommand` and
`getDiskUsage` build slices of four elements only, so the indices 2 and 3 of the
aggregation loop and of the comparator are always in range. -/
structure ProbeResult where
  config : Str
  pod : Str
  free : Str
  usage : Str
deriving DecidableEq, Repr

/-- The outcome of one remote execution: it succeeds with its standard output or fails. -/
inductive Outcome where
  | ok (stdout : Str)
  | failed
deriving DecidableEq, Repr

/-- The function `runKubectlCommand` over the outcomes of its two executions: the slice it
returns (`none` for `nil`) and whether the error it returns is not `nil`. -/
def runKubectlCommand (config pod : Str) (first second : Outcome) :
    Option ProbeResult × Bool :=
  match first with
  | .failed => (none, true)
  | .ok out =>
    match second with
    | .failed => (some ⟨config, pod, out, []⟩, true)
    | .ok duOut => (some ⟨config, pod, out, trimSpace duOut⟩, false)

/-- The function `getDiskUsage`: the value it sends on the results channel. -/
def getDiskUsage (config pod : Str) (first second : Outcome) : ProbeResult :=
  let r := runKubectlCommand config pod first second
  if r.2 then ⟨config, pod, [], []⟩
  else
    match r.1 with
    | some result => result
    | none => ⟨config, pod, [], []⟩

/-! ## Aggregation -/

/-- The trimming of the free-space field in the aggregation loop: `strings.Fields`, the
last five tokens when there are more than four, `strings.Join` with one space. -/
def trimFree (free : Str) : Str :=
  let diskUsage := fields free
  let diskUsage := if diskUsage.length > 4 then diskUsage.drop (diskUsage.length - 5) else diskUsage
  join [' '] diskUsage

/-- The loop of `main` over the drained results channel: a result is appended, with its
free-space field trimmed, when `result[2] != "" && result[3] != ""` (the test
`len(result) > 0` holds for every probe result). -/
def aggregate : List ProbeResult → List ProbeResult → List ProbeResult
  | [], tableData => tableData
  | result :: rest, tableData =>
    if result.free ≠ [] ∧ result.usage ≠ [] then
      aggregate rest (tableData ++ [{ result with free := trimFree result.free }])
    else aggregate rest tableData

/-! ## The ranking step: the comparator of `main` and `sort.Slice` of the Go library

`sort.Slice` is the function of the Go standard library, package `sort` as of Go 1.19
(pattern-defeating quicksort, file `zsortfunc.go`), embedded function by function.  The
sorted data is the list of rows; `Less(i, j)` runs the comparator closure of `main` on the
rows at `i` and `j`, `Swap(i, j)` exchanges them.  One step of the pseudo-random generator
of `breakPatterns_func` is the parameter `next`: what is proved holds for every
generator. -/

/-- What ends a run without a result: a run-time panic of the program, or the recursion
budget of the model running out (which no run of `sortSlice` does, see `sortSlice_total`). -/
inductive Fault where
  | panic
  | fuel
deriving DecidableEq, Repr

/-- The percentage the comparator reads from a row: the first match of `\d+%` in the
free-space field, without its last character, through `atoi`.  Slicing the empty match
with upper bound `len - 1 = -1` panics. -/
def rowPercent (row : ProbeResult) : Except Fault Int :=
  let perc := findString row.free
  if perc = [] then .error .panic else .ok (atoi perc.dropLast)

/-- The comparator passed to `sort.Slice`, on the two rows it indexes. -/
def lessRows (rowI rowJ : ProbeResult) : Except Fault Bool := do
  let percIInt ← rowPercent rowI
  let percJInt ← rowPercent rowJ
  pure (decide (percIInt > percJInt))

section Sorting

variable {α : Type}

/-- The method `Less(i, j)` of the sorted data: the comparator on the elements at `i` and
`j`; an index out of range panics. -/
def Less (less : α → α → Except Fault Bool) (data : List α) (i j : Nat) :
    Except Fault Bool :=
  match data[i]?, data[j]? with
  | some x, some y => less x y
  | _, _ => .error .panic

/-- The method `Swap(i, j)` of the sorted data; an index out of range panics. -/
def Swap (data : List α) (i j : Nat) : Except Fault (List α) :=
  match data[i]?, data[j]? with
  | some x, some y => .ok ((data.set i y).set j x)
  | _, _ => .error .panic

/-- The inner loop of `insertionSort_func`: `for j; j > a && Less(j, j-1); j--`. -/
def insertionInner (less : α → α → Except Fault Bool) (a : Nat) :
    Nat → List α → Except Fault (List α)
  | 0, data => pure data
  | j + 1, data =>
    if j + 1 > a then do
      if ← Less less data (j + 1) j then
        insertionInner less a j (← Swap data (j + 1) j)
      else pure data
    else pure data

/-- The outer loop of `insertionSort_func`, `n` iterations from index `i`. -/
def insertionOuter (less : α → α → Except Fault Bool) (a : Nat) :
    Nat → Nat → List α → Except Fault (List α)
  | 0, _, data => pure data
  | n + 1, i, data => do
    insertionOuter less a n (i + 1) (← insertionInner less a i data)

/-- The function `insertionSort_func`: insertion sort of `data[a:b]`. -/
def insertionSort_func (less : α → α → Except Fault Bool) (data : List α) (a b : Nat) :
    Except Fault (List α) :=
  insertionOuter less a (b - (a + 1)) (a + 1) data

/-- The step `if child+1 < hi && Less(first+child, first+child+1) { child++ }` of
`siftDown_func`: the child to compare the root with. -/
def greaterChild (less : α → α → Except Fault Bool) (data : List α) (hi first child : Nat) :
    Except Fault Nat :=
  if child + 1 < hi then do
    if ← Less less data (first + child) (first + child + 1) then pure (child + 1)
    else pure child
  else pure child

/-- The function `siftDown_func` on `data[lo:hi]` with offset `first`; the first argument
bounds the number of descents. -/
def siftDown_func (less : α → α → Except Fault Bool) (hi first : Nat) :
    Nat → List α → Nat → Except Fault (List α)
  | fuel, data, root =>
    if 2 * root + 1 ≥ hi then pure data
    else
      match fuel with
      | 0 => .error .fuel
      | fuel + 1 => do
        let child ← greaterChild less data hi first (2 * root + 1)
        if ← Less less data (first + root) (first + child) then
          siftDown_func less hi first fuel (← Swap data (first + root) (first + child)) child
        else pure data

/-- The first loop of `heapSort_func`: `for i; i >= 0; i--` calling `siftDown_func(i, hi)`;
the argument counts `i + 1`. -/
def heapBuild (less : α → α → Except Fault Bool) (hi first : Nat) :
    Nat → List α → Except Fault (List α)
  | 0, data => pure data
  | i + 1, data => do
    heapBuild less hi first i (← siftDown_func less hi first hi data i)

/-- The second loop of `heapSort_func`: `for i; i >= 0; i--` moving the top to `i`; the
argument counts `i + 1`. -/
def heapPop (less : α → α → Except Fault Bool) (first : Nat) :
    Nat → List α → Except Fault (List α)
  | 0, data => pure data
  | i + 1, data => do
    let data ← Swap data first (first + i)
    heapPop less first i (← siftDown_func less i first i data 0)

/-- The function `heapSort_func`: heap sort of `data[a:b]`. -/
def heapSort_func (less : α → α → Except Fault Bool) (data : List α) (a b : Nat) :
    Except Fault (List α) := do
  let first := a
  let hi := b - a
  let data ← heapBuild less hi first ((hi - 1) / 2 + 1) data
  heapPop less first hi data

/-- The loop `for i <= j && Less(i, a) { i++ }` of the partitions; `n` counts `j + 1 - i`. -/
def scanUp (less : α → α → Except Fault Bool) (data : List α) (a : Nat) :
    Nat → Nat → Except Fault Nat
  | 0, i => pure i
  | n + 1, i => do
    if ← Less less data i a then scanUp less data a n (i + 1) else pure i

/-- The loop `for i <= j && !Less(j, a) { j-- }` of `partition_func`; `n` counts `j + 1 - i`. -/
def scanDown (less : α → α → Except Fault Bool) (data : List α) (a : Nat) :
    Nat → Nat → Except Fault Nat
  | 0, j => pure j
  | n + 1, j => do
    if ← Less less data j a then pure j else scanDown less data a n (j - 1)

/-- The main loop of `partition_func`; it returns the data and the final `j`. -/
def partitionLoop (less : α → α → Except Fault Bool) (a : Nat) :
    Nat → List α → Nat → Nat → Except Fault (List α × Nat)
  | 0, _, _, _ => .error .fuel
  | fuel + 1, data, i, j => do
    let i ← scanUp less data a (j + 1 - i) i
    let j ← scanDown less data a (j + 1 - i) j
    if i > j then pure (data, j)
    else partitionLoop less a fuel (← Swap data i j) (i + 1) (j - 1)

/-- The function `partition_func`: one quicksort partition of `data[a:b]` around
`data[pivot]`; it returns the data, the new pivot index and `alreadyPartitioned`. -/
def partition_func (less : α → α → Except Fault Bool) (data : List α) (a b pivot : Nat) :
    Except Fault (List α × Nat × Bool) := do
  let data ← Swap data a pivot
  let i := a + 1
  let j := b - 1
  let i ← scanUp less data a (j + 1 - i) i
  let j ← scanDown less data a (j + 1 - i) j
  if i > j then
    let data ← Swap data j a
    pure (data, j, true)
  else
    let data ← Swap data i j
    let r ← partitionLoop less a (b - a) data (i + 1) (j - 1)
    let data ← Swap r.1 r.2 a
    pure (data, r.2, false)

/-- The loop `for i <= j && !Less(a, i) { i++ }` of `partitionEqual_func`. -/
def scanUpEq (less : α → α → Except Fault Bool) (data : List α) (a : Nat) :
    Nat → Nat → Except Fault Nat
  | 0, i => pure i
  | n + 1, i => do
    if ← Less less data a i then pure i else scanUpEq less data a n (i + 1)

/-- The loop `for i <= j && Less(a, j) { j-- }` of `partitionEqual_func`. -/
def scanDownEq (less : α → α → Except Fault Bool) (data : List α) (a : Nat) :
    Nat → Nat → Except Fault Nat
  | 0, j => pure j
  | n + 1, j => do
    if ← Less less data a j then scanDownEq less data a n (j - 1) else pure j

/-- The loop of `partitionEqual_func`; it returns the data and the final `i`. -/
def partitionEqualLoop (less : α → α → Except Fault Bool) (a : Nat) :
    Nat → List α → Nat → Nat → Except Fault (List α × Nat)
  | 0, _, _, _ => .error .fuel
  | fuel + 1, data, i, j => do
    let i ← scanUpEq less data a (j + 1 - i) i
    let j ← scanDownEq less data a (j + 1 - i) j
    if i > j then pure (data, i)
    else partitionEqualLoop less a fuel (← Swap data i j) (i + 1) (j - 1)

/-- The function `partitionEqual_func`: it splits `data[a:b]` into the elements equal to
`data[pivot]` and those greater; it returns the data and the new start. -/
def partitionEqual_func (less : α → α → Except Fault Bool) (data : List α)
    (a b pivot : Nat) : Except Fault (List α × Nat) := do
  let data ← Swap data a pivot
  partitionEqualLoop less a (b - a + 1) data (a + 1) (b - 1)

/-- The loop `for i < b && !Less(i, i-1) { i++ }` of `partialInsertionSort_func`;
`n` counts `b - i`. -/
def scanSorted (less : α → α → Except Fault Bool) (data : List α) :
    Nat → Nat → Except Fault Nat
  | 0, i => pure i
  | n + 1, i => do
    if ← Less less data i (i - 1) then pure i else scanSorted less data n (i + 1)

/-- The loop `for j := i - 1; j >= 1; j--` of `partialInsertionSort_func`, which shifts the
smaller element to the left. -/
def shiftLeft (less : α → α → Except Fault Bool) : Nat → List α → Except Fault (List α)
  | 0, data => pure data
  | j + 1, data => do
    if ← Less less data (j + 1) j then shiftLeft less j (← Swap data (j + 1) j)
    else pure data

/-- The loop `for j := i + 1; j < b; j++` of `partialInsertionSort_func`, which shifts the
greater element to the right; `n` counts `b - j`. -/
def shiftRight (less : α → α → Except Fault Bool) :
    Nat → Nat → List α → Except Fault (List α)
  | 0, _, data => pure data
  | n + 1, j, data => do
    if ← Less less data j (j - 1) then shiftRight less n (j + 1) (← Swap data j (j - 1))
    else pure data

/-- The outer loop of `partialInsertionSort_func`, `steps` iterations left; it returns the
data and whether the range is sorted at the end. -/
def partialInsertionLoop (less : α → α → Except Fault Bool) (a b : Nat) :
    Nat → Nat → List α → Except Fault (List α × Bool)
  | 0, _, data => pure (data, false)
  | steps + 1, i, data => do
    let i ← scanSorted less data (b - i) i
    if i = b then pure (data, true)
    else if b - a < 50 then pure (data, false)
    else
      let data ← Swap data i (i - 1)
      let data ← (if i - a ≥ 2 then shiftLeft less (i - 1) data else pure data)
      let data ← (if b - i ≥ 2 then shiftRight less (b - (i + 1)) (i + 1) data else pure data)
      partialInsertionLoop less a b steps i data

/-- The function `partialInsertionSort_func`, with `maxSteps = 5` and
`shortestShifting = 50`. -/
def partialInsertionSort_func (less : α → α → Except Fault Bool) (data : List α)
    (a b : Nat) : Except Fault (List α × Bool) :=
  partialInsertionLoop less a b 5 (a + 1) data

/-- Go `bits.Len`, by halving; the first argument bounds the number of halvings. -/
def bitsLenAux : Nat → Nat → Nat
  | 0, _ => 0
  | fuel + 1, n => if n = 0 then 0 else bitsLenAux fuel (n / 2) + 1

/-- Go `bits.Len`: the number of bits of `n`. -/
def bitsLen (n : Nat) : Nat := bitsLenAux n n

/-- The three swaps of `breakPatterns_func`, at the positions `idx`, `idx + 1` and
`idx + 2` in the middle of the range, each with a position `a + other` drawn from the
generator; `random` is the 64-bit generator state and `next` one step of the generator. -/
def breakLoop (next : Nat → Nat) (a length modulus idx : Nat) :
    Nat → Nat → Nat → List α → Except Fault (List α)
  | 0, _, _, data => pure data
  | n + 1, i, random, data => do
    let random := next random % 2 ^ 64
    let other := random &&& (modulus - 1)
    let other := if other ≥ length then other - length else other
    breakLoop next a length modulus idx n (i + 1) random (← Swap data (idx + i) (a + other))

/-- The function `breakPatterns_func`: it scatters three elements of `data[a:b]`. -/
def breakPatterns_func (next : Nat → Nat) (data : List α) (a b : Nat) :
    Except Fault (List α) :=
  let length := b - a
  if length ≥ 8 then
    let random := length % 2 ^ 64
    let modulus := 2 ^ bitsLen length
    let idx := a + (length / 4) * 2 - 1
    breakLoop next a length modulus idx 3 0 random data
  else pure data

/-- The type `sortedHint` of the library. -/
inductive SortedHint where
  | unknownHint
  | increasingHint
  | decreasingHint
deriving DecidableEq, Repr

/-- The function `order2_func`: the two indices in order, and the swap counter. -/
def order2_func (less : α → α → Except Fault Bool) (data : List α) (a b swaps : Nat) :
    Except Fault (Nat × Nat × Nat) := do
  if ← Less less data b a then pure (b, a, swaps + 1) else pure (a, b, swaps)

/-- The function `median_func`: the index of the median of three, and the swap counter. -/
def median_func (less : α → α → Except Fault Bool) (data : List α) (a b c swaps : Nat) :
    Except Fault (Nat × Nat) := do
  let r ← order2_func less data a b swaps
  let s ← order2_func less data r.2.1 c r.2.2
  let t ← order2_func less data r.1 s.1 s.2.2
  pure (t.2.1, t.2.2)

/-- The function `medianAdjacent_func`. -/
def medianAdjacent_func (less : α → α → Except Fault Bool) (data : List α) (a swaps : Nat) :
    Except Fault (Nat × Nat) :=
  median_func less data (a - 1) a (a + 1) swaps

/-- The `switch swaps` at the end of `choosePivot_func`, with `maxSwaps = 12`. -/
def hintOfSwaps (swaps : Nat) : SortedHint :=
  if swaps = 0 then SortedHint.increasingHint
  else if swaps = 12 then SortedHint.decreasingHint
  else SortedHint.unknownHint

/-- The Tukey ninther step of `choosePivot_func`, taken when `l >= shortestNinther = 50`:
the three candidates and the swap counter. -/
def nintherStep (less : α → α → Except Fault Bool) (data : List α) (l i j k : Nat) :
    Except Fault (Nat × Nat × Nat × Nat) :=
  if l ≥ 50 then do
    let mi ← medianAdjacent_func less data i 0
    let mj ← medianAdjacent_func less data j mi.2
    let mk ← medianAdjacent_func less data k mj.2
    pure (mi.1, mj.1, mk.1, mk.2)
  else pure (i, j, k, 0)

/-- The function `choosePivot_func`: a pivot index in `data[a:b]` and a hint. -/
def choosePivot_func (less : α → α → Except Fault Bool) (data : List α) (a b : Nat) :
    Except Fault (Nat × SortedHint) :=
  let l := b - a
  let i := a + l / 4 * 1
  let j := a + l / 4 * 2
  let k := a + l / 4 * 3
  if l ≥ 8 then do
    let m ← nintherStep less data l i j k
    let r ← median_func less data m.1 m.2.1 m.2.2.1 m.2.2.2
    pure (r.1, hintOfSwaps r.2)
  else pure (j, hintOfSwaps 0)

/-- The loop of `reverseRange_func`, `n` swaps from the pair `(i, j)`. -/
def reverseLoop : Nat → Nat → Nat → List α → Except Fault (List α)
  | 0, _, _, data => pure data
  | n + 1, i, j, data => do
    reverseLoop n (i + 1) (j - 1) (← Swap data i j)

/-- The function `reverseRange_func`: `(b - a) / 2` swaps reverse `data[a:b]`. -/
def reverseRange_func (data : List α) (a b : Nat) : Except Fault (List α) :=
  reverseLoop ((b - a) / 2) a (b - 1) data

/-- The function `pdqsort_func`, pattern-defeating quicksort of `data[a:b]` with
`maxInsertion = 12`.  The loop of the library is the recursion on the first argument,
which bounds the number of nested calls and iterations; `wasBalanced` and `wasPartitioned`
are the two loop variables. -/
def pdqsort_func (next : Nat → Nat) (less : α → α → Except Fault Bool) :
    Nat → List α → Nat → Nat → Nat → Bool → Bool → Except Fault (List α)
  | fuel, data, a, b, limit, wasBalanced, wasPartitioned =>
    let length := b - a
    if length ≤ 12 then insertionSort_func less data a b
    else if limit = 0 then heapSort_func less data a b
    else
      match fuel with
      | 0 => .error .fuel
      | fuel + 1 => do
        let data ← (if !wasBalanced then breakPatterns_func next data a b else pure data)
        let limit := if !wasBalanced then limit - 1 else limit
        let ph ← choosePivot_func less data a b
        let data ←
          (if ph.2 = SortedHint.decreasingHint then reverseRange_func data a b else pure data)
        let pivot := if ph.2 = SortedHint.decreasingHint then (b - 1) - (ph.1 - a) else ph.1
        let hint :=
          if ph.2 = SortedHint.decreasingHint then SortedHint.increasingHint else ph.2
        let ps ←
          (if wasBalanced && wasPartitioned && hint = SortedHint.increasingHint then
            partialInsertionSort_func less data a b
          else pure (data, false))
        if ps.2 then pure ps.1
        else
          let data := ps.1
          let eq ← (if a > 0 then (do pure (!(← Less less data (a - 1) pivot))) else pure false)
          if eq then
            let r ← partitionEqual_func less data a b pivot
            pdqsort_func next less fuel r.1 r.2 b limit wasBalanced wasPartitioned
          else
            let r ← partition_func less data a b pivot
            let data := r.1
            let mid := r.2.1
            let leftLen := mid - a
            let rightLen := b - mid
            let balanceThreshold := length / 8
            if leftLen < rightLen then
              let data ← pdqsort_func next less fuel data a mid limit true true
              pdqsort_func next less fuel data (mid + 1) b limit
                (decide (leftLen ≥ balanceThreshold)) r.2.2
            else
              let data ← pdqsort_func next less fuel data (mid + 1) b limit true true
              pdqsort_func next less fuel data a mid limit
                (decide (rightLen ≥ balanceThreshold)) r.2.2

/-- Go `sort.Slice`: `pdqsort_func` on the whole slice with `limit = bits.Len(length)`. -/
def sortSlice (next : Nat → Nat) (less : α → α → Except Fault Bool) (data : List α) :
    Except Fault (List α) :=
  pdqsort_func next less data.length data 0 data.length (bitsLen data.length) true true

end Sorting

/-- The percentage of a row as the comparator parses it when the free-space field has a
match of `\d+%`: `atoi` of the first match without its percent sign. -/
def pct (row : ProbeResult) : Int := atoi (findString row.free).dropLast

/-- The free-space field of the row contains a match of `\d+%`. -/
def HasPercent (row : ProbeResult) : Prop := findString row.free ≠ []

instance (row : ProbeResult) : Decidable (HasPercent row) := by
  unfold HasPercent
  infer_instance

/-- The ranking step of `main`: `sort.Slice` with the percentage comparator. -/
def ranking (next : Nat → Nat) (tableData : List ProbeResult) :
    Except Fault (List ProbeResult) :=
  sortSlice next lessRows tableData

/-- The table `main` hands to `displayAndSendTable`, from the drained results. -/
def finalTable (next : Nat → Nat) (results : List ProbeResult) :
    Except Fault (List ProbeResult) :=
  ranking next (aggregate results [])

/-! ## The end-to-end scenario of the specification -/

/-- Probe result A of the scenario: 80% used. -/
def probeA : ProbeResult :=
  { config := "cfgA".toList, pod := "podA".toList,
    free := "/dev/sda1 10G 8G 2G 80% /prometheus".toList, usage := "500M /prometheus/".toList }

/-- Probe result B of the scenario: 40% used. -/
def probeB : ProbeResult :=
  { config := "cfgB".toList, pod := "podB".toList,
    free := "... 40%  ...".toList, usage := "200M /prometheus/".toList }

/-- The row of the table for probe result A. -/
def rowA : ProbeResult := { probeA with free := "10G 8G 2G 80% /prometheus".toList }

/-- The row of the table for probe result B. -/
def rowB : ProbeResult := { probeB with free := "... 40% ...".toList }

/-- A probe result whose free-space output is a `df` line without a percentage (a
file system that reports `-` in the `Use%` column); both outputs are non-empty. -/
def dashProbe : ProbeResult :=
  { config := "cfgD".toList, pod := "podD".toList,
    free := "tmpfs 0 0 0 - /prometheus".toList, usage := "0 /prometheus/".toList }

/-- The row the aggregation loop makes of `dashProbe`. -/
def dashRow : ProbeResult := { dashProbe with free := "0 0 0 - /prometheus".toList }

/-! ## A table of thirteen rows with ties -/

/-- A row of the table of ties. -/
def tieRow (pod free : String) : ProbeResult :=
  { config := "cfg".toList, pod := pod.toList, free := free.toList,
    usage := "1G /prometheus/".toList }

/-- Thirteen aggregated rows, in arrival order: `pod1` at 60%, the others at 50%. -/
def tieTable : List ProbeResult :=
  [ tieRow "pod0" "50%", tieRow "pod1" "60%", tieRow "pod2" "50%", tieRow "pod3" "50%",
    tieRow "pod4" "50%", tieRow "pod5" "50%", tieRow "pod6" "50%", tieRow "pod7" "50%",
    tieRow "pod8" "50%", tieRow "pod9" "50%", tieRow "pod10" "50%", tieRow "pod11" "50%",
    tieRow "pod12" "50%" ]

/-- The table of ties after the ranking step: `pod6` has moved in front of `pod0`. -/
def tieRanked : List ProbeResult :=
  [ tieRow "pod1" "60%", tieRow "pod6" "50%", tieRow "pod2" "50%", tieRow "pod3" "50%",
    tieRow "pod4" "50%", tieRow "pod5" "50%", tieRow "pod0" "50%", tieRow "pod7" "50%",
    tieRow "pod8" "50%", tieRow "pod9" "50%", tieRow "pod10" "50%", tieRow "pod11" "50%",
    tieRow "pod12" "50%" ]

/-! ## The fan-out of `main`: tasks, the results channel, the wait group -/

/-- Where `main` stands: still walking the directory and launching tasks, blocked in
`wg.Wait()`, or past the barrier (channel closed, aggregation loop running). -/
inductive Phase where
  | walking
  | waiting
  | aggregating
deriving DecidableEq, Repr

/-- A state of the producer/consumer system of `main`. -/
structure FanOut where
  /-- Where `main` stands. -/
  phase : Phase
  /-- Pairs `main` has not yet launched a task for. -/
  toLaunch : Nat
  /-- Tasks launched whose send on the results channel has not happened yet. -/
  running : Nat
  /-- Tasks whose send has happened and whose deferred `wg.Done()` has not. -/
  sent : Nat
  /-- Tasks that have returned. -/
  finished : Nat
  /-- Results in the channel. -/
  buffered : Nat
deriving DecidableEq, Repr

/-- The capacity of `resultsChan`: `make(chan []string, 100)`. -/
def chanCapacity : Nat := 100

/-- The counter of the wait group: tasks added and not yet done. -/
def FanOut.counter (s : FanOut) : Nat := s.running + s.sent

/-- The start of a run with `pairs` discovered (config, pod) pairs. -/
def FanOut.start (pairs : Nat) : FanOut :=
  { phase := .walking, toLaunch := pairs, running := 0, sent := 0, finished := 0, buffered := 0 }

/-- One step of the system.  `launch`: `wg.Add(1); go getDiskUsage(...)`.  `endWalk`: the walk
is over and `main` calls `wg.Wait()`.  `send`: a task sends its one result, possible only
while the channel is not full.  `done`: the deferred `wg.Done()` of a task that has sent.
`pass`: `wg.Wait()` returns, the counter being zero; `main` closes the channel and enters
the aggregation loop. -/
inductive Step : FanOut → FanOut → Prop where
  | launch (s : FanOut) : s.phase = .walking → 0 < s.toLaunch →
      Step s { s with toLaunch := s.toLaunch - 1, running := s.running + 1 }
  | endWalk (s : FanOut) : s.phase = .walking → s.toLaunch = 0 →
      Step s { s with phase := .waiting }
  | send (s : FanOut) : 0 < s.running → s.buffered < chanCapacity →
      Step s { s with running := s.running - 1, sent := s.sent + 1, buffered := s.buffered + 1 }
  | done (s : FanOut) : 0 < s.sent →
      Step s { s with sent := s.sent - 1, finished := s.finished + 1 }
  | pass (s : FanOut) : s.phase = .waiting → s.counter = 0 →
      Step s { s with phase := .aggregating }

/-- The states a run with `pairs` pairs can reach. -/
inductive Reachable (pairs : Nat) : FanOut → Prop where
  | start : Reachable pairs (FanOut.start pairs)
  | step {s t : FanOut} : Reachable pairs s → Step s t → Reachable pairs t

/-- No step is possible. -/
def Stuck (s : FanOut) : Prop := ∀ t, ¬ Step s t

/-- A bound on the number of steps left from a state: every step lowers it by at least
one. -/
def FanOut.stepsLeft (s : FanOut) : Nat :=
  3 * s.toLaunch + 2 * s.running + s.sent +
    (match s.phase with
     | .walking => 2
     | .waiting => 1
     | .aggregating => 0)

/-- A run of the system with `pairs` pairs: it begins in the start state and takes a step
whenever one is possible, whichever the scheduler picks; where no step is possible it
stays in its state. -/
def IsRun (pairs : Nat) (run : Nat → FanOut) : Prop :=
  run 0 = FanOut.start pairs ∧
    ∀ n, Step (run n) (run (n + 1)) ∨ (Stuck (run n) ∧ run (n + 1) = run n)

/-- One scheduler: `main` launches and ends the walk first, then tasks return before
others send. -/
def schedule (s : FanOut) : FanOut :=
  if s.phase = .walking ∧ 0 < s.toLaunch then
    { s with toLaunch := s.toLaunch - 1, running := s.running + 1 }
  else if s.phase = .walking then { s with phase := .waiting }
  else if 0 < s.sent then { s with sent := s.sent - 1, finished := s.finished + 1 }
  else if 0 < s.running ∧ s.buffered < chanCapacity then
    { s with running := s.running - 1, sent := s.sent + 1, buffered := s.buffered + 1 }
  else if s.phase = .waiting ∧ s.counter = 0 then { s with phase := .aggregating }
  else s

/-- The run of the scheduler `schedule`. -/
def scheduledRun (pairs : Nat) : Nat → FanOut
  | 0 => FanOut.start pairs
  | n + 1 => schedule (scheduledRun pairs n)

/-- The state in which more than 100 pairs leave the system: the channel is full, the
tasks that have not sent are blocked, `main` is blocked in `wg.Wait()`. -/
def FanOut.deadlock (pairs : Nat) : FanOut :=
  { phase := .waiting, toLaunch := 0, running := pairs - chanCapacity, sent := 0,
    finished := chanCapacity, buffered := chanCapacity }

/-! ## Vocabulary of the correctness proof of `sortSlice` -/

section Vocabulary

variable {α : Type}

/-- The sort key of the element at index `i`, 0 past the end. -/
def keyAt (key : α → Int) (data : List α) (i : Nat) : Int :=
  match data[i]? with
  | some x => key x
  | none => 0

/-- On the elements of `data` the comparator returns, without a fault, the strict order of
the keys. -/
def Good (less : α → α → Except Fault Bool) (key : α → Int) (data : List α) : Prop :=
  ∀ x ∈ data, ∀ y ∈ data, less x y = .ok (decide (key x < key y))

/-- The keys of `data[a:b]` do not decrease. -/
def SortedOn (key : α → Int) (data : List α) (a b : Nat) : Prop :=
  ∀ p q, a ≤ p → p ≤ q → q < b → keyAt key data p ≤ keyAt key data q

/-- The element before `data[a:b]`, when there is one, is not above any element of
`data[a:b]`: what `pdqsort_func` relies on when it looks at `data[a-1]`. -/
def LowerBounded (key : α → Int) (data : List α) (a b : Nat) : Prop :=
  0 < a → ∀ k, a ≤ k → k < b → keyAt key data (a - 1) ≤ keyAt key data k

/-- The second list comes from the first by swaps inside `[a, b)`. -/
inductive Shuf (a b : Nat) : List α → List α → Prop where
  | refl (d : List α) : Shuf a b d d
  | step {d d1 d2 : List α} (i j : Nat) : Shuf a b d d1 → a ≤ i → i < b → a ≤ j → j < b →
      Swap d1 i j = .ok d2 → Shuf a b d d2

/-- The heap order of `siftDown_func` on the nodes `lo ≤ i < hi` (offset `first`): no child
is above its parent. -/
def HeapOn (key : α → Int) (data : List α) (first lo hi : Nat) : Prop :=
  ∀ i c, lo ≤ i → c < hi → (c = 2 * i + 1 ∨ c = 2 * i + 2) →
    keyAt key data (first + c) ≤ keyAt key data (first + i)

end Vocabulary

end PodDiskUsage

namespace PodDiskUsage

/-! ## Lemmas on the string functions -/

theorem fieldsGo_clean (s : Str) :
    (∀ c ∈ (fieldsGo s).1, isSpace c = false) ∧
      ∀ u ∈ (fieldsGo s).2, u ≠ [] ∧ ∀ c ∈ u, isSpace c = false := by
  induction s with
  | nil => simp [fieldsGo]
  | cons c cs ih =>
    obtain ⟨ih1, ih2⟩ := ih
    by_cases hc : isSpace c = true
    · simp only [fieldsGo, hc, if_true]
      refine ⟨by simp, ?_⟩
      by_cases h1 : (fieldsGo cs).1 = []
      · simpa [h1] using ih2
      · intro u hu
        simp only [h1, if_false, List.mem_cons] at hu
        rcases hu with rfl | hu
        · exact ⟨h1, ih1⟩
        · exact ih2 u hu
    · have hc' : isSpace c = false := by simpa using hc
      simp only [fieldsGo, hc', Bool.false_eq_true, if_false]
      refine ⟨?_, ih2⟩
      intro d hd
      simp only [List.mem_cons] at hd
      rcases hd with rfl | hd
      · exact hc'
      · exact ih1 d hd

theorem fields_clean (s : Str) : ∀ u ∈ fields s, u ≠ [] ∧ ∀ c ∈ u, isSpace c = false := by
  intro u hu
  unfold fields at hu
  by_cases h1 : (fieldsGo s).1 = []
  · simp only [h1, if_true] at hu
    exact (fieldsGo_clean s).2 u hu
  · simp only [h1, if_false, List.mem_cons] at hu
    rcases hu with rfl | hu
    · exact ⟨h1, (fieldsGo_clean s).1⟩
    · exact (fieldsGo_clean s).2 u hu

theorem fieldsGo_token (t rest : Str) (ht : ∀ c ∈ t, isSpace c = false) :
    fieldsGo (t ++ rest) = (t ++ (fieldsGo rest).1, (fieldsGo rest).2) := by
  induction t with
  | nil => simp
  | cons c cs ih =>
    have hc : isSpace c = false := ht c (by simp)
    have := ih (fun d hd => ht d (by simp [hd]))
    simp [fieldsGo, hc, this]

theorem fieldsGo_blank (rest : Str) : fieldsGo (' ' :: rest) = ([], fields rest) := by
  have : isSpace ' ' = true := by decide
  simp [fieldsGo, fields, this]

theorem fields_join (ts : List Str) (h : ∀ u ∈ ts, u ≠ [] ∧ ∀ c ∈ u, isSpace c = false) :
    fields (join [' '] ts) = ts := by
  induction ts with
  | nil => simp [join, fields, fieldsGo]
  | cons t ts ih =>
    have ht := h t (by simp)
    have hts := ih (fun u hu => h u (by simp [hu]))
    cases ts with
    | nil =>
      have := fieldsGo_token t [] ht.2
      simp only [List.append_nil] at this
      simp [join, fields, this, fieldsGo, ht.1]
    | cons u us =>
      have h1 : join [' '] (t :: u :: us) = t ++ (' ' :: join [' '] (u :: us)) := by
        simp [join]
      rw [h1]
      unfold fields
      rw [fieldsGo_token t _ ht.2, fieldsGo_blank]
      simp [ht.1, hts]

theorem matchPercentAt_ne_nil {s m : Str} (h : matchPercentAt s = some m) : m ≠ [] := by
  unfold matchPercentAt at h
  simp only at h
  split at h
  · cases h; simp
  · cases h

theorem takeWhile_append_of_stop (p : Char → Bool) (s r : Str) (c : Char)
    (h : (s.dropWhile p).head? = some c) :
    (s ++ r).takeWhile p = s.takeWhile p ∧ ((s ++ r).dropWhile p).head? = some c := by
  induction s with
  | nil => simp at h
  | cons x xs ih =>
    by_cases hx : p x = true
    · simp only [List.dropWhile_cons, hx, if_true] at h
      have := ih h
      simp [List.takeWhile_cons, List.dropWhile_cons, hx, this]
    · have hx' : p x = false := by simpa using hx
      simp only [List.dropWhile_cons, hx', Bool.false_eq_true, if_false, List.head?_cons,
        Option.some.injEq] at h
      subst h
      simp [List.takeWhile_cons, List.dropWhile_cons, hx']

theorem matchPercentAt_append {s m : Str} (r : Str) (h : matchPercentAt s = some m) :
    matchPercentAt (s ++ r) = some m := by
  unfold matchPercentAt at h ⊢
  simp only at h ⊢
  split at h
  · rename_i hc
    obtain ⟨h1, h2⟩ := takeWhile_append_of_stop isDigit s r '%' hc.2
    rw [h1, h2]
    simpa [hc.1] using h
  · cases h

theorem findString_append {s : Str} (r : Str) (h : findString s ≠ []) :
    findString (s ++ r) ≠ [] := by
  induction s with
  | nil => simp [findString] at h
  | cons c cs ih =>
    cases hm : matchPercentAt (c :: cs) with
    | some m =>
      have h2 := matchPercentAt_append r hm
      have : findString (c :: cs ++ r) = m := by
        simp only [List.cons_append] at h2 ⊢
        simp [findString, h2]
      rw [this]
      exact matchPercentAt_ne_nil hm
    | none =>
      have h3 : findString (c :: cs) = findString cs := by simp [findString, hm]
      rw [h3] at h
      have h4 := ih h
      cases hm2 : matchPercentAt (c :: (cs ++ r)) with
      | some m =>
        have : findString (c :: cs ++ r) = m := by simp [findString, hm2]
        rw [this]
        exact matchPercentAt_ne_nil hm2
      | none =>
        have : findString (c :: cs ++ r) = findString (cs ++ r) := by simp [findString, hm2]
        rw [this]
        exact h4

theorem findString_prepend (l : Str) {s : Str} (h : findString s ≠ []) :
    findString (l ++ s) ≠ [] := by
  induction l with
  | nil => simpa using h
  | cons c cs ih =>
    cases hm : matchPercentAt (c :: (cs ++ s)) with
    | some m =>
      have : findString (c :: cs ++ s) = m := by simp [findString, hm]
      rw [this]
      exact matchPercentAt_ne_nil hm
    | none =>
      have : findString (c :: cs ++ s) = findString (cs ++ s) := by simp [findString, hm]
      rw [this]
      exact ih

theorem join_infix (sep : Str) (ts : List Str) (t : Str) (h : t ∈ ts) :
    ∃ l r, join sep ts = l ++ t ++ r := by
  induction ts with
  | nil => simp at h
  | cons u us ih =>
    cases us with
    | nil =>
      simp only [List.mem_singleton] at h
      subst h
      exact ⟨[], [], by simp [join]⟩
    | cons v vs =>
      simp only [List.mem_cons] at h
      rcases h with rfl | h
      · exact ⟨[], sep ++ join sep (v :: vs), by simp [join]⟩
      · obtain ⟨l, r, hlr⟩ := ih (by simpa using h)
        exact ⟨u ++ sep ++ l, r, by simp [join, hlr]⟩

theorem findString_join (ts : List Str) (t : Str) (h : t ∈ ts) (hm : findString t ≠ []) :
    findString (join [' '] ts) ≠ [] := by
  obtain ⟨l, r, hlr⟩ := join_infix [' '] ts t h
  rw [hlr, List.append_assoc]
  exact findString_prepend l (findString_append r hm)

theorem takeWhile_of_append_stop (p : Char → Bool) (s r : Str) (c e : Char)
    (hc : p c = false) (hne : c ≠ e) (h : ((s ++ c :: r).dropWhile p).head? = some e) :
    (s ++ c :: r).takeWhile p = s.takeWhile p ∧ (s.dropWhile p).head? = some e := by
  induction s with
  | nil =>
    simp only [List.nil_append, List.dropWhile_cons, hc, Bool.false_eq_true, if_false,
      List.head?_cons, Option.some.injEq] at h
    exact absurd h hne
  | cons x xs ih =>
    by_cases hx : p x = true
    · simp only [List.cons_append, List.dropWhile_cons, hx, if_true] at h
      have := ih h
      simp [List.takeWhile_cons, List.dropWhile_cons, hx, this]
    · have hx' : p x = false := by simpa using hx
      simp only [List.cons_append, List.dropWhile_cons, hx', Bool.false_eq_true, if_false,
        List.head?_cons, Option.some.injEq] at h
      subst h
      simp [List.takeWhile_cons, List.dropWhile_cons, hx']

theorem matchPercentAt_of_append {s m : Str} (r : Str)
    (h : matchPercentAt (s ++ ' ' :: r) = some m) : matchPercentAt s = some m := by
  unfold matchPercentAt at h ⊢
  simp only at h ⊢
  split at h
  · rename_i hc
    obtain ⟨h1, h2⟩ := takeWhile_of_append_stop isDigit s r ' ' '%' (by decide) (by decide) hc.2
    rw [h1] at h hc
    simpa [hc.1, h2] using h
  · cases h

theorem findString_of_append (s r : Str) (h : findString (s ++ ' ' :: r) ≠ []) :
    findString s ≠ [] ∨ findString r ≠ [] := by
  induction s with
  | nil =>
    right
    have hm : matchPercentAt (' ' :: r) = none := by
      unfold matchPercentAt
      simp [List.takeWhile_cons, show isDigit ' ' = false by decide]
    have e : findString ([] ++ ' ' :: r) = findString r := by simp [findString, hm]
    rw [e] at h
    exact h
  | cons c cs ih =>
    cases hm : matchPercentAt (c :: cs ++ ' ' :: r) with
    | some m =>
      left
      have h2 := matchPercentAt_of_append r hm
      have e : findString (c :: cs) = m := by simp [findString, h2]
      rw [e]
      exact matchPercentAt_ne_nil h2
    | none =>
      have hm' : matchPercentAt (c :: (cs ++ ' ' :: r)) = none := hm
      have e : findString (c :: cs ++ ' ' :: r) = findString (cs ++ ' ' :: r) := by
        simp [findString, hm']
      rw [e] at h
      rcases ih h with h1 | h1
      · left
        exact findString_prepend [c] h1
      · exact Or.inr h1

theorem findString_of_join (ts : List Str) (h : findString (join [' '] ts) ≠ []) :
    ∃ t ∈ ts, findString t ≠ [] := by
  induction ts with
  | nil => simp [join, findString] at h
  | cons u us ih =>
    cases us with
    | nil => exact ⟨u, List.mem_singleton_self u, by simpa [join] using h⟩
    | cons v vs =>
      have e : join [' '] (u :: v :: vs) = u ++ ' ' :: join [' '] (v :: vs) := by
        simp [join]
      rw [e] at h
      rcases findString_of_append u _ h with h1 | h1
      · exact ⟨u, List.mem_cons_self _ _, h1⟩
      · obtain ⟨t, ht, hm⟩ := ih h1
        exact ⟨t, List.mem_cons_of_mem _ ht, hm⟩

end PodDiskUsage

namespace PodDiskUsage

/-! ## Swaps, keys and the relation `Shuf` -/

section SortBasics

theorem ok_bind {ε α β : Type} (a : α) (f : α → Except ε β) :
    (Except.ok a >>= f) = f a := rfl

theorem pure_eq_ok {ε α : Type} (a : α) : (pure a : Except ε α) = Except.ok a := rfl

variable {α : Type}

theorem set_perm_cons (t : List α) (j : Nat) (y h : α) (hy : t[j]? = some y) :
    (y :: t.set j h).Perm (h :: t) := by
  induction t generalizing j with
  | nil => simp at hy
  | cons u us ih =>
    cases j with
    | zero =>
      simp only [List.getElem?_cons_zero, Option.some.injEq] at hy
      subst hy
      simp only [List.set_cons_zero]
      exact List.Perm.swap _ _ _
    | succ j =>
      simp only [List.getElem?_cons_succ] at hy
      simp only [List.set_cons_succ]
      exact (List.Perm.swap _ _ _).trans (((ih j hy).cons u).trans (List.Perm.swap _ _ _))

theorem swap_perm_lt (d : List α) (i j : Nat) (x y : α) (hij : i < j)
    (hx : d[i]? = some x) (hy : d[j]? = some y) : ((d.set i y).set j x).Perm d := by
  induction d generalizing i j with
  | nil => simp at hx
  | cons h t ih =>
    cases j with
    | zero => omega
    | succ j =>
      simp only [List.getElem?_cons_succ] at hy
      cases i with
      | zero =>
        simp only [List.getElem?_cons_zero, Option.some.injEq] at hx
        subst hx
        simp only [List.set_cons_zero, List.set_cons_succ]
        exact set_perm_cons t j y _ hy
      | succ i =>
        simp only [List.getElem?_cons_succ] at hx
        simp only [List.set_cons_succ]
        exact (ih i j (by omega) hx hy).cons h

theorem swap_perm (d : List α) (i j : Nat) (x y : α)
    (hx : d[i]? = some x) (hy : d[j]? = some y) : ((d.set i y).set j x).Perm d := by
  rcases Nat.lt_trichotomy i j with h | h | h
  · exact swap_perm_lt d i j x y h hx hy
  · subst h
    rw [hx] at hy
    cases hy
    rw [List.set_set]
    have hi : i < d.length := by
      rcases List.getElem?_eq_some.mp hx with ⟨h, _⟩
      exact h
    have : d.set i x = d := by
      apply List.ext_getElem?
      intro k
      rw [List.getElem?_set]
      by_cases hk : i = k
      · subst hk; simp [hi, hx]
      · simp [hk]
    rw [this]
  · have hne : i ≠ j := by omega
    rw [List.set_comm y x d hne]
    exact swap_perm_lt d j i y x h hy hx

/-- What a swap of two indices in range does. -/
theorem Swap_spec (d : List α) (i j : Nat) (hi : i < d.length) (hj : j < d.length) :
    ∃ d', Swap d i j = .ok d' ∧ d'.length = d.length ∧ d'.Perm d ∧
      ∀ k, d'[k]? = if k = j then d[i]? else if k = i then d[j]? else d[k]? := by
  have hx : d[i]? = some d[i] := List.getElem?_eq_getElem hi
  have hy : d[j]? = some d[j] := List.getElem?_eq_getElem hj
  refine ⟨(d.set i d[j]).set j d[i], ?_, by simp, swap_perm d i j _ _ hx hy, ?_⟩
  · unfold Swap
    rw [hx, hy]
  · intro k
    rw [List.getElem?_set, List.getElem?_set]
    by_cases hkj : k = j
    · subst hkj
      simp [hj, hx]
    · have hkj' : ¬ j = k := fun h => hkj h.symm
      simp only [hkj, hkj', if_false]
      by_cases hki : k = i
      · subst hki
        simp [hi, hy]
      · have hki' : ¬ i = k := fun h => hki h.symm
        simp [hki, hki']

theorem Swap_ok_inv {d d' : List α} {i j : Nat} (h : Swap d i j = .ok d') :
    i < d.length ∧ j < d.length := by
  unfold Swap at h
  cases hx : d[i]? with
  | none => simp [hx] at h
  | some x =>
    cases hy : d[j]? with
    | none => simp [hx, hy] at h
    | some y =>
      exact ⟨(List.getElem?_eq_some.mp hx).1, (List.getElem?_eq_some.mp hy).1⟩

theorem Swap_facts {d d' : List α} {i j : Nat} (h : Swap d i j = .ok d') :
    d'.length = d.length ∧ d'.Perm d ∧
      ∀ k, d'[k]? = if k = j then d[i]? else if k = i then d[j]? else d[k]? := by
  obtain ⟨hi, hj⟩ := Swap_ok_inv h
  obtain ⟨d2, h2, r⟩ := Swap_spec d i j hi hj
  rw [h] at h2
  cases h2
  exact r

theorem keyAt_congr (K : α → Int) {d d' : List α} {k k' : Nat} (h : d'[k]? = d[k']?) :
    keyAt K d' k = keyAt K d k' := by
  unfold keyAt
  rw [h]

theorem Swap_keyAt (K : α → Int) {d d' : List α} {i j : Nat} (h : Swap d i j = .ok d') :
    ∀ k, keyAt K d' k =
      if k = j then keyAt K d i else if k = i then keyAt K d j else keyAt K d k := by
  intro k
  have := (Swap_facts h).2.2 k
  by_cases hkj : k = j
  · simp only [hkj, if_true] at this ⊢
    exact keyAt_congr K this
  · simp only [hkj, if_false] at this ⊢
    by_cases hki : k = i
    · simp only [hki, if_true] at this ⊢
      exact keyAt_congr K this
    · simp only [hki, if_false] at this ⊢
      exact keyAt_congr K this

theorem Swap_key_fst (K : α → Int) {d d' : List α} {i j : Nat} (h : Swap d i j = .ok d') :
    keyAt K d' i = keyAt K d j := by
  rw [Swap_keyAt K h i]
  by_cases hij : i = j
  · simp only [hij, if_true]
  · simp only [hij, if_false, if_true]

theorem Swap_key_snd (K : α → Int) {d d' : List α} {i j : Nat} (h : Swap d i j = .ok d') :
    keyAt K d' j = keyAt K d i := by
  rw [Swap_keyAt K h j]
  simp only [if_true]

theorem Swap_key_other (K : α → Int) {d d' : List α} {i j : Nat} (h : Swap d i j = .ok d')
    (k : Nat) (hi : k ≠ i) (hj : k ≠ j) : keyAt K d' k = keyAt K d k := by
  rw [Swap_keyAt K h k]
  simp only [hi, hj, if_false]

theorem Shuf.length_eq {a b : Nat} {d d' : List α} (h : Shuf a b d d') :
    d'.length = d.length := by
  induction h with
  | refl => rfl
  | step i j _ _ _ _ _ hs ih => rw [(Swap_facts hs).1, ih]

theorem Shuf.perm {a b : Nat} {d d' : List α} (h : Shuf a b d d') : d'.Perm d := by
  induction h with
  | refl => exact List.Perm.refl _
  | step i j _ _ _ _ _ hs ih => exact (Swap_facts hs).2.1.trans ih

theorem Shuf.frame {a b : Nat} {d d' : List α} (h : Shuf a b d d') (k : Nat)
    (hk : k < a ∨ b ≤ k) : d'[k]? = d[k]? := by
  induction h with
  | refl => rfl
  | step i j _ hai hib haj hjb hs ih =>
    rw [(Swap_facts hs).2.2 k]
    have h1 : ¬ k = j := by omega
    have h2 : ¬ k = i := by omega
    simp only [h1, h2, if_false]
    exact ih

theorem Shuf.keyAt_frame (K : α → Int) {a b : Nat} {d d' : List α} (h : Shuf a b d d')
    (k : Nat) (hk : k < a ∨ b ≤ k) : keyAt K d' k = keyAt K d k :=
  keyAt_congr K (h.frame k hk)

theorem Shuf.bound (K : α → Int) {a b : Nat} {d d' : List α} (h : Shuf a b d d')
    (P : Int → Prop) (hP : ∀ k, a ≤ k → k < b → P (keyAt K d k)) :
    ∀ k, a ≤ k → k < b → P (keyAt K d' k) := by
  induction h with
  | refl => exact hP
  | step i j _ hai hib haj hjb hs ih =>
    intro k hak hkb
    rw [Swap_keyAt K hs k]
    split_ifs
    · exact ih i hai hib
    · exact ih j haj hjb
    · exact ih k hak hkb

theorem Shuf.trans {a b : Nat} {d d1 d2 : List α} (h1 : Shuf a b d d1) (h2 : Shuf a b d1 d2) :
    Shuf a b d d2 := by
  induction h2 with
  | refl => exact h1
  | step i j _ hai hib haj hjb hs ih => exact Shuf.step i j ih hai hib haj hjb hs

theorem Shuf.mono {a b a' b' : Nat} {d d' : List α} (h : Shuf a b d d') (ha : a' ≤ a)
    (hb : b ≤ b') : Shuf a' b' d d' := by
  induction h with
  | refl => exact Shuf.refl _
  | step i j _ hai hib haj hjb hs ih =>
    exact Shuf.step i j ih (by omega) (by omega) (by omega) (by omega) hs

theorem Shuf.one {a b : Nat} {d d' : List α} {i j : Nat} (hai : a ≤ i) (hib : i < b)
    (haj : a ≤ j) (hjb : j < b) (hs : Swap d i j = .ok d') : Shuf a b d d' :=
  Shuf.step i j (Shuf.refl d) hai hib haj hjb hs

theorem Good.of_perm {L : α → α → Except Fault Bool} {K : α → Int} {d d' : List α}
    (hg : Good L K d) (hp : d'.Perm d) : Good L K d' := by
  intro x hx y hy
  exact hg x (hp.mem_iff.mp hx) y (hp.mem_iff.mp hy)

theorem Good.goodShuf {L : α → α → Except Fault Bool} {K : α → Int} {a b : Nat}
    {d d' : List α} (hg : Good L K d) (h : Shuf a b d d') : Good L K d' :=
  hg.of_perm h.perm

/-- On good data `Less` is the strict order of the keys at the two indices. -/
theorem Less_spec {L : α → α → Except Fault Bool} {K : α → Int} {d : List α}
    (hg : Good L K d) (i j : Nat) (hi : i < d.length) (hj : j < d.length) :
    Less L d i j = .ok (decide (keyAt K d i < keyAt K d j)) := by
  have hx : d[i]? = some d[i] := List.getElem?_eq_getElem hi
  have hy : d[j]? = some d[j] := List.getElem?_eq_getElem hj
  unfold Less keyAt
  rw [hx, hy]
  exact hg _ (List.getElem_mem hi) _ (List.getElem_mem hj)

theorem LowerBounded.lowerShuf (K : α → Int) {a b : Nat} {d d' : List α}
    (hl : LowerBounded K d a b) (h : Shuf a b d d') : LowerBounded K d' a b := by
  intro ha k hak hkb
  rw [h.keyAt_frame K (a - 1) (by omega)]
  exact h.bound K (fun v => keyAt K d (a - 1) ≤ v) (hl ha) k hak hkb

theorem SortedOn.sortedFrame (K : α → Int) {a b lo hi : Nat} {d d' : List α}
    (hs : SortedOn K d lo hi) (h : Shuf a b d d') (hd : hi ≤ a ∨ b ≤ lo) :
    SortedOn K d' lo hi := by
  intro p q hp hpq hq
  rw [h.keyAt_frame K p (by omega), h.keyAt_frame K q (by omega)]
  exact hs p q hp hpq hq

/-- Sortedness of adjacent pairs is sortedness. -/
theorem SortedOn.of_adjacent (K : α → Int) (d : List α) (a b : Nat)
    (h : ∀ k, a ≤ k → k + 1 < b → keyAt K d k ≤ keyAt K d (k + 1)) :
    SortedOn K d a b := by
  intro p q hp hpq hq
  induction q with
  | zero =>
    have : p = 0 := by omega
    subst this
    exact le_refl _
  | succ q ih =>
    rcases Nat.eq_or_lt_of_le hpq with h1 | h1
    · rw [h1]
    · have := ih (by omega) (by omega)
      have := h q (by omega) (by omega)
      omega

theorem bind_ok_inv {ε α β : Type} {x : Except ε α} {f : α → Except ε β} {r : β}
    (h : (x >>= f) = Except.ok r) : ∃ a, x = Except.ok a ∧ f a = Except.ok r := by
  cases x with
  | error e => cases h
  | ok a => exact ⟨a, rfl, h⟩

theorem pure_ok_inv {ε α : Type} {a r : α} (h : (pure a : Except ε α) = Except.ok r) :
    a = r := by
  cases h
  rfl

theorem Swap_perm {α : Type} {d d' : List α} {i j : Nat} (h : Swap d i j = .ok d') :
    d'.Perm d := (Swap_facts h).2.1

end SortBasics

end PodDiskUsage

namespace PodDiskUsage

/-! ## Insertion sort -/

section InsertionSort

variable {α : Type} {L : α → α → Except Fault Bool} {K : α → Int}

theorem insertionInner_spec (a i : Nat) : ∀ (j : Nat) (d : List α), Good L K d →
    a ≤ j → j ≤ i → i < d.length →
    (∀ p q, a ≤ p → p ≤ q → q ≤ i → p ≠ j → q ≠ j → keyAt K d p ≤ keyAt K d q) →
    (∀ q, j < q → q ≤ i → keyAt K d j ≤ keyAt K d q) →
    ∃ d', insertionInner L a j d = .ok d' ∧ Shuf a (i + 1) d d' ∧
      SortedOn K d' a (i + 1) := by
  intro j
  induction j with
  | zero =>
    intro d hg haj hji hi h1 h2
    refine ⟨d, rfl, Shuf.refl d, ?_⟩
    intro p q hp hpq hq
    have ha : a = 0 := by omega
    by_cases hp0 : p = 0
    · by_cases hq0 : q = 0
      · rw [hp0, hq0]
      · rw [hp0]; exact h2 q (by omega) (by omega)
    · exact h1 p q hp hpq (by omega) hp0 (by omega)
  | succ j ih =>
    intro d hg haj hji hi h1 h2
    by_cases haj' : j + 1 > a
    · have hL := Less_spec hg (j + 1) j (by omega) (by omega)
      by_cases hlt : keyAt K d (j + 1) < keyAt K d j
      · obtain ⟨d1, hs, hlen, hperm, hget⟩ := Swap_spec d (j + 1) j (by omega) (by omega)
        have hK := Swap_keyAt K hs
        have hg1 : Good L K d1 := hg.of_perm hperm
        have hsh : Shuf a (i + 1) d d1 :=
          Shuf.one (by omega) (by omega) (by omega) (by omega) hs
        obtain ⟨d', hr, hsh', hsorted⟩ := ih d1 hg1 (by omega) (by omega) (by omega)
          (by
            intro p q hp hpq hq hpj hqj
            rw [hK p, hK q]
            by_cases hq1 : q = j + 1
            · by_cases hp1 : p = j + 1
              · simp [hp1, hq1]
              · have hpj1 : p ≠ j := hpj
                simp only [hq1, hp1, hpj1, if_false]
                simp only [show ¬ (j + 1 = j) by omega, if_false, if_true]
                exact h1 p j hp (by omega) (by omega) hp1 (by omega)
            · by_cases hp1 : p = j + 1
              · simp only [hp1, hq1, hqj, if_false]
                simp only [show ¬ (j + 1 = j) by omega, if_false, if_true]
                exact h1 j q (by omega) (by omega) hq (by omega) hq1
              · simp only [hp1, hq1, hqj, hpj, if_false]
                exact h1 p q hp hpq hq hp1 hq1)
          (by
            intro q hjq hq
            rw [hK j, hK q]
            simp only [if_true]
            by_cases hq1 : q = j + 1
            · simp only [hq1, show ¬ (j + 1 = j) by omega, if_false, if_true]
              omega
            · have hqj : ¬ q = j := by omega
              simp only [hq1, hqj, if_false]
              exact h2 q (by omega) hq)
        refine ⟨d', ?_, hsh.trans hsh', hsorted⟩
        unfold insertionInner
        simp only [haj', if_true, hL, hlt, decide_True, bind, Except.bind, hs]
        exact hr
      · refine ⟨d, ?_, Shuf.refl d, ?_⟩
        · unfold insertionInner
          simp only [haj', if_true, hL, hlt, decide_False, bind, Except.bind]
          rfl
        · intro p q hp hpq hq
          by_cases hq1 : q = j + 1
          · by_cases hp1 : p = j + 1
            · rw [hp1, hq1]
            · have := h1 p j hp (by omega) (by omega) hp1 (by omega)
              rw [hq1]
              omega
          · by_cases hp1 : p = j + 1
            · rw [hp1]
              exact h2 q (by omega) (by omega)
            · exact h1 p q hp hpq (by omega) hp1 hq1
    · refine ⟨d, ?_, Shuf.refl d, ?_⟩
      · unfold insertionInner
        simp only [haj', if_false]
        rfl
      · have haeq : a = j + 1 := by omega
        intro p q hp hpq hq
        by_cases hp1 : p = j + 1
        · by_cases hq1 : q = j + 1
          · rw [hp1, hq1]
          · rw [hp1]
            exact h2 q (by omega) (by omega)
        · exact h1 p q hp hpq (by omega) hp1 (by omega)

theorem insertionOuter_spec (a b : Nat) : ∀ (n i : Nat) (d : List α), Good L K d →
    a < i → i + n = b → b ≤ d.length → SortedOn K d a i →
    ∃ d', insertionOuter L a n i d = .ok d' ∧ Shuf a b d d' ∧ SortedOn K d' a b := by
  intro n
  induction n with
  | zero =>
    intro i d hg hai hin hb hs
    have : i = b := by omega
    subst this
    exact ⟨d, rfl, Shuf.refl d, hs⟩
  | succ n ih =>
    intro i d hg hai hin hb hs
    obtain ⟨d1, h1, hsh1, hs1⟩ := insertionInner_spec (L := L) (K := K) a i i d hg
      (by omega) (le_refl i) (by omega)
      (by
        intro p q hp hpq hq hpi hqi
        exact hs p q hp hpq (by omega))
      (by intro q h1 h2; omega)
    obtain ⟨d', h2, hsh2, hs2⟩ := ih (i + 1) d1 (hg.goodShuf hsh1) (by omega) (by omega)
      (by rw [hsh1.length_eq]; exact hb) hs1
    refine ⟨d', ?_, (hsh1.mono (le_refl a) (by omega)).trans hsh2, hs2⟩
    unfold insertionOuter
    simp only [h1, bind, Except.bind]
    exact h2

/-- The function `insertionSort_func` sorts `data[a:b]` and touches nothing else. -/
theorem insertionSort_spec (d : List α) (a b : Nat) (hg : Good L K d)
    (hb : b ≤ d.length) :
    ∃ d', insertionSort_func L d a b = .ok d' ∧ Shuf a b d d' ∧ SortedOn K d' a b := by
  unfold insertionSort_func
  by_cases hab : a + 1 < b
  · exact insertionOuter_spec a b (b - (a + 1)) (a + 1) d hg (by omega) (by omega) hb
      (by
        intro p q hp hpq hq
        have : p = q := by omega
        rw [this])
  · have h0 : b - (a + 1) = 0 := by omega
    rw [h0]
    refine ⟨d, rfl, Shuf.refl d, ?_⟩
    intro p q hp hpq hq
    have : p = q := by omega
    rw [this]

/-! ### Insertion sort keeps elements of equal sort key in their order -/

theorem adj_swap_filter (p : α → Bool) : ∀ (d : List α) (j : Nat) (x y : α),
    d[j]? = some x → d[j + 1]? = some y → (p x = false ∨ p y = false) →
    ((d.set (j + 1) x).set j y).filter p = d.filter p := by
  intro d
  induction d with
  | nil => intro j x y hx; simp at hx
  | cons h t ih =>
    intro j x y hx hy hp
    cases j with
    | zero =>
      simp only [List.getElem?_cons_zero, Option.some.injEq] at hx
      subst hx
      simp only [Nat.zero_add, List.getElem?_cons_succ] at hy
      cases t with
      | nil => simp at hy
      | cons u us =>
        simp only [List.getElem?_cons_zero, Option.some.injEq] at hy
        subst hy
        simp only [Nat.zero_add, List.set_cons_succ, List.set_cons_zero]
        rcases hp with hp | hp <;> simp [List.filter_cons, hp]
    | succ j =>
      simp only [List.getElem?_cons_succ] at hx hy
      simp only [List.set_cons_succ, List.filter_cons]
      rw [ih j x y hx hy hp]

theorem Swap_adj_filter (v : Int) {d d' : List α} {j : Nat} (hs : Swap d (j + 1) j = .ok d')
    (hne : keyAt K d (j + 1) ≠ keyAt K d j) :
    d'.filter (fun x => decide (K x = v)) = d.filter (fun x => decide (K x = v)) := by
  obtain ⟨h1, h2⟩ := Swap_ok_inv hs
  have hx : d[j]? = some d[j] := List.getElem?_eq_getElem h2
  have hy : d[j + 1]? = some d[j + 1] := List.getElem?_eq_getElem h1
  have hd : d' = (d.set (j + 1) d[j]).set j d[j + 1] := by
    unfold Swap at hs
    rw [hx, hy] at hs
    simp only [Except.ok.injEq] at hs
    exact hs.symm
  rw [hd]
  apply adj_swap_filter _ d j _ _ hx hy
  have k1 : keyAt K d (j + 1) = K d[j + 1] := by unfold keyAt; rw [hy]
  have k2 : keyAt K d j = K d[j] := by unfold keyAt; rw [hx]
  rw [k1, k2] at hne
  by_cases hv : K d[j] = v
  · right
    simp only [decide_eq_false_iff_not]
    intro h
    exact hne (h.trans hv.symm)
  · left
    simpa using hv

theorem insertionInner_stable (a : Nat) (v : Int) : ∀ (j : Nat) (d d' : List α),
    Good L K d → j < d.length → insertionInner L a j d = .ok d' →
    d'.filter (fun x => decide (K x = v)) = d.filter (fun x => decide (K x = v)) := by
  intro j
  induction j with
  | zero =>
    intro d d' hg hj h
    unfold insertionInner at h
    cases h
    rfl
  | succ j ih =>
    intro d d' hg hj h
    unfold insertionInner at h
    by_cases haj : j + 1 > a
    · have hL := Less_spec hg (j + 1) j (by omega) (by omega)
      by_cases hlt : keyAt K d (j + 1) < keyAt K d j
      · obtain ⟨d1, hs, hlen, hperm, -⟩ := Swap_spec d (j + 1) j (by omega) (by omega)
        simp only [haj, if_true, hL, hlt, decide_True, bind, Except.bind, hs] at h
        rw [ih d1 d' (hg.of_perm hperm) (by omega) h]
        exact Swap_adj_filter v hs (by omega)
      · simp only [haj, if_true, hL, hlt, decide_False, bind, Except.bind] at h
        cases h
        rfl
    · simp only [haj, if_false] at h
      cases h
      rfl

theorem insertionInner_perm (a : Nat) : ∀ (j : Nat) (d d' : List α),
    insertionInner L a j d = .ok d' → d'.Perm d := by
  intro j
  induction j with
  | zero =>
    intro d d' h
    unfold insertionInner at h
    cases h
    exact List.Perm.refl _
  | succ j ih =>
    intro d d' h
    unfold insertionInner at h
    by_cases haj : j + 1 > a
    · simp only [haj, if_true, bind, Except.bind] at h
      cases hL : Less L d (j + 1) j with
      | error e => simp [hL] at h
      | ok c =>
        cases c with
        | false =>
          simp only [hL] at h
          cases h
          exact List.Perm.refl _
        | true =>
          simp only [hL, if_true] at h
          cases hs : Swap d (j + 1) j with
          | error e => simp [hs] at h
          | ok d1 =>
            simp only [hs] at h
            exact (ih d1 d' h).trans (Swap_facts hs).2.1
    · simp only [haj, if_false] at h
      cases h
      exact List.Perm.refl _

theorem insertionOuter_stable (a : Nat) (v : Int) : ∀ (n i : Nat) (d d' : List α),
    Good L K d → i + n ≤ d.length → insertionOuter L a n i d = .ok d' →
    d'.filter (fun x => decide (K x = v)) = d.filter (fun x => decide (K x = v)) := by
  intro n
  induction n with
  | zero =>
    intro i d d' hg hi h
    unfold insertionOuter at h
    cases h
    rfl
  | succ n ih =>
    intro i d d' hg hi h
    unfold insertionOuter at h
    cases h1 : insertionInner L a i d with
    | error e => simp [h1, bind, Except.bind] at h
    | ok d1 =>
      simp only [h1, bind, Except.bind] at h
      have hp := insertionInner_perm a i d d1 h1
      rw [ih (i + 1) d1 d' (hg.of_perm hp) (by rw [hp.length_eq]; omega) h]
      exact insertionInner_stable a v i d d1 hg (by omega) h1

/-- Insertion sort keeps the elements of one sort key in the order they had. -/
theorem insertionSort_stable (d d' : List α) (a b : Nat) (v : Int) (hg : Good L K d)
    (hb : b ≤ d.length) (h : insertionSort_func L d a b = .ok d') :
    d'.filter (fun x => decide (K x = v)) = d.filter (fun x => decide (K x = v)) := by
  unfold insertionSort_func at h
  by_cases hab : a + 1 < b
  · exact insertionOuter_stable a v _ _ d d' hg (by omega) h
  · have h0 : b - (a + 1) = 0 := by omega
    rw [h0] at h
    unfold insertionOuter at h
    cases h
    rfl

end InsertionSort

end PodDiskUsage

namespace PodDiskUsage

/-! ## The partitions -/

section Partition

variable {α : Type} {L : α → α → Except Fault Bool} {K : α → Int}

theorem scanUp_spec (d : List α) (a : Nat) (hg : Good L K d) (ha : a < d.length) :
    ∀ (n i : Nat), i + n ≤ d.length →
    ∃ i', scanUp L d a n i = .ok i' ∧ i ≤ i' ∧ i' ≤ i + n ∧
      (∀ k, i ≤ k → k < i' → keyAt K d k < keyAt K d a) ∧
      (i' < i + n → ¬ keyAt K d i' < keyAt K d a) := by
  intro n
  induction n with
  | zero =>
    intro i _
    exact ⟨i, rfl, le_refl i, le_refl _, by intro k h1 h2; omega, by intro h; omega⟩
  | succ n ih =>
    intro i hi
    have hL := Less_spec hg i a (by omega) ha
    by_cases hlt : keyAt K d i < keyAt K d a
    · obtain ⟨i', h1, h2, h3, h4, h5⟩ := ih (i + 1) (by omega)
      refine ⟨i', ?_, by omega, by omega, ?_, by intro h; exact h5 (by omega)⟩
      · unfold scanUp
        simp only [hL, hlt, decide_True, bind, Except.bind, if_true]
        exact h1
      · intro k hk1 hk2
        by_cases hki : k = i
        · rw [hki]; exact hlt
        · exact h4 k (by omega) hk2
    · refine ⟨i, ?_, le_refl i, by omega, by intro k h1 h2; omega, fun _ => hlt⟩
      unfold scanUp
      simp only [hL, hlt, decide_False, bind, Except.bind]
      rfl

theorem scanDown_spec (d : List α) (a : Nat) (hg : Good L K d) (ha : a < d.length) :
    ∀ (n j : Nat), n ≤ j → j < d.length →
    ∃ j', scanDown L d a n j = .ok j' ∧ j' ≤ j ∧ j ≤ j' + n ∧
      (∀ k, j' < k → k ≤ j → ¬ keyAt K d k < keyAt K d a) ∧
      (j < j' + n → keyAt K d j' < keyAt K d a) := by
  intro n
  induction n with
  | zero =>
    intro j _ _
    exact ⟨j, rfl, le_refl j, le_refl _, by intro k h1 h2; omega, by intro h; omega⟩
  | succ n ih =>
    intro j hnj hj
    have hL := Less_spec hg j a hj ha
    by_cases hlt : keyAt K d j < keyAt K d a
    · refine ⟨j, ?_, le_refl j, by omega, by intro k h1 h2; omega, fun _ => hlt⟩
      unfold scanDown
      simp only [hL, hlt, decide_True, bind, Except.bind, if_true]
      rfl
    · obtain ⟨j', h1, h2, h3, h4, h5⟩ := ih (j - 1) (by omega) (by omega)
      refine ⟨j', ?_, by omega, by omega, ?_, by intro h; exact h5 (by omega)⟩
      · unfold scanDown
        simp only [hL, hlt, decide_False, bind, Except.bind]
        exact h1
      · intro k hk1 hk2
        by_cases hkj : k = j
        · rw [hkj]; exact hlt
        · exact h4 k hk1 (by omega)

theorem partitionLoop_spec (a b : Nat) : ∀ (fuel : Nat) (d : List α) (i j : Nat),
    Good L K d → a + 1 ≤ i → i ≤ j + 1 → j < b → b ≤ d.length → j + 1 - i < fuel →
    (∀ k, a < k → k < i → keyAt K d k < keyAt K d a) →
    (∀ k, j < k → k < b → ¬ keyAt K d k < keyAt K d a) →
    ∃ d' j', partitionLoop L a fuel d i j = .ok (d', j') ∧ Shuf (a + 1) b d d' ∧
      a ≤ j' ∧ j' < b ∧
      (∀ k, a < k → k ≤ j' → keyAt K d' k < keyAt K d' a) ∧
      (∀ k, j' < k → k < b → ¬ keyAt K d' k < keyAt K d' a) := by
  intro fuel
  induction fuel with
  | zero => intro d i j _ _ _ _ _ hf; omega
  | succ fuel ih =>
    intro d i j hg hai hij hjb hb hf hlo hhi
    obtain ⟨i1, hu, hu1, hu2, hu3, hu4⟩ :=
      scanUp_spec (L := L) (K := K) d a hg (by omega) (j + 1 - i) i (by omega)
    obtain ⟨j1, hd, hd1, hd2, hd3, hd4⟩ :=
      scanDown_spec (L := L) (K := K) d a hg (by omega) (j + 1 - i1) j (by omega)
        (by omega)
    by_cases hgt : i1 > j1
    · refine ⟨d, j1, ?_, Shuf.refl d, by omega, by omega, ?_, ?_⟩
      · unfold partitionLoop
        simp only [hu, hd, bind, Except.bind, hgt, if_true]
        rfl
      · intro k hk1 hk2
        by_cases hki : k < i
        · exact hlo k hk1 hki
        · exact hu3 k (by omega) (by omega)
      · intro k hk1 hk2
        by_cases hkj : k ≤ j
        · exact hd3 k hk1 hkj
        · exact hhi k (by omega) hk2
    · have hi1 : ¬ keyAt K d i1 < keyAt K d a := hu4 (by omega)
      have hj1 : keyAt K d j1 < keyAt K d a := hd4 (by omega)
      have hne : i1 ≠ j1 := by
        intro h
        rw [h] at hi1
        exact hi1 hj1
      obtain ⟨d1, hs, hlen, hperm, -⟩ := Swap_spec d i1 j1 (by omega) (by omega)
      have hK := Swap_keyAt K hs
      have hKa : keyAt K d1 a = keyAt K d a := by
        rw [hK a]
        simp only [show ¬ a = j1 by omega, show ¬ a = i1 by omega, if_false]
      obtain ⟨d', j', hr, hsh, r1, r2, r3, r4⟩ := ih d1 (i1 + 1) (j1 - 1) (hg.of_perm hperm)
        (by omega) (by omega) (by omega) (by omega) (by omega)
        (by
          intro k hk1 hk2
          rw [hKa, hK k]
          by_cases hkj : k = j1
          · omega
          · simp only [hkj, if_false]
            by_cases hki : k = i1
            · simp only [hki, if_true]; exact hj1
            · simp only [hki, if_false]
              by_cases hki' : k < i
              · exact hlo k hk1 hki'
              · exact hu3 k (by omega) (by omega))
        (by
          intro k hk1 hk2
          rw [hKa, hK k]
          by_cases hkj : k = j1
          · simp only [hkj, if_true]; exact hi1
          · simp only [hkj, if_false]
            have hki : ¬ k = i1 := by omega
            simp only [hki, if_false]
            by_cases hkj' : k ≤ j
            · exact hd3 k (by omega) hkj'
            · exact hhi k (by omega) hk2)
      refine ⟨d', j', ?_, ?_, r1, r2, r3, r4⟩
      · unfold partitionLoop
        simp only [hu, hd, bind, Except.bind, hgt, if_false, hs]
        exact hr
      · exact (Shuf.one (by omega) (by omega) (by omega) (by omega) hs).trans hsh

/-- The function `partition_func`: the elements before the new pivot index are below the
pivot, those after it are not. -/
theorem partition_spec (d : List α) (a b pivot : Nat) (hg : Good L K d)
    (hap : a ≤ pivot) (hpb : pivot < b) (hb : b ≤ d.length) :
    ∃ d' mid ap, partition_func L d a b pivot = .ok (d', mid, ap) ∧ Shuf a b d d' ∧
      a ≤ mid ∧ mid < b ∧
      (∀ k, a ≤ k → k < mid → keyAt K d' k < keyAt K d' mid) ∧
      (∀ k, mid < k → k < b → keyAt K d' mid ≤ keyAt K d' k) := by
  obtain ⟨d0, hs0, hlen0, hperm0, -⟩ := Swap_spec d a pivot (by omega) (by omega)
  have hg0 : Good L K d0 := hg.of_perm hperm0
  have hsh0 : Shuf a b d d0 := Shuf.one (le_refl a) (by omega) hap hpb hs0
  obtain ⟨i1, hu, hu1, hu2, hu3, hu4⟩ :=
    scanUp_spec (L := L) (K := K) d0 a hg0 (by omega) (b - 1 + 1 - (a + 1)) (a + 1)
      (by omega)
  obtain ⟨j1, hd, hd1, hd2, hd3, hd4⟩ :=
    scanDown_spec (L := L) (K := K) d0 a hg0 (by omega) (b - 1 + 1 - i1) (b - 1)
      (by omega) (by omega)
  by_cases hgt : i1 > j1
  · obtain ⟨d1, hs1, hlen1, hperm1, -⟩ := Swap_spec d0 j1 a (by omega) (by omega)
    have hK := Swap_keyAt K hs1
    refine ⟨d1, j1, true, ?_, ?_, by omega, by omega, ?_, ?_⟩
    · unfold partition_func
      simp only [hs0, hu, hd, bind, Except.bind, hgt, if_true, hs1]
      rfl
    · exact hsh0.trans (Shuf.one (by omega) (by omega) (le_refl a) (by omega) hs1)
    · intro k hk1 hk2
      rw [hK k, hK j1]
      have h1 : ¬ j1 = a := by omega
      have h2 : ¬ k = j1 := by omega
      simp only [h1, h2, if_false, if_true]
      by_cases hka : k = a
      · simp only [hka, if_true]
        exact hu3 j1 (by omega) (by omega)
      · simp only [hka, if_false]
        exact hu3 k (by omega) (by omega)
    · intro k hk1 hk2
      rw [hK k, hK j1]
      have h2 : ¬ k = j1 := by omega
      have h3 : ¬ k = a := by omega
      simp only [h2, h3, if_false, if_true]
      have := hd3 k hk1 (by omega)
      by_cases hja : j1 = a
      · simp only [hja, if_true]; omega
      · simp only [hja, if_false]; omega
  · have hi1 : ¬ keyAt K d0 i1 < keyAt K d0 a := hu4 (by omega)
    have hj1 : keyAt K d0 j1 < keyAt K d0 a := hd4 (by omega)
    have hne : i1 ≠ j1 := by
      intro h
      rw [h] at hi1
      exact hi1 hj1
    obtain ⟨d1, hs1, hlen1, hperm1, -⟩ := Swap_spec d0 i1 j1 (by omega) (by omega)
    have hK1 := Swap_keyAt K hs1
    have hKa : keyAt K d1 a = keyAt K d0 a := by
      rw [hK1 a]
      simp only [show ¬ a = j1 by omega, show ¬ a = i1 by omega, if_false]
    have hg1 : Good L K d1 := hg0.of_perm hperm1
    obtain ⟨d2, j2, hr, hsh2, r1, r2, r3, r4⟩ :=
      partitionLoop_spec (L := L) (K := K) a b (b - a) d1 (i1 + 1) (j1 - 1) hg1
        (by omega) (by omega) (by omega) (by omega) (by omega)
        (by
          intro k hk1 hk2
          rw [hKa, hK1 k]
          by_cases hkj : k = j1
          · omega
          · simp only [hkj, if_false]
            by_cases hki : k = i1
            · simp only [hki, if_true]; exact hj1
            · simp only [hki, if_false]
              exact hu3 k (by omega) (by omega))
        (by
          intro k hk1 hk2
          rw [hKa, hK1 k]
          by_cases hkj : k = j1
          · simp only [hkj, if_true]; exact hi1
          · simp only [hkj, if_false]
            have hki : ¬ k = i1 := by omega
            simp only [hki, if_false]
            exact hd3 k (by omega) (by omega))
    have hlen2 := hsh2.length_eq
    obtain ⟨d3, hs3, hlen3, hperm3, -⟩ := Swap_spec d2 j2 a (by omega) (by omega)
    have hK3 := Swap_keyAt K hs3
    refine ⟨d3, j2, false, ?_, ?_, r1, r2, ?_, ?_⟩
    · unfold partition_func
      simp only [hs0, hu, hd, bind, Except.bind, hgt, if_false, hs1, hr, hs3]
      rfl
    · exact (hsh0.trans (Shuf.one (by omega) (by omega) (by omega) (by omega) hs1)).trans
        ((hsh2.mono (by omega) (le_refl b)).trans
          (Shuf.one (by omega) (by omega) (le_refl a) (by omega) hs3))
    · intro k hk1 hk2
      rw [hK3 k, Swap_key_fst K hs3]
      have h2 : ¬ k = j2 := by omega
      simp only [h2, if_false, if_true]
      by_cases hka : k = a
      · simp only [hka, if_true]
        exact r3 j2 (by omega) (le_refl _)
      · simp only [hka, if_false]
        exact r3 k (by omega) (by omega)
    · intro k hk1 hk2
      rw [hK3 k, Swap_key_fst K hs3]
      have h2 : ¬ k = j2 := by omega
      have h3 : ¬ k = a := by omega
      simp only [h2, h3, if_false, if_true]
      have := r4 k hk1 hk2
      omega

theorem scanUpEq_spec (d : List α) (a : Nat) (hg : Good L K d) (ha : a < d.length) :
    ∀ (n i : Nat), i + n ≤ d.length →
    ∃ i', scanUpEq L d a n i = .ok i' ∧ i ≤ i' ∧ i' ≤ i + n ∧
      (∀ k, i ≤ k → k < i' → ¬ keyAt K d a < keyAt K d k) ∧
      (i' < i + n → keyAt K d a < keyAt K d i') := by
  intro n
  induction n with
  | zero =>
    intro i _
    exact ⟨i, rfl, le_refl i, le_refl _, by intro k h1 h2; omega, by intro h; omega⟩
  | succ n ih =>
    intro i hi
    have hL := Less_spec hg a i ha (by omega)
    by_cases hlt : keyAt K d a < keyAt K d i
    · refine ⟨i, ?_, le_refl i, by omega, by intro k h1 h2; omega, fun _ => hlt⟩
      unfold scanUpEq
      simp only [hL, hlt, decide_True, bind, Except.bind, if_true]
      rfl
    · obtain ⟨i', h1, h2, h3, h4, h5⟩ := ih (i + 1) (by omega)
      refine ⟨i', ?_, by omega, by omega, ?_, by intro h; exact h5 (by omega)⟩
      · unfold scanUpEq
        simp only [hL, hlt, decide_False, bind, Except.bind]
        exact h1
      · intro k hk1 hk2
        by_cases hki : k = i
        · rw [hki]; exact hlt
        · exact h4 k (by omega) hk2

theorem scanDownEq_spec (d : List α) (a : Nat) (hg : Good L K d) (ha : a < d.length) :
    ∀ (n j : Nat), n ≤ j → j < d.length →
    ∃ j', scanDownEq L d a n j = .ok j' ∧ j' ≤ j ∧ j ≤ j' + n ∧
      (∀ k, j' < k → k ≤ j → keyAt K d a < keyAt K d k) ∧
      (j < j' + n → ¬ keyAt K d a < keyAt K d j') := by
  intro n
  induction n with
  | zero =>
    intro j _ _
    exact ⟨j, rfl, le_refl j, le_refl _, by intro k h1 h2; omega, by intro h; omega⟩
  | succ n ih =>
    intro j hnj hj
    have hL := Less_spec hg a j ha hj
    by_cases hlt : keyAt K d a < keyAt K d j
    · obtain ⟨j', h1, h2, h3, h4, h5⟩ := ih (j - 1) (by omega) (by omega)
      refine ⟨j', ?_, by omega, by omega, ?_, by intro h; exact h5 (by omega)⟩
      · unfold scanDownEq
        simp only [hL, hlt, decide_True, bind, Except.bind, if_true]
        exact h1
      · intro k hk1 hk2
        by_cases hkj : k = j
        · rw [hkj]; exact hlt
        · exact h4 k hk1 (by omega)
    · refine ⟨j, ?_, le_refl j, by omega, by intro k h1 h2; omega, fun _ => hlt⟩
      unfold scanDownEq
      simp only [hL, hlt, decide_False, bind, Except.bind]
      rfl

theorem partitionEqualLoop_spec (a b : Nat) : ∀ (fuel : Nat) (d : List α) (i j : Nat),
    Good L K d → a + 1 ≤ i → i ≤ j + 1 → j < b → b ≤ d.length → j + 1 - i < fuel →
    (∀ k, a < k → k < i → ¬ keyAt K d a < keyAt K d k) →
    (∀ k, j < k → k < b → keyAt K d a < keyAt K d k) →
    ∃ d' i', partitionEqualLoop L a fuel d i j = .ok (d', i') ∧ Shuf (a + 1) b d d' ∧
      a < i' ∧ i' ≤ b ∧
      (∀ k, a < k → k < i' → ¬ keyAt K d' a < keyAt K d' k) ∧
      (∀ k, i' ≤ k → k < b → keyAt K d' a < keyAt K d' k) := by
  intro fuel
  induction fuel with
  | zero => intro d i j _ _ _ _ _ hf; omega
  | succ fuel ih =>
    intro d i j hg hai hij hjb hb hf hlo hhi
    obtain ⟨i1, hu, hu1, hu2, hu3, hu4⟩ :=
      scanUpEq_spec (L := L) (K := K) d a hg (by omega) (j + 1 - i) i (by omega)
    obtain ⟨j1, hd, hd1, hd2, hd3, hd4⟩ :=
      scanDownEq_spec (L := L) (K := K) d a hg (by omega) (j + 1 - i1) j (by omega)
        (by omega)
    by_cases hgt : i1 > j1
    · refine ⟨d, i1, ?_, Shuf.refl d, by omega, by omega, ?_, ?_⟩
      · unfold partitionEqualLoop
        simp only [hu, hd, bind, Except.bind, hgt, if_true]
        rfl
      · intro k hk1 hk2
        by_cases hki : k < i
        · exact hlo k hk1 hki
        · exact hu3 k (by omega) (by omega)
      · intro k hk1 hk2
        by_cases hkj : k ≤ j
        · exact hd3 k (by omega) hkj
        · exact hhi k (by omega) hk2
    · have hi1 : keyAt K d a < keyAt K d i1 := hu4 (by omega)
      have hj1 : ¬ keyAt K d a < keyAt K d j1 := hd4 (by omega)
      have hne : i1 ≠ j1 := by
        intro h
        rw [h] at hi1
        exact hj1 hi1
      obtain ⟨d1, hs, hlen, hperm, -⟩ := Swap_spec d i1 j1 (by omega) (by omega)
      have hK := Swap_keyAt K hs
      have hKa : keyAt K d1 a = keyAt K d a :=
        Swap_key_other K hs a (by omega) (by omega)
      obtain ⟨d', i', hr, hsh, r1, r2, r3, r4⟩ := ih d1 (i1 + 1) (j1 - 1) (hg.of_perm hperm)
        (by omega) (by omega) (by omega) (by omega) (by omega)
        (by
          intro k hk1 hk2
          rw [hKa, hK k]
          by_cases hkj : k = j1
          · omega
          · simp only [hkj, if_false]
            by_cases hki : k = i1
            · simp only [hki, if_true]; exact hj1
            · simp only [hki, if_false]
              by_cases hki' : k < i
              · exact hlo k hk1 hki'
              · exact hu3 k (by omega) (by omega))
        (by
          intro k hk1 hk2
          rw [hKa, hK k]
          by_cases hkj : k = j1
          · simp only [hkj, if_true]; exact hi1
          · simp only [hkj, if_false]
            have hki : ¬ k = i1 := by omega
            simp only [hki, if_false]
            by_cases hkj' : k ≤ j
            · exact hd3 k (by omega) hkj'
            · exact hhi k (by omega) hk2)
      refine ⟨d', i', ?_, ?_, r1, r2, r3, r4⟩
      · unfold partitionEqualLoop
        simp only [hu, hd, bind, Except.bind, hgt, if_false, hs]
        exact hr
      · exact (Shuf.one (by omega) (by omega) (by omega) (by omega) hs).trans hsh

/-- The function `partitionEqual_func`: the elements before the new start are not above the
pivot, those from it on are. -/
theorem partitionEqual_spec (d : List α) (a b pivot : Nat) (hg : Good L K d)
    (hap : a ≤ pivot) (hpb : pivot < b) (hb : b ≤ d.length) :
    ∃ d' mid, partitionEqual_func L d a b pivot = .ok (d', mid) ∧ Shuf a b d d' ∧
      a < mid ∧ mid ≤ b ∧
      (∀ k, a ≤ k → k < mid → ¬ keyAt K d pivot < keyAt K d' k) ∧
      (∀ k, mid ≤ k → k < b → keyAt K d pivot < keyAt K d' k) := by
  obtain ⟨d0, hs0, hlen0, hperm0, -⟩ := Swap_spec d a pivot (by omega) (by omega)
  have hg0 : Good L K d0 := hg.of_perm hperm0
  have hsh0 : Shuf a b d d0 := Shuf.one (le_refl a) (by omega) hap hpb hs0
  have hKa : keyAt K d0 a = keyAt K d pivot := Swap_key_fst K hs0
  obtain ⟨d1, mid, hr, hsh, r1, r2, r3, r4⟩ :=
    partitionEqualLoop_spec (L := L) (K := K) a b (b - a + 1) d0 (a + 1) (b - 1) hg0
      (le_refl _) (by omega) (by omega) (by omega) (by omega)
      (by intro k h1 h2; omega) (by intro k h1 h2; omega)
  have hKa1 : keyAt K d1 a = keyAt K d pivot := by
    rw [hsh.keyAt_frame K a (by omega)]
    exact hKa
  refine ⟨d1, mid, ?_, hsh0.trans (hsh.mono (by omega) (le_refl b)), r1, r2, ?_, ?_⟩
  · unfold partitionEqual_func
    simp only [hs0, bind, Except.bind]
    exact hr
  · intro k hk1 hk2
    rw [← hKa1]
    by_cases hka : k = a
    · rw [hka]; omega
    · exact r3 k (by omega) hk2
  · intro k hk1 hk2
    rw [← hKa1]
    exact r4 k hk1 hk2

end Partition

end PodDiskUsage

namespace PodDiskUsage

/-! ## Heap sort -/

section HeapSort

variable {α : Type} {L : α → α → Except Fault Bool} {K : α → Int}

theorem greaterChild_spec (d : List α) (hi first c0 : Nat) (hg : Good L K d)
    (hc : c0 < hi) (hb : first + hi ≤ d.length) :
    ∃ c, greaterChild L d hi first c0 = .ok c ∧ (c = c0 ∨ c = c0 + 1) ∧ c < hi ∧
      keyAt K d (first + c0) ≤ keyAt K d (first + c) ∧
      (c0 + 1 < hi → keyAt K d (first + (c0 + 1)) ≤ keyAt K d (first + c)) := by
  unfold greaterChild
  by_cases h1 : c0 + 1 < hi
  · have hL := Less_spec hg (first + c0) (first + c0 + 1) (by omega) (by omega)
    by_cases h2 : keyAt K d (first + c0) < keyAt K d (first + c0 + 1)
    · refine ⟨c0 + 1, ?_, Or.inr rfl, h1, ?_, fun _ => le_refl _⟩
      · simp only [h1, if_true, hL, h2, decide_True, bind, Except.bind]
        rfl
      · have : first + (c0 + 1) = first + c0 + 1 := by omega
        rw [this]
        omega
    · refine ⟨c0, ?_, Or.inl rfl, hc, le_refl _, fun _ => ?_⟩
      · simp only [h1, if_true, hL, h2, decide_False, bind, Except.bind]
        rfl
      · have : first + (c0 + 1) = first + c0 + 1 := by omega
        rw [this]
        omega
  · refine ⟨c0, ?_, Or.inl rfl, hc, le_refl _, fun h => absurd h h1⟩
    simp only [h1, if_false]
    rfl

theorem siftDown_spec (hi first lo : Nat) : ∀ (fuel : Nat) (d : List α) (root : Nat),
    Good L K d → first + hi ≤ d.length → lo ≤ root → hi ≤ fuel + root →
    (∀ i c, lo ≤ i → i ≠ root → c < hi → (c = 2 * i + 1 ∨ c = 2 * i + 2) →
      keyAt K d (first + c) ≤ keyAt K d (first + i)) →
    (∀ p c, lo ≤ p → (root = 2 * p + 1 ∨ root = 2 * p + 2) → c < hi →
      (c = 2 * root + 1 ∨ c = 2 * root + 2) →
      keyAt K d (first + c) ≤ keyAt K d (first + p)) →
    ∃ d', siftDown_func L hi first fuel d root = .ok d' ∧
      Shuf (first + root) (first + hi) d d' ∧ HeapOn K d' first lo hi := by
  intro fuel
  induction fuel with
  | zero =>
    intro d root hg hb hlo hf hheap hgp
    refine ⟨d, ?_, Shuf.refl d, ?_⟩
    · unfold siftDown_func
      have : 2 * root + 1 ≥ hi := by omega
      simp only [this, if_true]
      rfl
    · intro i c hi1 hc hch
      by_cases hir : i = root
      · omega
      · exact hheap i c hi1 hir hc hch
  | succ fuel ih =>
    intro d root hg hb hlo hf hheap hgp
    by_cases hleaf : 2 * root + 1 ≥ hi
    · refine ⟨d, ?_, Shuf.refl d, ?_⟩
      · unfold siftDown_func
        simp only [hleaf, if_true]
        rfl
      · intro i c hi1 hc hch
        by_cases hir : i = root
        · omega
        · exact hheap i c hi1 hir hc hch
    · obtain ⟨c, hgc, hcc, hchi, hk1, hk2⟩ :=
        greaterChild_spec (L := L) (K := K) d hi first (2 * root + 1) hg (by omega) hb
      have hL := Less_spec hg (first + root) (first + c) (by omega) (by omega)
      by_cases hlt : keyAt K d (first + root) < keyAt K d (first + c)
      · obtain ⟨d1, hs, hlen, hperm, -⟩ :=
          Swap_spec d (first + root) (first + c) (by omega) (by omega)
        have hKr : keyAt K d1 (first + root) = keyAt K d (first + c) :=
          Swap_key_fst K hs
        have hKc : keyAt K d1 (first + c) = keyAt K d (first + root) :=
          Swap_key_snd K hs
        have hKo : ∀ x, x ≠ root → x ≠ c → keyAt K d1 (first + x) = keyAt K d (first + x) :=
          fun x h1 h2 => Swap_key_other K hs (first + x) (by omega) (by omega)
        obtain ⟨d', hr, hsh, hheap'⟩ := ih d1 c (hg.of_perm hperm) (by omega) (by omega)
          (by omega)
          (by
            intro i x hi1 hic hx hch
            by_cases hir : i = root
            · subst hir
              rw [hKr]
              by_cases hxc : x = c
              · rw [hxc, hKc]; omega
              · rw [hKo x (by omega) hxc]
                rcases hch with h | h
                · rw [h]; exact hk1
                · have : x = 2 * i + 1 + 1 := by omega
                  rw [this]
                  exact hk2 (by omega)
            · rw [hKo i hir hic]
              by_cases hxr : x = root
              · rw [hxr, hKr]
                exact hgp i c hi1 (by omega) hchi (by omega)
              · have hxc : x ≠ c := by omega
                rw [hKo x hxr hxc]
                exact hheap i x hi1 hir hx hch)
          (by
            intro p x hp hpc hx hch
            have hpr : p = root := by omega
            subst hpr
            rw [hKr, hKo x (by omega) (by omega)]
            exact hheap c x (by omega) (by omega) hx hch)
        refine ⟨d', ?_, ?_, hheap'⟩
        · unfold siftDown_func
          simp only [hleaf, if_false, hgc, hL, hlt, decide_True, bind, Except.bind, if_true, hs]
          exact hr
        · exact (Shuf.one (le_refl _) (by omega) (by omega) (by omega) hs).trans
            (hsh.mono (by omega) (le_refl _))
      · refine ⟨d, ?_, Shuf.refl d, ?_⟩
        · unfold siftDown_func
          simp only [hleaf, if_false, hgc, hL, hlt, decide_False, bind, Except.bind]
          rfl
        · intro i x hi1 hx hch
          by_cases hir : i = root
          · subst hir
            rcases hch with h | h
            · rw [h]; omega
            · have : x = 2 * i + 1 + 1 := by omega
              rw [this]
              have := hk2 (by omega)
              omega
          · exact hheap i x hi1 hir hx hch

theorem heapBuild_spec (hi first : Nat) : ∀ (n : Nat) (d : List α),
    Good L K d → first + hi ≤ d.length → HeapOn K d first n hi →
    ∃ d', heapBuild L hi first n d = .ok d' ∧ Shuf first (first + hi) d d' ∧
      HeapOn K d' first 0 hi := by
  intro n
  induction n with
  | zero =>
    intro d hg hb hh
    exact ⟨d, rfl, Shuf.refl d, hh⟩
  | succ n ih =>
    intro d hg hb hh
    obtain ⟨d1, h1, hsh1, hh1⟩ := siftDown_spec (L := L) (K := K) hi first n hi d n
      hg hb (le_refl n) (by omega)
      (by intro i c hi1 hin hc hch; exact hh i c (by omega) hc hch)
      (by intro p c hp hpc; omega)
    obtain ⟨d', h2, hsh2, hh2⟩ := ih d1 (hg.goodShuf hsh1) (by rw [hsh1.length_eq]; exact hb) hh1
    refine ⟨d', ?_, (hsh1.mono (by omega) (le_refl _)).trans hsh2, hh2⟩
    unfold heapBuild
    simp only [h1, bind, Except.bind]
    exact h2

theorem heap_top (d : List α) (first n : Nat) (hh : HeapOn K d first 0 n) :
    ∀ x, x < n → keyAt K d (first + x) ≤ keyAt K d first := by
  intro x
  induction x using Nat.strong_induction_on with
  | _ x ih =>
    intro hx
    by_cases h0 : x = 0
    · subst h0; exact le_refl _
    · have h1 := ih ((x - 1) / 2) (by omega) (by omega)
      have h2 := hh ((x - 1) / 2) x (Nat.zero_le _) hx (by omega)
      omega

theorem heapPop_spec (hi first : Nat) : ∀ (n : Nat) (d : List α),
    Good L K d → first + hi ≤ d.length → n ≤ hi → HeapOn K d first 0 n →
    SortedOn K d (first + n) (first + hi) →
    (∀ x y, x < n → n ≤ y → y < hi → keyAt K d (first + x) ≤ keyAt K d (first + y)) →
    ∃ d', heapPop L first n d = .ok d' ∧ Shuf first (first + hi) d d' ∧
      SortedOn K d' first (first + hi) := by
  intro n
  induction n with
  | zero =>
    intro d hg hb hn hh hs hc
    exact ⟨d, rfl, Shuf.refl d, hs⟩
  | succ i ih =>
    intro d hg hb hn hh hs hc
    obtain ⟨d1, hsw, hlen1, hperm1, -⟩ := Swap_spec d first (first + i) (by omega) (by omega)
    have hKf : keyAt K d1 first = keyAt K d (first + i) := Swap_key_fst K hsw
    have hKi : keyAt K d1 (first + i) = keyAt K d first := Swap_key_snd K hsw
    have hKo : ∀ x, x ≠ 0 → x ≠ i → keyAt K d1 (first + x) = keyAt K d (first + x) :=
      fun x h1 h2 => Swap_key_other K hsw (first + x) (by omega) (by omega)
    have htop := heap_top (K := K) d first (i + 1) hh
    have hg1 : Good L K d1 := hg.of_perm hperm1
    obtain ⟨d2, h2, hsh2, hh2⟩ := siftDown_spec (L := L) (K := K) i first 0 i d1 0
      hg1 (by omega) (le_refl 0) (by omega)
      (by
        intro x c _ hx0 hc1 hch
        rw [hKo x hx0 (by omega), hKo c (by omega) (by omega)]
        exact hh x c (Nat.zero_le _) (by omega) hch)
      (by intro p c _ hpc; omega)
    have hsh2' : Shuf first (first + i) d1 d2 := by simpa using hsh2
    have hK2 : ∀ y, i ≤ y → keyAt K d2 (first + y) = keyAt K d1 (first + y) :=
      fun y hy => hsh2'.keyAt_frame K (first + y) (by omega)
    have hlow : ∀ k, first ≤ k → k < first + i → keyAt K d1 k ≤ keyAt K d first := by
      intro k hk1 hk2
      obtain ⟨x, rfl⟩ : ∃ x, k = first + x := ⟨k - first, by omega⟩
      by_cases hx0 : x = 0
      · subst hx0
        simp only [Nat.add_zero]
        rw [hKf]
        exact htop i (by omega)
      · rw [hKo x hx0 (by omega)]
        exact htop x (by omega)
    have hlow2 := hsh2'.bound K (fun v => v ≤ keyAt K d first) hlow
    obtain ⟨d', h3, hsh3, hs3⟩ := ih d2 (hg1.goodShuf hsh2')
      (by rw [hsh2'.length_eq, hlen1]; exact hb) (by omega) hh2
      (by
        intro p q hp hpq hq
        obtain ⟨x, rfl⟩ : ∃ x, p = first + x := ⟨p - first, by omega⟩
        obtain ⟨y, rfl⟩ : ∃ y, q = first + y := ⟨q - first, by omega⟩
        rw [hK2 x (by omega), hK2 y (by omega)]
        by_cases hxi : x = i
        · subst hxi
          by_cases hyi : y = x
          · rw [hyi]
          · rw [hKi, hKo y (by omega) hyi]
            have := hc 0 y (by omega) (by omega) (by omega)
            simpa using this
        · rw [hKo x (by omega) hxi, hKo y (by omega) (by omega)]
          exact hs (first + x) (first + y) (by omega) hpq hq)
      (by
        intro x y hx hy hyhi
        rw [hK2 y hy]
        by_cases hyi : y = i
        · rw [hyi, hKi]
          exact hlow2 (first + x) (by omega) (by omega)
        · rw [hKo y (by omega) hyi]
          have hcross : ∀ k, first ≤ k → k < first + i →
              keyAt K d1 k ≤ keyAt K d (first + y) := by
            intro k hk1 hk2
            obtain ⟨z, rfl⟩ : ∃ z, k = first + z := ⟨k - first, by omega⟩
            by_cases hz0 : z = 0
            · subst hz0
              simp only [Nat.add_zero]
              rw [hKf]
              exact hc i y (by omega) (by omega) hyhi
            · rw [hKo z hz0 (by omega)]
              exact hc z y (by omega) (by omega) hyhi
          exact hsh2'.bound K (fun v => v ≤ keyAt K d (first + y)) hcross (first + x)
            (by omega) (by omega))
    refine ⟨d', ?_, ?_, hs3⟩
    · unfold heapPop
      simp only [hsw, h2, bind, Except.bind]
      exact h3
    · exact (Shuf.one (le_refl _) (by omega) (by omega) (by omega) hsw).trans
        ((hsh2'.mono (le_refl _) (by omega)).trans hsh3)

/-- The function `heapSort_func` sorts `data[a:b]` and touches nothing else. -/
theorem heapSort_spec (d : List α) (a b : Nat) (hg : Good L K d) (hab : a ≤ b)
    (hb : b ≤ d.length) :
    ∃ d', heapSort_func L d a b = .ok d' ∧ Shuf a b d d' ∧ SortedOn K d' a b := by
  have e : a + (b - a) = b := by omega
  obtain ⟨d1, h1, hsh1, hh1⟩ := heapBuild_spec (L := L) (K := K) (b - a) a
    ((b - a - 1) / 2 + 1) d hg (by omega)
    (by intro i c hi hc hch; omega)
  have hg1 := hg.goodShuf hsh1
  obtain ⟨d2, h2, hsh2, hs2⟩ := heapPop_spec (L := L) (K := K) (b - a) a (b - a) d1
    hg1 (by rw [hsh1.length_eq]; omega) (le_refl _) hh1
    (by intro p q hp hpq hq; omega)
    (by intro x y hx hy hyh; omega)
  rw [e] at hsh1 hsh2 hs2
  refine ⟨d2, ?_, hsh1.trans hsh2, hs2⟩
  unfold heapSort_func
  simp only [h1, bind, Except.bind]
  exact h2

end HeapSort

end PodDiskUsage

namespace PodDiskUsage

/-! ## Pivot choice, reversal, pattern breaking -/

section PivotAndPatterns

variable {α : Type} {L : α → α → Except Fault Bool} {K : α → Int}

theorem order2_spec (d : List α) (lo hi : Nat) (hg : Good L K d) (hb : hi ≤ d.length)
    (x y s : Nat) (hx1 : lo ≤ x) (hx2 : x < hi) (hy1 : lo ≤ y) (hy2 : y < hi) :
    ∃ r, order2_func L d x y s = .ok r ∧ lo ≤ r.1 ∧ r.1 < hi ∧ lo ≤ r.2.1 ∧ r.2.1 < hi := by
  have hL := Less_spec hg y x (by omega) (by omega)
  unfold order2_func
  by_cases hlt : keyAt K d y < keyAt K d x
  · refine ⟨(y, x, s + 1), ?_, hy1, hy2, hx1, hx2⟩
    simp only [hL, hlt, decide_True, bind, Except.bind, if_true]
    rfl
  · refine ⟨(x, y, s), ?_, hx1, hx2, hy1, hy2⟩
    simp only [hL, hlt, decide_False, bind, Except.bind]
    rfl

theorem median_spec (d : List α) (lo hi : Nat) (hg : Good L K d) (hb : hi ≤ d.length)
    (x y z s : Nat) (hx1 : lo ≤ x) (hx2 : x < hi) (hy1 : lo ≤ y) (hy2 : y < hi)
    (hz1 : lo ≤ z) (hz2 : z < hi) :
    ∃ r, median_func L d x y z s = .ok r ∧ lo ≤ r.1 ∧ r.1 < hi := by
  obtain ⟨r1, h1, a1, a2, a3, a4⟩ :=
    order2_spec (L := L) (K := K) d lo hi hg hb x y s hx1 hx2 hy1 hy2
  obtain ⟨r2, h2, b1, b2, b3, b4⟩ :=
    order2_spec (L := L) (K := K) d lo hi hg hb r1.2.1 z r1.2.2 a3 a4 hz1 hz2
  obtain ⟨r3, h3, c1, c2, c3, c4⟩ :=
    order2_spec (L := L) (K := K) d lo hi hg hb r1.1 r2.1 r2.2.2 a1 a2 b1 b2
  refine ⟨(r3.2.1, r3.2.2), ?_, c3, c4⟩
  unfold median_func
  simp only [h1, h2, h3, bind, Except.bind]
  rfl

theorem medianAdjacent_spec (d : List α) (lo hi : Nat) (hg : Good L K d)
    (hb : hi ≤ d.length) (x s : Nat) (hx1 : lo + 1 ≤ x) (hx2 : x + 1 < hi) :
    ∃ r, medianAdjacent_func L d x s = .ok r ∧ lo ≤ r.1 ∧ r.1 < hi := by
  unfold medianAdjacent_func
  exact median_spec d lo hi hg hb (x - 1) x (x + 1) s (by omega) (by omega) (by omega)
    (by omega) (by omega) hx2

theorem nintherStep_spec (d : List α) (a b : Nat) (hg : Good L K d) (hab : a + 8 ≤ b)
    (hb : b ≤ d.length) :
    ∃ m, nintherStep L d (b - a) (a + (b - a) / 4 * 1) (a + (b - a) / 4 * 2)
        (a + (b - a) / 4 * 3) = .ok m ∧
      a ≤ m.1 ∧ m.1 < b ∧ a ≤ m.2.1 ∧ m.2.1 < b ∧ a ≤ m.2.2.1 ∧ m.2.2.1 < b := by
  unfold nintherStep
  by_cases h50 : b - a ≥ 50
  · simp only [h50, if_true]
    obtain ⟨mi, hi1, hi2, hi3⟩ := medianAdjacent_spec (L := L) (K := K) d a b hg
      hb (a + (b - a) / 4 * 1) 0 (by omega) (by omega)
    obtain ⟨mj, hj1, hj2, hj3⟩ := medianAdjacent_spec (L := L) (K := K) d a b hg
      hb (a + (b - a) / 4 * 2) mi.2 (by omega) (by omega)
    obtain ⟨mk, hk1, hk2, hk3⟩ := medianAdjacent_spec (L := L) (K := K) d a b hg
      hb (a + (b - a) / 4 * 3) mj.2 (by omega) (by omega)
    refine ⟨(mi.1, mj.1, mk.1, mk.2), ?_, hi2, hi3, hj2, hj3, hk2, hk3⟩
    simp only [hi1, hj1, hk1, bind, Except.bind]
    rfl
  · simp only [h50, if_false]
    refine ⟨_, rfl, ?_, ?_, ?_, ?_, ?_, ?_⟩ <;> simp only <;> omega

/-- The function `choosePivot_func` returns an index of `data[a:b]`. -/
theorem choosePivot_spec (d : List α) (a b : Nat) (hg : Good L K d) (hab : a < b)
    (hb : b ≤ d.length) :
    ∃ r, choosePivot_func L d a b = .ok r ∧ a ≤ r.1 ∧ r.1 < b := by
  unfold choosePivot_func
  by_cases h8 : b - a ≥ 8
  · simp only [h8, if_true]
    obtain ⟨m, hm, m1, m2, m3, m4, m5, m6⟩ :=
      nintherStep_spec (L := L) (K := K) d a b hg (by omega) hb
    obtain ⟨r, hr1, hr2, hr3⟩ := median_spec (L := L) (K := K) d a b hg hb
      m.1 m.2.1 m.2.2.1 m.2.2.2 m1 m2 m3 m4 m5 m6
    refine ⟨(r.1, hintOfSwaps r.2), ?_, hr2, hr3⟩
    simp only [hm, hr1, bind, Except.bind]
    rfl
  · simp only [h8, if_false]
    exact ⟨_, rfl, by simp, by simp; omega⟩

theorem reverseLoop_spec (a b : Nat) : ∀ (n i j : Nat) (d : List α),
    b ≤ d.length → (0 < n → a ≤ i ∧ i + n ≤ b ∧ a + n ≤ j + 1 ∧ j < b) →
    ∃ d', reverseLoop n i j d = .ok d' ∧ Shuf a b d d' := by
  intro n
  induction n with
  | zero =>
    intro i j d _ _
    exact ⟨d, rfl, Shuf.refl d⟩
  | succ n ih =>
    intro i j d hb h
    obtain ⟨h1, h2, h3, h4⟩ := h (by omega)
    obtain ⟨d1, hs, hlen, -, -⟩ := Swap_spec d i j (by omega) (by omega)
    obtain ⟨d', hr, hsh⟩ := ih (i + 1) (j - 1) d1 (by omega)
      (by intro hn; exact ⟨by omega, by omega, by omega, by omega⟩)
    refine ⟨d', ?_, (Shuf.one h1 (by omega) (by omega) h4 hs).trans hsh⟩
    unfold reverseLoop
    simp only [hs, bind, Except.bind]
    exact hr

/-- The function `reverseRange_func` moves elements inside `data[a:b]` only. -/
theorem reverseRange_spec (d : List α) (a b : Nat) (hab : a ≤ b) (hb : b ≤ d.length) :
    ∃ d', reverseRange_func d a b = .ok d' ∧ Shuf a b d d' := by
  unfold reverseRange_func
  exact reverseLoop_spec a b ((b - a) / 2) a (b - 1) d hb
    (by intro hn; exact ⟨le_refl a, by omega, by omega, by omega⟩)

theorem bitsLenAux_bounds : ∀ (fuel n : Nat), 1 ≤ n → n ≤ fuel →
    n < 2 ^ bitsLenAux fuel n ∧ 2 ^ bitsLenAux fuel n ≤ 2 * n := by
  intro fuel
  induction fuel with
  | zero => intro n h1 h2; omega
  | succ fuel ih =>
    intro n h1 h2
    have hn : ¬ n = 0 := by omega
    unfold bitsLenAux
    simp only [hn, if_false]
    by_cases h : n / 2 = 0
    · have hn1 : n = 1 := by omega
      have : bitsLenAux fuel (n / 2) = 0 := by
        rw [h]
        cases fuel <;> simp [bitsLenAux]
      rw [this, hn1]
      simp
    · obtain ⟨i1, i2⟩ := ih (n / 2) (by omega) (by omega)
      rw [pow_succ]
      constructor <;> omega

theorem bitsLen_bounds (n : Nat) (h : 1 ≤ n) : n < 2 ^ bitsLen n ∧ 2 ^ bitsLen n ≤ 2 * n :=
  bitsLenAux_bounds n n h (le_refl n)

theorem breakLoop_spec (next : Nat → Nat) (a b length modulus idx : Nat)
    (hl : a + length = b) (h8 : 8 ≤ length) (hm : modulus ≤ 2 * length) (hm1 : 1 ≤ modulus)
    (hidx : idx = a + (length / 4) * 2 - 1) :
    ∀ (n i random : Nat) (d : List α), b ≤ d.length → i + n ≤ 3 →
    ∃ d', breakLoop next a length modulus idx n i random d = .ok d' ∧ Shuf a b d d' := by
  intro n
  induction n with
  | zero =>
    intro i random d _ _
    exact ⟨d, rfl, Shuf.refl d⟩
  | succ n ih =>
    intro i random d hb hi
    have hand : (next random % 2 ^ 64) &&& (modulus - 1) ≤ modulus - 1 := Nat.and_le_right
    have hother : (if (next random % 2 ^ 64) &&& (modulus - 1) ≥ length then
        ((next random % 2 ^ 64) &&& (modulus - 1)) - length
        else (next random % 2 ^ 64) &&& (modulus - 1)) < length := by
      split_ifs with h <;> omega
    obtain ⟨d1, hs, hlen, -, -⟩ := Swap_spec d (idx + i)
      (a + (if (next random % 2 ^ 64) &&& (modulus - 1) ≥ length then
        ((next random % 2 ^ 64) &&& (modulus - 1)) - length
        else (next random % 2 ^ 64) &&& (modulus - 1))) (by omega) (by omega)
    obtain ⟨d', hr, hsh⟩ := ih (i + 1) (next random % 2 ^ 64) d1 (by omega) (by omega)
    refine ⟨d', ?_, (Shuf.one (by omega) (by omega) (by omega) (by omega) hs).trans hsh⟩
    unfold breakLoop
    simp only [hs, bind, Except.bind]
    exact hr

/-- The function `breakPatterns_func` moves elements inside `data[a:b]` only, whatever the
generator. -/
theorem breakPatterns_spec (next : Nat → Nat) (d : List α) (a b : Nat) (hab : a ≤ b)
    (hb : b ≤ d.length) :
    ∃ d', breakPatterns_func next d a b = .ok d' ∧ Shuf a b d d' := by
  unfold breakPatterns_func
  by_cases h8 : b - a ≥ 8
  · simp only [h8, if_true]
    obtain ⟨b1, b2⟩ := bitsLen_bounds (b - a) (by omega)
    exact breakLoop_spec next a b (b - a) (2 ^ bitsLen (b - a)) (a + (b - a) / 4 * 2 - 1)
      (by omega) h8 b2 (by omega) rfl 3 0 ((b - a) % 2 ^ 64) d hb (by omega)
  · simp only [h8, if_false]
    exact ⟨d, rfl, Shuf.refl d⟩

end PivotAndPatterns

end PodDiskUsage

namespace PodDiskUsage

/-! ## The partial insertion sort -/

section PartialInsertion

variable {α : Type} {L : α → α → Except Fault Bool} {K : α → Int}

theorem scanSorted_spec (d : List α) (hg : Good L K d) :
    ∀ (n i : Nat), 1 ≤ i → i + n ≤ d.length →
    ∃ i', scanSorted L d n i = .ok i' ∧ i ≤ i' ∧ i' ≤ i + n ∧
      (∀ k, i ≤ k → k < i' → keyAt K d (k - 1) ≤ keyAt K d k) ∧
      (i' < i + n → keyAt K d i' < keyAt K d (i' - 1)) := by
  intro n
  induction n with
  | zero =>
    intro i _ _
    exact ⟨i, rfl, le_refl i, le_refl _, by intro k h1 h2; omega, by intro h; omega⟩
  | succ n ih =>
    intro i hi1 hi
    have hL := Less_spec hg i (i - 1) (by omega) (by omega)
    by_cases hlt : keyAt K d i < keyAt K d (i - 1)
    · refine ⟨i, ?_, le_refl i, by omega, by intro k h1 h2; omega, fun _ => hlt⟩
      unfold scanSorted
      simp only [hL, hlt, decide_True, bind, Except.bind, if_true]
      rfl
    · obtain ⟨i', h1, h2, h3, h4, h5⟩ := ih (i + 1) (by omega) (by omega)
      refine ⟨i', ?_, by omega, by omega, ?_, by intro h; exact h5 (by omega)⟩
      · unfold scanSorted
        simp only [hL, hlt, decide_False, bind, Except.bind]
        exact h1
      · intro k hk1 hk2
        by_cases hki : k = i
        · rw [hki]; omega
        · exact h4 k (by omega) hk2

theorem shiftLeft_spec (a i : Nat) : ∀ (j : Nat) (d : List α), Good L K d →
    a ≤ j → j ≤ i → i < d.length →
    (0 < a → ∀ k, a ≤ k → k ≤ i → keyAt K d (a - 1) ≤ keyAt K d k) →
    (∀ p q, a ≤ p → p ≤ q → q ≤ i → p ≠ j → q ≠ j → keyAt K d p ≤ keyAt K d q) →
    (∀ q, j < q → q ≤ i → keyAt K d j ≤ keyAt K d q) →
    ∃ d', shiftLeft L j d = .ok d' ∧ Shuf a (i + 1) d d' ∧ SortedOn K d' a (i + 1) := by
  intro j
  induction j with
  | zero =>
    intro d hg haj hji hi hlb h1 h2
    refine ⟨d, rfl, Shuf.refl d, ?_⟩
    intro p q hp hpq hq
    by_cases hp0 : p = 0
    · by_cases hq0 : q = 0
      · rw [hp0, hq0]
      · rw [hp0]; exact h2 q (by omega) (by omega)
    · exact h1 p q hp hpq (by omega) hp0 (by omega)
  | succ j ih =>
    intro d hg haj hji hi hlb h1 h2
    have hL := Less_spec hg (j + 1) j (by omega) (by omega)
    by_cases hlt : keyAt K d (j + 1) < keyAt K d j
    · have haj' : a < j + 1 := by
        by_contra hcon
        have haeq : a = j + 1 := by omega
        have := hlb (by omega) (j + 1) (by omega) (by omega)
        rw [haeq] at this
        simp only [Nat.add_sub_cancel] at this
        omega
      obtain ⟨d1, hs, hlen, hperm, -⟩ := Swap_spec d (j + 1) j (by omega) (by omega)
      have hK := Swap_keyAt K hs
      have hg1 : Good L K d1 := hg.of_perm hperm
      have hsh : Shuf a (i + 1) d d1 :=
        Shuf.one (by omega) (by omega) (by omega) (by omega) hs
      obtain ⟨d', hr, hsh', hsorted⟩ := ih d1 hg1 (by omega) (by omega) (by omega)
        (by
          intro ha k hk1 hk2
          rw [hsh.keyAt_frame K (a - 1) (by omega)]
          exact hsh.bound K (fun v => keyAt K d (a - 1) ≤ v)
            (fun k h1 h2 => hlb ha k h1 (by omega)) k hk1 (by omega))
        (by
          intro p q hp hpq hq hpj hqj
          rw [hK p, hK q]
          by_cases hq1 : q = j + 1
          · by_cases hp1 : p = j + 1
            · simp [hp1, hq1]
            · have hpj1 : p ≠ j := hpj
              simp only [hq1, hp1, hpj1, if_false]
              simp only [show ¬ (j + 1 = j) by omega, if_false, if_true]
              exact h1 p j hp (by omega) (by omega) hp1 (by omega)
          · by_cases hp1 : p = j + 1
            · simp only [hp1, hq1, hqj, if_false]
              simp only [show ¬ (j + 1 = j) by omega, if_false, if_true]
              exact h1 j q (by omega) (by omega) hq (by omega) hq1
            · simp only [hp1, hq1, hqj, hpj, if_false]
              exact h1 p q hp hpq hq hp1 hq1)
        (by
          intro q hjq hq
          rw [hK j, hK q]
          simp only [if_true]
          by_cases hq1 : q = j + 1
          · simp only [hq1, show ¬ (j + 1 = j) by omega, if_false, if_true]
            omega
          · have hqj : ¬ q = j := by omega
            simp only [hq1, hqj, if_false]
            exact h2 q (by omega) hq)
      refine ⟨d', ?_, hsh.trans hsh', hsorted⟩
      unfold shiftLeft
      simp only [hL, hlt, decide_True, bind, Except.bind, hs, if_true]
      exact hr
    · refine ⟨d, ?_, Shuf.refl d, ?_⟩
      · unfold shiftLeft
        simp only [hL, hlt, decide_False, bind, Except.bind]
        rfl
      · intro p q hp hpq hq
        by_cases hq1 : q = j + 1
        · by_cases hp1 : p = j + 1
          · rw [hp1, hq1]
          · have := h1 p j hp (by omega) (by omega) hp1 (by omega)
            rw [hq1]
            omega
        · by_cases hp1 : p = j + 1
          · rw [hp1]
            exact h2 q (by omega) (by omega)
          · exact h1 p q hp hpq (by omega) hp1 hq1

theorem shiftRight_spec (lo hi : Nat) : ∀ (n j : Nat) (d : List α), Good L K d →
    lo + 1 ≤ j → j + n ≤ hi → hi ≤ d.length →
    ∃ d', shiftRight L n j d = .ok d' ∧ Shuf lo hi d d' := by
  intro n
  induction n with
  | zero =>
    intro j d _ _ _ _
    exact ⟨d, rfl, Shuf.refl d⟩
  | succ n ih =>
    intro j d hg hj hjn hhi
    have hL := Less_spec hg j (j - 1) (by omega) (by omega)
    by_cases hlt : keyAt K d j < keyAt K d (j - 1)
    · obtain ⟨d1, hs, hlen, hperm, -⟩ := Swap_spec d j (j - 1) (by omega) (by omega)
      obtain ⟨d', hr, hsh⟩ := ih (j + 1) d1 (hg.of_perm hperm) (by omega) (by omega) (by omega)
      refine ⟨d', ?_, (Shuf.one (by omega) (by omega) (by omega) (by omega) hs).trans hsh⟩
      unfold shiftRight
      simp only [hL, hlt, decide_True, bind, Except.bind, hs, if_true]
      exact hr
    · refine ⟨d, ?_, Shuf.refl d⟩
      unfold shiftRight
      simp only [hL, hlt, decide_False, bind, Except.bind]
      rfl

theorem partialInsertionLoop_spec (a b : Nat) : ∀ (steps i : Nat) (d : List α),
    Good L K d → a + 1 ≤ i → i ≤ b → b ≤ d.length → SortedOn K d a i →
    LowerBounded K d a b →
    ∃ r, partialInsertionLoop L a b steps i d = .ok r ∧ Shuf a b d r.1 ∧
      (r.2 = true → SortedOn K r.1 a b) := by
  intro steps
  induction steps with
  | zero =>
    intro i d _ _ _ _ _ _
    exact ⟨(d, false), rfl, Shuf.refl d, by intro h; cases h⟩
  | succ steps ih =>
    intro i d hg hai hib hb hs hlb
    obtain ⟨i1, hu, hu1, hu2, hu3, hu4⟩ :=
      scanSorted_spec (L := L) (K := K) d hg (b - i) i (by omega) (by omega)
    have hs1 : SortedOn K d a i1 := by
      apply SortedOn.of_adjacent
      intro k hk1 hk2
      by_cases hki : k + 1 < i
      · exact hs k (k + 1) hk1 (by omega) hki
      · have := hu3 (k + 1) (by omega) hk2
        simpa using this
    by_cases hdone : i1 = b
    · refine ⟨(d, true), ?_, Shuf.refl d, fun _ => by rw [← hdone]; exact hs1⟩
      unfold partialInsertionLoop
      simp only [hu, bind, Except.bind, hdone, if_true]
      rfl
    · by_cases hshort : b - a < 50
      · refine ⟨(d, false), ?_, Shuf.refl d, by intro h; cases h⟩
        unfold partialInsertionLoop
        simp only [hu, bind, Except.bind, hdone, if_false, hshort, if_true]
        rfl
      · obtain ⟨d1, hsw, hlen1, hperm1, -⟩ := Swap_spec d i1 (i1 - 1) (by omega) (by omega)
        have hg1 : Good L K d1 := hg.of_perm hperm1
        have hsh1 : Shuf a b d d1 := Shuf.one (by omega) (by omega) (by omega) (by omega) hsw
        have hlb1 : LowerBounded K d1 a b := hlb.lowerShuf K hsh1
        have hKo : ∀ k, k < i1 - 1 → keyAt K d1 k = keyAt K d k :=
          fun k hk => Swap_key_other K hsw k (by omega) (by omega)
        have step2 : ∃ d2, (if i1 - a ≥ 2 then shiftLeft L (i1 - 1) d1 else pure d1) =
            Except.ok d2 ∧ Shuf a b d1 d2 ∧ SortedOn K d2 a i1 := by
          by_cases h2 : i1 - a ≥ 2
          · simp only [h2, if_true]
            obtain ⟨d2, hr, hsh, hso⟩ := shiftLeft_spec (L := L) (K := K) a (i1 - 1)
              (i1 - 1) d1 hg1 (by omega) (le_refl _) (by omega)
              (by intro ha k hk1 hk2; exact hlb1 ha k hk1 (by omega))
              (by
                intro p q hp hpq hq hpj hqj
                rw [hKo p (by omega), hKo q (by omega)]
                exact hs1 p q hp hpq (by omega))
              (by intro q h1 h2; omega)
            have e : i1 - 1 + 1 = i1 := by omega
            rw [e] at hsh hso
            exact ⟨d2, hr, hsh.mono (le_refl a) (by omega), hso⟩
          · simp only [h2, if_false]
            refine ⟨d1, rfl, Shuf.refl d1, ?_⟩
            intro p q hp hpq hq
            have : p = q := by omega
            rw [this]
        obtain ⟨d2, hr2, hsh2, hso2⟩ := step2
        have hg2 : Good L K d2 := hg1.goodShuf hsh2
        have hlen2 := hsh2.length_eq
        have step3 : ∃ d3, (if b - i1 ≥ 2 then shiftRight L (b - (i1 + 1)) (i1 + 1) d2
            else pure d2) = Except.ok d3 ∧ Shuf i1 b d2 d3 := by
          by_cases h2 : b - i1 ≥ 2
          · simp only [h2, if_true]
            exact shiftRight_spec (L := L) (K := K) i1 b (b - (i1 + 1)) (i1 + 1) d2
              hg2 (le_refl _) (by omega) (by omega)
          · simp only [h2, if_false]
            exact ⟨d2, rfl, Shuf.refl d2⟩
        obtain ⟨d3, hr3, hsh3⟩ := step3
        have hsh3' : Shuf a b d2 d3 := hsh3.mono (by omega) (le_refl b)
        have hshall : Shuf a b d d3 := (hsh1.trans hsh2).trans hsh3'
        obtain ⟨r, hr, hshr, hsor⟩ := ih i1 d3 (hg.goodShuf hshall) (by omega) (by omega)
          (by rw [hshall.length_eq]; exact hb)
          (hso2.sortedFrame K hsh3 (Or.inl (le_refl _)))
          (hlb.lowerShuf K hshall)
        refine ⟨r, ?_, hshall.trans hshr, hsor⟩
        unfold partialInsertionLoop
        simp only [hu, ok_bind, hdone, if_false, hshort, hsw, hr2, hr3]
        exact hr

/-- The function `partialInsertionSort_func` moves elements inside `data[a:b]` only, and
the range is sorted when it says so. -/
theorem partialInsertionSort_spec (d : List α) (a b : Nat) (hg : Good L K d)
    (hab : a < b) (hb : b ≤ d.length) (hlb : LowerBounded K d a b) :
    ∃ r, partialInsertionSort_func L d a b = .ok r ∧ Shuf a b d r.1 ∧
      (r.2 = true → SortedOn K r.1 a b) := by
  unfold partialInsertionSort_func
  exact partialInsertionLoop_spec a b 5 (a + 1) d hg (le_refl _) (by omega) hb
    (by
      intro p q hp hpq hq
      have : p = q := by omega
      rw [this])
    hlb

end PartialInsertion

end PodDiskUsage

namespace PodDiskUsage

/-! ## Pattern-defeating quicksort -/

section Pdqsort

variable {α : Type} {L : α → α → Except Fault Bool} {K : α → Int}

theorem sorted_of_pivot (d : List α) (a b mid : Nat)
    (hl : ∀ k, a ≤ k → k < mid → keyAt K d k < keyAt K d mid)
    (hr : ∀ k, mid < k → k < b → keyAt K d mid ≤ keyAt K d k)
    (sl : SortedOn K d a mid) (sr : SortedOn K d (mid + 1) b) : SortedOn K d a b := by
  intro p q hp hpq hq
  by_cases hq1 : q < mid
  · exact sl p q hp hpq hq1
  · by_cases hp1 : mid < p
    · exact sr p q (by omega) hpq hq
    · by_cases hpm : p = mid
      · by_cases hqm : q = mid
        · rw [hpm, hqm]
        · rw [hpm]; exact hr q (by omega) hq
      · have h1 := hl p hp (by omega)
        by_cases hqm : q = mid
        · rw [hqm]; omega
        · have h2 := hr q (by omega) hq
          omega

theorem pivot_props_left (d d' : List α) (a b mid : Nat) (hsh : Shuf a mid d d')
    (hl : ∀ k, a ≤ k → k < mid → keyAt K d k < keyAt K d mid)
    (hr : ∀ k, mid < k → k < b → keyAt K d mid ≤ keyAt K d k) :
    (∀ k, a ≤ k → k < mid → keyAt K d' k < keyAt K d' mid) ∧
      (∀ k, mid < k → k < b → keyAt K d' mid ≤ keyAt K d' k) := by
  have hm : keyAt K d' mid = keyAt K d mid := hsh.keyAt_frame K mid (by omega)
  constructor
  · rw [hm]
    exact hsh.bound K (fun v => v < keyAt K d mid) hl
  · intro k hk1 hk2
    rw [hm, hsh.keyAt_frame K k (by omega)]
    exact hr k hk1 hk2

theorem pivot_props_right (d d' : List α) (a b mid : Nat) (hsh : Shuf (mid + 1) b d d')
    (hl : ∀ k, a ≤ k → k < mid → keyAt K d k < keyAt K d mid)
    (hr : ∀ k, mid < k → k < b → keyAt K d mid ≤ keyAt K d k) :
    (∀ k, a ≤ k → k < mid → keyAt K d' k < keyAt K d' mid) ∧
      (∀ k, mid < k → k < b → keyAt K d' mid ≤ keyAt K d' k) := by
  have hm : keyAt K d' mid = keyAt K d mid := hsh.keyAt_frame K mid (by omega)
  constructor
  · intro k hk1 hk2
    rw [hm, hsh.keyAt_frame K k (by omega)]
    exact hl k hk1 hk2
  · rw [hm]
    intro k hk1 hk2
    exact hsh.bound K (fun v => keyAt K d mid ≤ v) (fun k h1 h2 => hr k (by omega) h2) k
      (by omega) hk2

theorem LowerBounded.sub (d : List α) (a b b' : Nat) (h : LowerBounded K d a b)
    (hb : b' ≤ b) : LowerBounded K d a b' :=
  fun ha k hk1 hk2 => h ha k hk1 (by omega)

theorem LowerBounded.lowerFrame (d d' : List α) (a b lo hi : Nat) (h : LowerBounded K d a b)
    (hsh : Shuf lo hi d d') (hd : b ≤ lo) : LowerBounded K d' a b := by
  intro ha k hk1 hk2
  rw [hsh.keyAt_frame K (a - 1) (by omega), hsh.keyAt_frame K k (by omega)]
  exact h ha k hk1 hk2

theorem pdqsort_spec (next : Nat → Nat) : ∀ (fuel : Nat) (d : List α) (a b limit : Nat)
    (wb wp : Bool), Good L K d → a ≤ b → b ≤ d.length → b - a ≤ fuel →
    LowerBounded K d a b →
    ∃ d', pdqsort_func next L fuel d a b limit wb wp = .ok d' ∧ Shuf a b d d' ∧
      SortedOn K d' a b := by
  intro fuel
  induction fuel with
  | zero =>
    intro d a b limit wb wp hg hab hb hf hlb
    unfold pdqsort_func
    have h12 : b - a ≤ 12 := by omega
    simp only [h12, if_true]
    exact insertionSort_spec d a b hg hb
  | succ fuel ih =>
    intro d a b limit wb wp hg hab hb hf hlb
    by_cases h12 : b - a ≤ 12
    · unfold pdqsort_func
      simp only [h12, if_true]
      exact insertionSort_spec d a b hg hb
    by_cases hlim : limit = 0
    · unfold pdqsort_func
      simp only [h12, if_false, hlim, if_true]
      exact heapSort_spec d a b hg hab hb
    -- breakPatterns
    have step1 : ∃ d1, (if (!wb) = true then breakPatterns_func next d a b else pure d) =
        Except.ok d1 ∧ Shuf a b d d1 := by
      by_cases hwb : (!wb) = true
      · simp only [hwb, if_true]
        exact breakPatterns_spec next d a b hab hb
      · simp only [hwb, if_false]
        exact ⟨d, rfl, Shuf.refl d⟩
    obtain ⟨d1, e1, hsh1⟩ := step1
    have hg1 := hg.goodShuf hsh1
    have hlen1 := hsh1.length_eq
    obtain ⟨ph, e2, hp1, hp2⟩ :=
      choosePivot_spec (L := L) (K := K) d1 a b hg1 (by omega) (by omega)
    have step3 : ∃ d2, (if ph.2 = SortedHint.decreasingHint then reverseRange_func d1 a b
        else pure d1) = Except.ok d2 ∧ Shuf a b d1 d2 := by
      by_cases hdec : ph.2 = SortedHint.decreasingHint
      · simp only [hdec, if_true]
        exact reverseRange_spec d1 a b hab (by omega)
      · simp only [hdec, if_false]
        exact ⟨d1, rfl, Shuf.refl d1⟩
    obtain ⟨d2, e3, hsh2⟩ := step3
    have hsh12 := hsh1.trans hsh2
    have hg2 := hg.goodShuf hsh12
    have hlen2 := hsh12.length_eq
    have hlb2 := hlb.lowerShuf K hsh12
    have hpiv : a ≤ (if ph.2 = SortedHint.decreasingHint then b - 1 - (ph.1 - a) else ph.1) ∧
        (if ph.2 = SortedHint.decreasingHint then b - 1 - (ph.1 - a) else ph.1) < b := by
      split_ifs <;> omega
    generalize hpdef :
      (if ph.2 = SortedHint.decreasingHint then b - 1 - (ph.1 - a) else ph.1) = pivot at hpiv
    have step4 : ∃ ps, (if (wb && wp && decide ((if ph.2 = SortedHint.decreasingHint then
          SortedHint.increasingHint else ph.2) = SortedHint.increasingHint)) = true then
          partialInsertionSort_func L d2 a b
        else pure (d2, false)) = Except.ok ps ∧ Shuf a b d2 ps.1 ∧
        (ps.2 = true → SortedOn K ps.1 a b) := by
      by_cases hc : (wb && wp && decide ((if ph.2 = SortedHint.decreasingHint then
          SortedHint.increasingHint else ph.2) = SortedHint.increasingHint)) = true
      · rw [if_pos hc]
        exact partialInsertionSort_spec d2 a b hg2 (by omega) (by omega) hlb2
      · rw [if_neg hc]
        exact ⟨(d2, false), rfl, Shuf.refl d2, by intro h; cases h⟩
    obtain ⟨ps, e4, hsh3, hsorted3⟩ := step4
    have hsh123 := hsh12.trans hsh3
    have hg3 := hg.goodShuf hsh123
    have hlen3 := hsh123.length_eq
    have hlb3 := hlb.lowerShuf K hsh123
    by_cases hdone : ps.2 = true
    · refine ⟨ps.1, ?_, hsh123, hsorted3 hdone⟩
      unfold pdqsort_func
      simp only [h12, if_false, hlim, e1, ok_bind, e2, e3, hpdef, e4, hdone, if_true]
      rfl
    have step5 : ∃ e, (if a > 0 then (do pure (!(← Less L ps.1 (a - 1) pivot)))
        else pure false : Except Fault Bool) = Except.ok e ∧
        (e = true → 0 < a ∧ ¬ keyAt K ps.1 (a - 1) < keyAt K ps.1 pivot) := by
      by_cases ha : a > 0
      · rw [if_pos ha]
        have hL := Less_spec hg3 (a - 1) pivot (by omega) (by omega)
        refine ⟨!(decide (keyAt K ps.1 (a - 1) < keyAt K ps.1 pivot)), ?_, ?_⟩
        · simp only [hL, ok_bind]
          rfl
        · intro h
          refine ⟨ha, ?_⟩
          simpa using h
      · rw [if_neg ha]
        exact ⟨false, rfl, by intro h; cases h⟩
    obtain ⟨e, e5, he⟩ := step5
    by_cases heq : e = true
    · obtain ⟨ha, hnl⟩ := he heq
      obtain ⟨d4, mid, e6, hsh4, hm1, hm2, hq1, hq2⟩ :=
        partitionEqual_spec (L := L) (K := K) ps.1 a b pivot hg3 hpiv.1 hpiv.2
          (by omega)
      have hsh1234 := hsh123.trans hsh4
      have hg4 := hg.goodShuf hsh1234
      have hmin : ∀ k, a ≤ k → k < b → keyAt K ps.1 pivot ≤ keyAt K ps.1 k := by
        intro k hk1 hk2
        have := hlb3 ha k hk1 hk2
        omega
      have hmin4 := hsh4.bound K (fun v => keyAt K ps.1 pivot ≤ v) hmin
      obtain ⟨d5, e7, hsh5, hs5⟩ := ih d4 mid b (if (!wb) = true then limit - 1 else limit)
        wb wp hg4 hm2 (by rw [hsh1234.length_eq]; exact hb) (by omega)
        (by
          intro _ k hk1 hk2
          have h1 := hq1 (mid - 1) (by omega) (by omega)
          have h2 := hq2 k hk1 hk2
          omega)
      refine ⟨d5, ?_, hsh1234.trans (hsh5.mono (by omega) (le_refl b)), ?_⟩
      · unfold pdqsort_func
        simp only [h12, if_false, hlim, e1, ok_bind, e2, e3, hpdef, e4, hdone, e5, heq,
          if_true, e6]
        exact e7
      · have hgt5 := hsh5.bound K (fun v => keyAt K ps.1 pivot < v) hq2
        intro p q hp hpq hq
        by_cases hqm : q < mid
        · rw [hsh5.keyAt_frame K p (by omega), hsh5.keyAt_frame K q (by omega)]
          have h1 := hq1 p hp (by omega)
          have h2 := hmin4 q (by omega) (by omega)
          omega
        · by_cases hpm : p < mid
          · rw [hsh5.keyAt_frame K p (by omega)]
            have h1 := hq1 p hp hpm
            have h2 := hgt5 q (by omega) hq
            omega
          · exact hs5 p q (by omega) hpq hq
    · have heq' : e = false := by simpa using heq
      obtain ⟨d4, mid, ap, e6, hsh4, hm1, hm2, hl4, hr4⟩ :=
        partition_spec (L := L) (K := K) ps.1 a b pivot hg3 hpiv.1 hpiv.2 (by omega)
      have hsh1234 := hsh123.trans hsh4
      have hg4 := hg.goodShuf hsh1234
      have hlen4 := hsh1234.length_eq
      have hlb4 := hlb.lowerShuf K hsh1234
      by_cases hside : mid - a < b - mid
      · obtain ⟨d5, e7, hsh5, hs5⟩ := ih d4 a mid (if (!wb) = true then limit - 1 else limit)
          true true hg4 hm1 (by omega) (by omega) (LowerBounded.sub d4 a b mid hlb4 (by omega))
        obtain ⟨hl5, hr5⟩ := pivot_props_left (K := K) d4 d5 a b mid hsh5 hl4 hr4
        have hsh5' : Shuf a b d4 d5 := hsh5.mono (le_refl a) (by omega)
        obtain ⟨d6, e8, hsh6, hs6⟩ := ih d5 (mid + 1) b
          (if (!wb) = true then limit - 1 else limit)
          (decide (mid - a ≥ (b - a) / 8)) ap (hg4.goodShuf hsh5) (by omega)
          (by rw [hsh5.length_eq]; omega) (by omega)
          (by
            intro _ k hk1 hk2
            simp only [Nat.add_sub_cancel]
            exact hr5 k (by omega) hk2)
        obtain ⟨hl6, hr6⟩ := pivot_props_right (K := K) d5 d6 a b mid hsh6 hl5 hr5
        refine ⟨d6, ?_, (hsh1234.trans hsh5').trans (hsh6.mono (by omega) (le_refl b)), ?_⟩
        · unfold pdqsort_func
          simp only [h12, if_false, hlim, e1, ok_bind, e2, e3, hpdef, e4, hdone, e5, heq',
            e6, hside, if_true, e7]
          exact e8
        · exact sorted_of_pivot d6 a b mid hl6 hr6
            (hs5.sortedFrame K hsh6 (Or.inl (by omega))) hs6
      · obtain ⟨d5, e7, hsh5, hs5⟩ := ih d4 (mid + 1) b
          (if (!wb) = true then limit - 1 else limit)
          true true hg4 (by omega) (by omega) (by omega)
          (by
            intro _ k hk1 hk2
            simp only [Nat.add_sub_cancel]
            exact hr4 k (by omega) hk2)
        obtain ⟨hl5, hr5⟩ := pivot_props_right (K := K) d4 d5 a b mid hsh5 hl4 hr4
        have hsh5' : Shuf a b d4 d5 := hsh5.mono (by omega) (le_refl b)
        obtain ⟨d6, e8, hsh6, hs6⟩ := ih d5 a mid
          (if (!wb) = true then limit - 1 else limit)
          (decide (b - mid ≥ (b - a) / 8)) ap (hg4.goodShuf hsh5) hm1
          (by rw [hsh5.length_eq]; omega) (by omega)
          (LowerBounded.lowerFrame d4 d5 a mid (mid + 1) b
            (LowerBounded.sub d4 a b mid hlb4 (by omega)) hsh5 (by omega))
        obtain ⟨hl6, hr6⟩ := pivot_props_left (K := K) d5 d6 a b mid hsh6 hl5 hr5
        refine ⟨d6, ?_, (hsh1234.trans hsh5').trans (hsh6.mono (le_refl a) (by omega)), ?_⟩
        · unfold pdqsort_func
          simp only [h12, if_false, hlim, e1, ok_bind, e2, e3, hpdef, e4, hdone, e5, heq',
            e6, hside, e7]
          exact e8
        · exact sorted_of_pivot d6 a b mid hl6 hr6 hs6
            (hs5.sortedFrame K hsh6 (Or.inr (by omega)))

end Pdqsort

end PodDiskUsage

namespace PodDiskUsage

/-! ## Whatever the comparator does, a result of `sortSlice` is a rearrangement -/

section PermPass

variable {α : Type} {L : α → α → Except Fault Bool}

theorem insertionOuter_perm (a : Nat) : ∀ (n i : Nat) (d d' : List α),
    insertionOuter L a n i d = .ok d' → d'.Perm d := by
  intro n
  induction n with
  | zero =>
    intro i d d' h
    unfold insertionOuter at h
    cases h
    exact List.Perm.refl _
  | succ n ih =>
    intro i d d' h
    unfold insertionOuter at h
    obtain ⟨d1, h1, h2⟩ := bind_ok_inv h
    exact (ih (i + 1) d1 d' h2).trans (insertionInner_perm a i d d1 h1)

theorem insertionSort_perm (d d' : List α) (a b : Nat)
    (h : insertionSort_func L d a b = .ok d') : d'.Perm d :=
  insertionOuter_perm a _ _ d d' h

theorem siftDown_perm (hi first : Nat) : ∀ (fuel : Nat) (d d' : List α) (root : Nat),
    siftDown_func L hi first fuel d root = .ok d' → d'.Perm d := by
  intro fuel
  induction fuel with
  | zero =>
    intro d d' root h
    unfold siftDown_func at h
    by_cases hc : 2 * root + 1 ≥ hi
    · rw [if_pos hc] at h
      cases h
      exact List.Perm.refl _
    · rw [if_neg hc] at h
      cases h
  | succ fuel ih =>
    intro d d' root h
    unfold siftDown_func at h
    by_cases hc : 2 * root + 1 ≥ hi
    · rw [if_pos hc] at h
      cases h
      exact List.Perm.refl _
    · rw [if_neg hc] at h
      simp only at h
      obtain ⟨c, hc, h⟩ := bind_ok_inv h
      obtain ⟨t, ht, h⟩ := bind_ok_inv h
      by_cases htt : t = true
      · rw [if_pos htt] at h
        obtain ⟨d1, h1, h2⟩ := bind_ok_inv h
        exact (ih d1 d' c h2).trans (Swap_perm h1)
      · rw [if_neg htt] at h
        cases h
        exact List.Perm.refl _

theorem heapBuild_perm (hi first : Nat) : ∀ (n : Nat) (d d' : List α),
    heapBuild L hi first n d = .ok d' → d'.Perm d := by
  intro n
  induction n with
  | zero =>
    intro d d' h
    unfold heapBuild at h
    cases h
    exact List.Perm.refl _
  | succ n ih =>
    intro d d' h
    unfold heapBuild at h
    obtain ⟨d1, h1, h2⟩ := bind_ok_inv h
    exact (ih d1 d' h2).trans (siftDown_perm hi first hi d d1 n h1)

theorem heapPop_perm (first : Nat) : ∀ (n : Nat) (d d' : List α),
    heapPop L first n d = .ok d' → d'.Perm d := by
  intro n
  induction n with
  | zero =>
    intro d d' h
    unfold heapPop at h
    cases h
    exact List.Perm.refl _
  | succ n ih =>
    intro d d' h
    unfold heapPop at h
    obtain ⟨d1, h1, h⟩ := bind_ok_inv h
    obtain ⟨d2, h2, h3⟩ := bind_ok_inv h
    exact ((ih d2 d' h3).trans (siftDown_perm n first n d1 d2 0 h2)).trans (Swap_perm h1)

theorem heapSort_perm (d d' : List α) (a b : Nat) (h : heapSort_func L d a b = .ok d') :
    d'.Perm d := by
  unfold heapSort_func at h
  obtain ⟨d1, h1, h2⟩ := bind_ok_inv h
  exact (heapPop_perm a _ d1 d' h2).trans (heapBuild_perm _ a _ d d1 h1)

theorem partitionLoop_perm (a : Nat) : ∀ (fuel : Nat) (d : List α) (i j : Nat)
    (r : List α × Nat), partitionLoop L a fuel d i j = .ok r → r.1.Perm d := by
  intro fuel
  induction fuel with
  | zero =>
    intro d i j r h
    unfold partitionLoop at h
    cases h
  | succ fuel ih =>
    intro d i j r h
    unfold partitionLoop at h
    obtain ⟨i1, h1, h⟩ := bind_ok_inv h
    obtain ⟨j1, h2, h⟩ := bind_ok_inv h
    split_ifs at h
    · cases h
      exact List.Perm.refl _
    · obtain ⟨d1, h3, h4⟩ := bind_ok_inv h
      exact (ih d1 _ _ r h4).trans (Swap_perm h3)

theorem partition_perm (d : List α) (a b pivot : Nat) (r : List α × Nat × Bool)
    (h : partition_func L d a b pivot = .ok r) : r.1.Perm d := by
  unfold partition_func at h
  obtain ⟨d0, h0, h⟩ := bind_ok_inv h
  simp only at h
  obtain ⟨i1, h1, h⟩ := bind_ok_inv h
  obtain ⟨j1, h2, h⟩ := bind_ok_inv h
  split_ifs at h
  · obtain ⟨d1, h3, h4⟩ := bind_ok_inv h
    cases h4
    exact (Swap_perm h3).trans (Swap_perm h0)
  · obtain ⟨d1, h3, h⟩ := bind_ok_inv h
    obtain ⟨r2, h4, h⟩ := bind_ok_inv h
    obtain ⟨d3, h5, h6⟩ := bind_ok_inv h
    cases h6
    exact (((Swap_perm h5).trans (partitionLoop_perm a _ d1 _ _ r2 h4)).trans
      (Swap_perm h3)).trans (Swap_perm h0)

theorem partitionEqualLoop_perm (a : Nat) : ∀ (fuel : Nat) (d : List α) (i j : Nat)
    (r : List α × Nat), partitionEqualLoop L a fuel d i j = .ok r → r.1.Perm d := by
  intro fuel
  induction fuel with
  | zero =>
    intro d i j r h
    unfold partitionEqualLoop at h
    cases h
  | succ fuel ih =>
    intro d i j r h
    unfold partitionEqualLoop at h
    obtain ⟨i1, h1, h⟩ := bind_ok_inv h
    obtain ⟨j1, h2, h⟩ := bind_ok_inv h
    split_ifs at h
    · cases h
      exact List.Perm.refl _
    · obtain ⟨d1, h3, h4⟩ := bind_ok_inv h
      exact (ih d1 _ _ r h4).trans (Swap_perm h3)

theorem partitionEqual_perm (d : List α) (a b pivot : Nat) (r : List α × Nat)
    (h : partitionEqual_func L d a b pivot = .ok r) : r.1.Perm d := by
  unfold partitionEqual_func at h
  obtain ⟨d0, h0, h⟩ := bind_ok_inv h
  exact (partitionEqualLoop_perm a _ d0 _ _ r h).trans (Swap_perm h0)

theorem shiftLeft_perm : ∀ (j : Nat) (d d' : List α),
    shiftLeft L j d = .ok d' → d'.Perm d := by
  intro j
  induction j with
  | zero =>
    intro d d' h
    unfold shiftLeft at h
    cases h
    exact List.Perm.refl _
  | succ j ih =>
    intro d d' h
    unfold shiftLeft at h
    obtain ⟨c, hc, h⟩ := bind_ok_inv h
    split_ifs at h
    · obtain ⟨d1, h1, h2⟩ := bind_ok_inv h
      exact (ih d1 d' h2).trans (Swap_perm h1)
    · cases h
      exact List.Perm.refl _

theorem shiftRight_perm : ∀ (n j : Nat) (d d' : List α),
    shiftRight L n j d = .ok d' → d'.Perm d := by
  intro n
  induction n with
  | zero =>
    intro j d d' h
    unfold shiftRight at h
    cases h
    exact List.Perm.refl _
  | succ n ih =>
    intro j d d' h
    unfold shiftRight at h
    obtain ⟨c, hc, h⟩ := bind_ok_inv h
    split_ifs at h
    · obtain ⟨d1, h1, h2⟩ := bind_ok_inv h
      exact (ih (j + 1) d1 d' h2).trans (Swap_perm h1)
    · cases h
      exact List.Perm.refl _

theorem partialInsertionLoop_perm (a b : Nat) : ∀ (steps i : Nat) (d : List α)
    (r : List α × Bool), partialInsertionLoop L a b steps i d = .ok r → r.1.Perm d := by
  intro steps
  induction steps with
  | zero =>
    intro i d r h
    unfold partialInsertionLoop at h
    cases h
    exact List.Perm.refl _
  | succ steps ih =>
    intro i d r h
    unfold partialInsertionLoop at h
    obtain ⟨i1, h1, h⟩ := bind_ok_inv h
    by_cases c1 : i1 = b
    · rw [if_pos c1] at h
      cases h
      exact List.Perm.refl _
    rw [if_neg c1] at h
    by_cases c2 : b - a < 50
    · rw [if_pos c2] at h
      cases h
      exact List.Perm.refl _
    rw [if_neg c2] at h
    obtain ⟨d1, h2, h⟩ := bind_ok_inv h
    obtain ⟨d2, h3, h⟩ := bind_ok_inv h
    obtain ⟨d3, h4, h5⟩ := bind_ok_inv h
    have p2 : d2.Perm d1 := by
      split_ifs at h3
      · exact shiftLeft_perm _ d1 d2 h3
      · cases h3
        exact List.Perm.refl _
    have p3 : d3.Perm d2 := by
      split_ifs at h4
      · exact shiftRight_perm _ _ d2 d3 h4
      · cases h4
        exact List.Perm.refl _
    exact (((ih i1 d3 r h5).trans p3).trans p2).trans (Swap_perm h2)

theorem breakLoop_perm (next : Nat → Nat) (a length modulus idx : Nat) :
    ∀ (n i random : Nat) (d d' : List α),
    breakLoop next a length modulus idx n i random d = .ok d' → d'.Perm d := by
  intro n
  induction n with
  | zero =>
    intro i random d d' h
    unfold breakLoop at h
    cases h
    exact List.Perm.refl _
  | succ n ih =>
    intro i random d d' h
    unfold breakLoop at h
    simp only at h
    obtain ⟨d1, h1, h2⟩ := bind_ok_inv h
    exact (ih _ _ d1 d' h2).trans (Swap_perm h1)

theorem breakPatterns_perm (next : Nat → Nat) (d d' : List α) (a b : Nat)
    (h : breakPatterns_func next d a b = .ok d') : d'.Perm d := by
  unfold breakPatterns_func at h
  simp only at h
  split_ifs at h
  · exact breakLoop_perm next _ _ _ _ _ _ _ d d' h
  · cases h
    exact List.Perm.refl _

theorem reverseLoop_perm : ∀ (n i j : Nat) (d d' : List α),
    reverseLoop n i j d = .ok d' → d'.Perm d := by
  intro n
  induction n with
  | zero =>
    intro i j d d' h
    unfold reverseLoop at h
    cases h
    exact List.Perm.refl _
  | succ n ih =>
    intro i j d d' h
    unfold reverseLoop at h
    obtain ⟨d1, h1, h2⟩ := bind_ok_inv h
    exact (ih _ _ d1 d' h2).trans (Swap_perm h1)

theorem pdqsort_perm (next : Nat → Nat) : ∀ (fuel : Nat) (d d' : List α) (a b limit : Nat)
    (wb wp : Bool), pdqsort_func next L fuel d a b limit wb wp = .ok d' → d'.Perm d := by
  intro fuel
  induction fuel with
  | zero =>
    intro d d' a b limit wb wp h
    unfold pdqsort_func at h
    simp only at h
    by_cases h12 : b - a ≤ 12
    · rw [if_pos h12] at h
      exact insertionSort_perm d d' a b h
    rw [if_neg h12] at h
    by_cases hlim : limit = 0
    · rw [if_pos hlim] at h
      exact heapSort_perm d d' a b h
    rw [if_neg hlim] at h
    cases h
  | succ fuel ih =>
    intro d d' a b limit wb wp h
    unfold pdqsort_func at h
    simp only at h
    by_cases h12 : b - a ≤ 12
    · rw [if_pos h12] at h
      exact insertionSort_perm d d' a b h
    rw [if_neg h12] at h
    by_cases hlim : limit = 0
    · rw [if_pos hlim] at h
      exact heapSort_perm d d' a b h
    rw [if_neg hlim] at h
    obtain ⟨d1, h1, h⟩ := bind_ok_inv h
    have p1 : d1.Perm d := by
      split_ifs at h1
      · exact breakPatterns_perm next d d1 a b h1
      · cases h1
        exact List.Perm.refl _
    obtain ⟨ph, h2, h⟩ := bind_ok_inv h
    obtain ⟨d2, h3, h⟩ := bind_ok_inv h
    have p2 : d2.Perm d1 := by
      split_ifs at h3
      · exact reverseLoop_perm _ _ _ d1 d2 h3
      · cases h3
        exact List.Perm.refl _
    obtain ⟨ps, h4, h⟩ := bind_ok_inv h
    have p3 : ps.1.Perm d2 := by
      by_cases hc : (wb && wp && decide ((if ph.2 = SortedHint.decreasingHint then
          SortedHint.increasingHint else ph.2) = SortedHint.increasingHint)) = true
      · rw [if_pos hc] at h4
        exact partialInsertionLoop_perm a b _ _ d2 ps h4
      · rw [if_neg hc] at h4
        cases h4
        exact List.Perm.refl _
    have p123 : ps.1.Perm d := (p3.trans p2).trans p1
    by_cases hdone : ps.2 = true
    · rw [if_pos hdone] at h
      cases h
      exact p123
    rw [if_neg hdone] at h
    obtain ⟨e, h5, h⟩ := bind_ok_inv h
    by_cases heq : e = true
    · rw [if_pos heq] at h
      obtain ⟨r, h6, h7⟩ := bind_ok_inv h
      exact ((ih _ d' _ _ _ _ _ h7).trans (partitionEqual_perm _ a b _ r h6)).trans p123
    rw [if_neg heq] at h
    obtain ⟨r, h6, h⟩ := bind_ok_inv h
    have p4 := partition_perm _ a b _ r h6
    by_cases hside : r.2.1 - a < b - r.2.1
    · rw [if_pos hside] at h
      obtain ⟨d5, h7, h8⟩ := bind_ok_inv h
      exact (((ih _ d' _ _ _ _ _ h8).trans (ih _ d5 _ _ _ _ _ h7)).trans p4).trans p123
    · rw [if_neg hside] at h
      obtain ⟨d5, h7, h8⟩ := bind_ok_inv h
      exact (((ih _ d' _ _ _ _ _ h8).trans (ih _ d5 _ _ _ _ _ h7)).trans p4).trans p123

/-- A table `sortSlice` returns holds the rows it was given, each as often, whatever the
comparator and the generator. -/
theorem sortSlice_perm (next : Nat → Nat) (d d' : List α)
    (h : sortSlice next L d = .ok d') : d'.Perm d :=
  pdqsort_perm next _ d d' _ _ _ _ _ h

end PermPass

end PodDiskUsage

namespace PodDiskUsage

/-! ## `sortSlice` returns, and returns its input sorted -/

section SortSliceTotal

variable {α : Type} {L : α → α → Except Fault Bool} {K : α → Int}

/-- On good data `sortSlice` returns a table (no fault, no recursion budget exceeded)
that is a rearrangement of its input with keys in order. -/
theorem sortSlice_total (next : Nat → Nat) (d : List α) (hg : Good L K d) :
    ∃ d', sortSlice next L d = .ok d' ∧ d'.Perm d ∧ SortedOn K d' 0 d.length := by
  obtain ⟨d', h1, h2, h3⟩ := pdqsort_spec (L := L) (K := K) next d.length d 0
    d.length (bitsLen d.length) true true hg (Nat.zero_le _) (le_refl _) (by omega)
    (by intro h; omega)
  exact ⟨d', h1, h2.perm, h3⟩

/-- Up to twelve elements `sortSlice` is the insertion sort. -/
theorem sortSlice_small (next : Nat → Nat) (d : List α) (h : d.length ≤ 12) :
    sortSlice next L d = insertionSort_func L d 0 d.length := by
  unfold sortSlice pdqsort_func
  have : d.length - 0 ≤ 12 := by omega
  simp only [this, if_true]

theorem keyAt_of_get (d : List α) (i : Nat) (x : α) (h : d[i]? = some x) :
    keyAt K d i = K x := by
  unfold keyAt
  rw [h]

end SortSliceTotal

/-! ## The comparator of `main` -/

theorem rowPercent_ok (row : ProbeResult) (h : HasPercent row) :
    rowPercent row = .ok (pct row) := by
  unfold rowPercent pct
  unfold HasPercent at h
  simp only [h, if_false]

theorem rowPercent_panic (row : ProbeResult) (h : ¬ HasPercent row) :
    rowPercent row = .error .panic := by
  unfold rowPercent
  unfold HasPercent at h
  have h' : findString row.free = [] := by
    by_contra hc
    exact h hc
  simp only [h', if_true]

theorem lessRows_ok (rowI rowJ : ProbeResult) (hi : HasPercent rowI) (hj : HasPercent rowJ) :
    lessRows rowI rowJ = .ok (decide (pct rowI > pct rowJ)) := by
  unfold lessRows
  rw [rowPercent_ok rowI hi, rowPercent_ok rowJ hj]
  rfl

theorem lessRows_panic (rowI rowJ : ProbeResult) (h : ¬ HasPercent rowI ∨ ¬ HasPercent rowJ) :
    lessRows rowI rowJ = .error .panic := by
  unfold lessRows
  by_cases hi : HasPercent rowI
  · rcases h with h | h
    · exact absurd hi h
    · rw [rowPercent_ok rowI hi, rowPercent_panic rowJ h]
      rfl
  · rw [rowPercent_panic rowI hi]
    rfl

theorem lessRows_good (tableData : List ProbeResult) (h : ∀ row ∈ tableData, HasPercent row) :
    Good lessRows (fun row => -(pct row)) tableData := by
  intro x hx y hy
  rw [lessRows_ok x y (h x hx) (h y hy)]
  congr 1
  simp only [gt_iff_lt, neg_lt_neg_iff]

theorem ranking_two_panics (next : Nat → Nat) (rowI rowJ : ProbeResult)
    (h : ¬ HasPercent rowI ∨ ¬ HasPercent rowJ) :
    ranking next [rowI, rowJ] = .error .panic := by
  have hp : lessRows rowJ rowI = .error .panic := lessRows_panic rowJ rowI h.symm
  unfold ranking
  rw [sortSlice_small next [rowI, rowJ] (by simp)]
  unfold insertionSort_func
  simp only [List.length_cons, List.length_nil]
  unfold insertionOuter insertionInner
  have hL : Less lessRows [rowI, rowJ] (0 + 1) 0 = .error .panic := by
    unfold Less
    simp [hp]
  simp only [Nat.zero_add] at hL ⊢
  simp only [show (0 + 1 > 0) by omega, if_true, hL]
  rfl

end PodDiskUsage

namespace PodDiskUsage

/-! ## Aggregation and pod discovery as filters -/

/-- Both command outputs of the probe result are non-empty: the test of the aggregation
loop. -/
theorem aggregate_acc (results tableData : List ProbeResult) :
    aggregate results tableData = tableData ++
      (results.filter (fun r => decide (r.free ≠ [] ∧ r.usage ≠ []))).map
        (fun r => { r with free := trimFree r.free }) := by
  induction results generalizing tableData with
  | nil => simp [aggregate]
  | cons r rest ih =>
    unfold aggregate
    by_cases h : r.free ≠ [] ∧ r.usage ≠ []
    · rw [if_pos h, ih]
      simp [List.filter_cons, h]
    · rw [if_neg h, ih]
      simp only [List.filter_cons, h, decide_False, Bool.false_eq_true, if_false]

theorem getPodsLoop_acc (lines acc : List Str) :
    getPodsLoop lines acc = acc ++ (lines.map trimSpace).filter matchGetPods := by
  induction lines generalizing acc with
  | nil => simp [getPodsLoop]
  | cons l rest ih =>
    unfold getPodsLoop
    by_cases h : matchGetPods (trimSpace l) = true
    · simp only [h, if_true]
      rw [ih]
      simp [List.filter_cons, h]
    · have h' : matchGetPods (trimSpace l) = false := by simpa using h
      simp only [h', Bool.false_eq_true, if_false, List.map_cons, List.filter_cons]
      exact ih acc

theorem filterPodsLoop_acc (f : Str → Bool) (pods acc : List Str) :
    filterPodsLoop f pods acc = acc ++ pods.filter f := by
  induction pods generalizing acc with
  | nil => simp [filterPodsLoop]
  | cons l rest ih =>
    unfold filterPodsLoop
    by_cases h : f l = true
    · simp only [h, if_true]
      rw [ih]
      simp [List.filter_cons, h]
    · have h' : f l = false := by simpa using h
      simp only [h', Bool.false_eq_true, if_false, List.filter_cons]
      exact ih acc

theorem trimFree_eq (free : Str) :
    trimFree free = join [' '] ((fields free).drop ((fields free).length - 5)) := by
  unfold trimFree
  by_cases h : (fields free).length > 4
  · simp only [h, if_true]
  · simp only [h, if_false]
    have : (fields free).length - 5 = 0 := by omega
    rw [this, List.drop_zero]

theorem fields_trimFree (free : Str) :
    fields (trimFree free) = (fields free).drop ((fields free).length - 5) := by
  rw [trimFree_eq]
  apply fields_join
  intro u hu
  exact fields_clean free u (List.mem_of_mem_drop hu)

/-- The loop on a sequence of results in which `result` has two non-empty outputs: the rows
of the results before it, the row of `result`, the rows of the results after it. -/
theorem aggregate_split (before after tableData : List ProbeResult) (result : ProbeResult)
    (hf : result.free ≠ []) (hu : result.usage ≠ []) :
    aggregate (before ++ result :: after) tableData =
      aggregate before tableData ++
        { result with free := trimFree result.free } :: aggregate after [] := by
  have h : decide (result.free ≠ [] ∧ result.usage ≠ []) = true := decide_eq_true ⟨hf, hu⟩
  rw [aggregate_acc, aggregate_acc before, aggregate_acc after, List.filter_append,
    List.filter_cons, if_pos h, List.map_append, List.map_cons, List.nil_append,
    List.append_assoc]

theorem aggregate_mem (results tableData : List ProbeResult) (row : ProbeResult) :
    row ∈ aggregate results tableData ↔
      row ∈ tableData ∨
        ∃ r ∈ results, r.free ≠ [] ∧ r.usage ≠ [] ∧ row = { r with free := trimFree r.free } := by
  rw [aggregate_acc, List.mem_append, List.mem_map]
  constructor
  · rintro (h | ⟨r, hr, rfl⟩)
    · exact Or.inl h
    · rw [List.mem_filter] at hr
      have hc : r.free ≠ [] ∧ r.usage ≠ [] := by simpa using hr.2
      exact Or.inr ⟨r, hr.1, hc.1, hc.2, rfl⟩
  · rintro (h | ⟨r, hr, hf, hu, rfl⟩)
    · exact Or.inl h
    · refine Or.inr ⟨r, ?_, rfl⟩
      rw [List.mem_filter]
      exact ⟨hr, decide_eq_true ⟨hf, hu⟩⟩

end PodDiskUsage

namespace PodDiskUsage

/-! ## The fan-out: barrier and channel capacity -/

theorem reachable_inv (pairs : Nat) (s : FanOut) (h : Reachable pairs s) :
    s.toLaunch + s.running + s.sent + s.finished = pairs ∧
      s.buffered = s.sent + s.finished ∧ s.buffered ≤ chanCapacity ∧
      (s.phase ≠ .walking → s.toLaunch = 0) ∧
      (s.phase = .aggregating → s.running = 0 ∧ s.sent = 0) := by
  induction h with
  | start =>
    refine ⟨by simp [FanOut.start], by simp [FanOut.start], by simp [FanOut.start], ?_, ?_⟩
    · intro h; exact absurd rfl h
    · intro h; cases h
  | step hr hs ih =>
    obtain ⟨i1, i2, i3, i4, i5⟩ := ih
    cases hs with
    | launch hp hl =>
      refine ⟨by simp only; omega, i2, i3, ?_, ?_⟩
      · intro h; exact absurd hp h
      · intro h
        simp only at h
        rw [hp] at h
        cases h
    | endWalk hp hl =>
      refine ⟨i1, i2, i3, fun _ => hl, ?_⟩
      intro h
      cases h
    | send h1 h2 =>
      refine ⟨by simp only; omega, by simp only; omega, by simp only; omega, i4, ?_⟩
      intro h
      have := i5 h
      omega
    | done h1 =>
      refine ⟨by simp only; omega, by simp only; omega, i3, i4, ?_⟩
      intro h
      have := i5 h
      omega
    | pass hp hc =>
      refine ⟨i1, i2, i3, ?_, ?_⟩
      · intro _
        exact i4 (by rw [hp]; intro h; cases h)
      · intro _
        unfold FanOut.counter at hc
        simp only
        omega

theorem reach_launch (pairs : Nat) : ∀ k, k ≤ pairs →
    Reachable pairs ⟨.walking, pairs - k, k, 0, 0, 0⟩ := by
  intro k
  induction k with
  | zero => intro _; exact Reachable.start
  | succ k ih =>
    intro hk
    have h := Reachable.step (ih (by omega))
      (Step.launch _ rfl (by simp only; omega))
    have e : pairs - k - 1 = pairs - (k + 1) := by omega
    simp only [e] at h
    exact h

theorem reach_waiting (pairs : Nat) : Reachable pairs ⟨.waiting, 0, pairs, 0, 0, 0⟩ := by
  have h := reach_launch pairs pairs (le_refl _)
  simp only [Nat.sub_self] at h
  exact Reachable.step h (Step.endWalk _ rfl rfl)

theorem reach_send (pairs : Nat) : ∀ k, k ≤ pairs → k ≤ chanCapacity →
    Reachable pairs ⟨.waiting, 0, pairs - k, k, 0, k⟩ := by
  intro k
  induction k with
  | zero => intro _ _; exact reach_waiting pairs
  | succ k ih =>
    intro hk hc
    have h := Reachable.step (ih (by omega) (by omega))
      (Step.send _ (by simp only; omega) (by simp only; omega))
    have e : pairs - k - 1 = pairs - (k + 1) := by omega
    simp only [e] at h
    exact h

theorem reach_done (pairs m : Nat) (hm : m ≤ pairs) (hc : m ≤ chanCapacity) : ∀ k, k ≤ m →
    Reachable pairs ⟨.waiting, 0, pairs - m, m - k, k, m⟩ := by
  intro k
  induction k with
  | zero => intro _; exact reach_send pairs m hm hc
  | succ k ih =>
    intro hk
    have h := Reachable.step (ih (by omega)) (Step.done _ (by simp only; omega))
    have e : m - k - 1 = m - (k + 1) := by omega
    simp only [e] at h
    exact h

theorem reach_aggregating (pairs : Nat) (h : pairs ≤ chanCapacity) :
    Reachable pairs ⟨.aggregating, 0, 0, 0, pairs, pairs⟩ := by
  have h1 := reach_done pairs pairs (le_refl _) h pairs (le_refl _)
  simp only [Nat.sub_self] at h1
  exact Reachable.step h1 (Step.pass _ rfl rfl)

theorem reach_full (pairs : Nat) (h : chanCapacity < pairs) :
    Reachable pairs ⟨.waiting, 0, pairs - chanCapacity, 0, chanCapacity, chanCapacity⟩ := by
  have h1 := reach_done pairs chanCapacity (by omega) (le_refl _) chanCapacity (le_refl _)
  simp only [Nat.sub_self] at h1
  exact h1

theorem full_stuck (pairs : Nat) (h : chanCapacity < pairs) :
    Stuck ⟨.waiting, 0, pairs - chanCapacity, 0, chanCapacity, chanCapacity⟩ := by
  intro t ht
  cases ht with
  | launch hp _ => simp only at hp; cases hp
  | endWalk hp _ => simp only at hp; cases hp
  | send _ h2 => simp only at h2; omega
  | done h1 => simp only at h1; omega
  | pass _ hc =>
    unfold FanOut.counter at hc
    simp only at hc
    omega

/-! ### Every run -/

theorem step_stepsLeft {s t : FanOut} (h : Step s t) : t.stepsLeft + 1 ≤ s.stepsLeft := by
  cases h with
  | launch hp hl =>
    unfold FanOut.stepsLeft
    simp only [hp]
    omega
  | endWalk hp hl =>
    unfold FanOut.stepsLeft
    simp only [hp]
    omega
  | send h1 h2 =>
    unfold FanOut.stepsLeft
    simp only
    omega
  | done h1 =>
    unfold FanOut.stepsLeft
    simp only
    omega
  | pass hp hc =>
    unfold FanOut.stepsLeft
    simp only [hp]
    omega

theorem aggregating_stuck (s : FanOut) (hp : s.phase = .aggregating) (hr : s.running = 0)
    (hs : s.sent = 0) : Stuck s := by
  intro t ht
  cases ht with
  | launch h _ => rw [hp] at h; cases h
  | endWalk h _ => rw [hp] at h; cases h
  | send h1 _ => omega
  | done h1 => omega
  | pass h _ => rw [hp] at h; cases h

/-- With at most 100 pairs a reachable state in which no step is possible is a state of
the aggregation phase: before it some step is always possible. -/
theorem stuck_small (pairs : Nat) (hp : pairs ≤ chanCapacity) (s : FanOut)
    (hr : Reachable pairs s) (hs : Stuck s) : s.phase = .aggregating := by
  obtain ⟨i1, i2, i3, i4, i5⟩ := reachable_inv pairs s hr
  cases hph : s.phase with
  | aggregating => rfl
  | walking =>
    exfalso
    by_cases hl : 0 < s.toLaunch
    · exact hs _ (Step.launch s hph hl)
    · exact hs _ (Step.endWalk s hph (by omega))
  | waiting =>
    exfalso
    by_cases h1 : 0 < s.sent
    · exact hs _ (Step.done s h1)
    · by_cases h2 : 0 < s.running
      · exact hs _ (Step.send s h2 (by omega))
      · exact hs _ (Step.pass s hph (by unfold FanOut.counter; omega))

/-- With more than 100 pairs the one reachable state in which no step is possible is the
deadlock. -/
theorem stuck_large (pairs : Nat) (hp : chanCapacity < pairs) (s : FanOut)
    (hr : Reachable pairs s) (hs : Stuck s) : s = FanOut.deadlock pairs := by
  obtain ⟨i1, i2, i3, i4, i5⟩ := reachable_inv pairs s hr
  have hnw : s.phase ≠ .walking := by
    intro hph
    by_cases hl : 0 < s.toLaunch
    · exact hs _ (Step.launch s hph hl)
    · exact hs _ (Step.endWalk s hph (by omega))
  have hna : s.phase ≠ .aggregating := by
    intro hph
    have := i5 hph
    have := i4 hnw
    omega
  have hw : s.phase = .waiting := by
    cases hph : s.phase with
    | walking => exact absurd hph hnw
    | aggregating => exact absurd hph hna
    | waiting => rfl
  have h0 := i4 hnw
  have h1 : s.sent = 0 := by
    by_contra hc
    exact hs _ (Step.done s (by omega))
  have h2 : 0 < s.running := by
    by_contra hc
    exact hs _ (Step.pass s hw (by unfold FanOut.counter; omega))
  have h3 : ¬ s.buffered < chanCapacity := fun hc => hs _ (Step.send s h2 hc)
  have hb : s.buffered = chanCapacity := by omega
  have hf : s.finished = chanCapacity := by omega
  have hrn : s.running = pairs - chanCapacity := by omega
  cases s with
  | mk phase toLaunch running sent finished buffered =>
    simp only at hw h0 h1 hb hf hrn
    subst hw h0 h1 hb hf hrn
    rfl

theorem run_reachable (pairs : Nat) (run : Nat → FanOut) (h : IsRun pairs run) :
    ∀ n, Reachable pairs (run n) := by
  intro n
  induction n with
  | zero => rw [h.1]; exact Reachable.start
  | succ n ih =>
    rcases h.2 n with hs | ⟨_, he⟩
    · exact Reachable.step ih hs
    · rw [he]; exact ih

theorem run_stops (pairs : Nat) (run : Nat → FanOut) (h : IsRun pairs run) :
    ∃ n, Stuck (run n) := by
  have key : ∀ n, (∃ m, Stuck (run m)) ∨ (run n).stepsLeft + n ≤ (run 0).stepsLeft := by
    intro n
    induction n with
    | zero => right; omega
    | succ n ih =>
      rcases ih with ih | ih
      · exact Or.inl ih
      · rcases h.2 n with hs | ⟨hst, _⟩
        · right
          have := step_stepsLeft hs
          omega
        · exact Or.inl ⟨n, hst⟩
  rcases key ((run 0).stepsLeft + 1) with hk | hk
  · exact hk
  · omega

theorem run_stays (pairs : Nat) (run : Nat → FanOut) (h : IsRun pairs run) (n : Nat)
    (hs : Stuck (run n)) : ∀ m, n ≤ m → run m = run n := by
  intro m hm
  induction m with
  | zero =>
    have : n = 0 := by omega
    rw [this]
  | succ m ih =>
    by_cases hnm : n = m + 1
    · rw [hnm]
    · have e := ih (by omega)
      rcases h.2 m with hst | ⟨_, he⟩
      · rw [e] at hst
        exact absurd hst (hs _)
      · rw [he, e]

theorem schedule_step (s : FanOut) : Step s (schedule s) ∨ (Stuck s ∧ schedule s = s) := by
  unfold schedule
  by_cases c1 : s.phase = .walking ∧ 0 < s.toLaunch
  · rw [if_pos c1]
    exact Or.inl (Step.launch s c1.1 c1.2)
  rw [if_neg c1]
  by_cases c2 : s.phase = .walking
  · rw [if_pos c2]
    exact Or.inl (Step.endWalk s c2 (by
      by_contra hc
      exact c1 ⟨c2, by omega⟩))
  rw [if_neg c2]
  by_cases c3 : 0 < s.sent
  · rw [if_pos c3]
    exact Or.inl (Step.done s c3)
  rw [if_neg c3]
  by_cases c4 : 0 < s.running ∧ s.buffered < chanCapacity
  · rw [if_pos c4]
    exact Or.inl (Step.send s c4.1 c4.2)
  rw [if_neg c4]
  by_cases c5 : s.phase = .waiting ∧ s.counter = 0
  · rw [if_pos c5]
    exact Or.inl (Step.pass s c5.1 c5.2)
  rw [if_neg c5]
  refine Or.inr ⟨?_, rfl⟩
  intro t ht
  cases ht with
  | launch h _ => exact c2 h
  | endWalk h _ => exact c2 h
  | send h1 h2 => exact c4 ⟨h1, h2⟩
  | done h1 => exact c3 h1
  | pass h1 h2 => exact c5 ⟨h1, h2⟩

theorem scheduledRun_isRun (pairs : Nat) : IsRun pairs (scheduledRun pairs) :=
  ⟨rfl, fun n => schedule_step (scheduledRun pairs n)⟩

end PodDiskUsage

namespace PodDiskUsage

/-! ## The claims -/

/-- C1: when every aggregated row has a match of `\d+%` in its free-space field, the ranking
step of `main` returns a table, and in it the percentage of each row is at least the
percentage of the row after it; the two probe results of the end-to-end scenario give, in
either arrival order, the table that lists pod A before pod B. -/
theorem ranking_sorted_descending (next : Nat → Nat) (tableData : List ProbeResult)
    (h : ∀ row ∈ tableData, HasPercent row) :
    (∃ out, ranking next tableData = .ok out ∧
      ∀ (i : Nat) (rowI rowJ : ProbeResult), out[i]? = some rowI → out[i + 1]? = some rowJ →
        pct rowI ≥ pct rowJ) ∧
    finalTable next [probeA, probeB] = .ok [rowA, rowB] ∧
    finalTable next [probeB, probeA] = .ok [rowA, rowB] := by
  refine ⟨?_, rfl, rfl⟩
  obtain ⟨out, h1, h2, h3⟩ := sortSlice_total next tableData (lessRows_good tableData h)
  refine ⟨out, h1, ?_⟩
  intro i rowI rowJ hi hj
  have hlen : i + 1 < tableData.length := by
    rw [← h2.length_eq]
    exact (List.getElem?_eq_some.mp hj).1
  have := h3 i (i + 1) (Nat.zero_le _) (by omega) hlen
  rw [keyAt_of_get out i rowI hi, keyAt_of_get out (i + 1) rowJ hj] at this
  omega

/-- C1, at a concrete table: the rows of pods B and A, in this order, each have a match, and
the ranking step returns a table that is in descending order. -/
theorem ranking_sorted_descending_witness :
    (∀ row ∈ [rowB, rowA], HasPercent row) ∧
    ((∃ out, ranking (fun r => r) [rowB, rowA] = .ok out ∧
      ∀ (i : Nat) (rowI rowJ : ProbeResult), out[i]? = some rowI → out[i + 1]? = some rowJ →
        pct rowI ≥ pct rowJ) ∧
    finalTable (fun r => r) [probeA, probeB] = .ok [rowA, rowB] ∧
    finalTable (fun r => r) [probeB, probeA] = .ok [rowA, rowB]) :=
  ⟨by decide, ranking_sorted_descending (fun r => r) [rowB, rowA] (by decide)⟩

/-- C2: `getCommands` returns the grep-then-awk command exactly for the four listed
configuration paths and the default awk-then-grep command for every other string; the path
`/root/.kube/sys/z-prod-ack.yaml` selects the first, and its variants in other case, with a
trailing slash or in relative form select the default. -/
theorem getCommands_dispatch (config : Str) :
    ((getCommands config).1 =
        "df -h | grep -w /prometheus | awk \x27\x7bprint $2, $3, $4, $5, $6\x7d\x27".toList ↔
      config ∈ ["/root/.kube/sys/putuo-pt-rke.yaml".toList,
        "/root/.kube/sys/stage-rke.yaml".toList, "/root/.kube/sys/z-prod-ack.yaml".toList,
        "/root/.kube/sys/z-prod-tke.yaml".toList]) ∧
    ((getCommands config).1 =
        "df -h | awk \x27\x7bprint $1, $2, $3, $4, $5, $6\x7d\x27 | grep -w /prometheus".toList ↔
      config ∉ ["/root/.kube/sys/putuo-pt-rke.yaml".toList,
        "/root/.kube/sys/stage-rke.yaml".toList, "/root/.kube/sys/z-prod-ack.yaml".toList,
        "/root/.kube/sys/z-prod-tke.yaml".toList]) ∧
    (getCommands "/root/.kube/sys/z-prod-ack.yaml".toList).1 = grepThenAwk ∧
    (getCommands "/root/.kube/sys/Z-PROD-ACK.yaml".toList).1 = awkThenGrep ∧
    (getCommands "/root/.kube/sys/z-prod-ack.yaml/".toList).1 = awkThenGrep ∧
    (getCommands ".kube/sys/z-prod-ack.yaml".toList).1 = awkThenGrep := by
  have hne : grepThenAwk ≠ awkThenGrep := by decide
  have hg : grepThenAwk =
      "df -h | grep -w /prometheus | awk \x27\x7bprint $2, $3, $4, $5, $6\x7d\x27".toList := rfl
  have ha : awkThenGrep =
      "df -h | awk \x27\x7bprint $1, $2, $3, $4, $5, $6\x7d\x27 | grep -w /prometheus".toList :=
    rfl
  rw [← hg, ← ha]
  refine ⟨?_, ?_, by decide, by decide, by decide, by decide⟩
  · unfold getCommands
    simp only [List.mem_cons, List.mem_singleton, List.not_mem_nil, or_false]
    split_ifs with hc
    · exact ⟨fun _ => hc, fun _ => rfl⟩
    · exact ⟨fun h => absurd h.symm hne, fun h => absurd h hc⟩
  · unfold getCommands
    simp only [List.mem_cons, List.mem_singleton, List.not_mem_nil, or_false]
    split_ifs with hc
    · exact ⟨fun h => absurd h hne, fun h => absurd hc h⟩
    · exact ⟨fun _ => hc, fun _ => rfl⟩

/-- C3: for a probe result whose two outputs are non-empty, wherever it stands among the
drained results, the aggregation loop returns the table that holds, after the rows of the
results before it and in front of the rows of the results after it, the result with its
free-space field replaced by the last five whitespace-separated tokens of the raw output
(all of them when there are fewer) joined by single spaces; that field splits back into
these tokens, at most five, and so does the free-space field of every row of the table. -/
theorem aggregate_trims_free (before after tableData : List ProbeResult) (result : ProbeResult)
    (hf : result.free ≠ []) (hu : result.usage ≠ []) :
    aggregate (before ++ result :: after) tableData =
        aggregate before tableData ++
          { result with
            free := join [' '] ((fields result.free).drop ((fields result.free).length - 5)) } ::
            aggregate after [] ∧
      { result with
          free := join [' '] ((fields result.free).drop ((fields result.free).length - 5)) } ∈
        aggregate (before ++ result :: after) tableData ∧
      fields (join [' '] ((fields result.free).drop ((fields result.free).length - 5))) =
        (fields result.free).drop ((fields result.free).length - 5) ∧
      ((fields result.free).drop ((fields result.free).length - 5)).length =
        min (fields result.free).length 5 ∧
      ((fields result.free).length ≤ 5 →
        (fields result.free).drop ((fields result.free).length - 5) = fields result.free) ∧
      (fields (join [' ']
        ((fields result.free).drop ((fields result.free).length - 5)))).length ≤ 5 ∧
      ∀ row ∈ aggregate (before ++ result :: after) [], (fields row.free).length ≤ 5 := by
  have hs := aggregate_split before after tableData result hf hu
  rw [trimFree_eq] at hs
  have hfl := fields_trimFree result.free
  rw [trimFree_eq] at hfl
  refine ⟨hs, ?_, hfl, ?_, ?_, ?_, ?_⟩
  · rw [hs]
    exact List.mem_append_right _ (List.mem_cons_self _ _)
  · rw [List.length_drop]
    omega
  · intro h5
    have e : (fields result.free).length - 5 = 0 := by omega
    rw [e, List.drop_zero]
  · rw [hfl, List.length_drop]
    omega
  · intro row hrow
    rw [aggregate_mem] at hrow
    rcases hrow with hrow | ⟨r, _, _, _, rfl⟩
    · cases hrow
    · simp only
      rw [fields_trimFree, List.length_drop]
      omega

/-- C3, at the results of pods B and A of the scenario: the `df` line of pod A has six
tokens, and its row in the table holds the last five. -/
theorem aggregate_trims_free_witness :
    (probeA.free ≠ [] ∧ probeA.usage ≠ []) ∧
    aggregate [probeB, probeA] [] = [rowB, rowA] ∧
    fields probeA.free = ["/dev/sda1".toList, "10G".toList, "8G".toList, "2G".toList,
      "80%".toList, "/prometheus".toList] ∧
    rowA.free = "10G 8G 2G 80% /prometheus".toList ∧
    join [' '] ((fields probeA.free).drop ((fields probeA.free).length - 5)) = rowA.free ∧
    fields rowA.free =
      ["10G".toList, "8G".toList, "2G".toList, "80%".toList, "/prometheus".toList] ∧
    (aggregate ([probeB] ++ probeA :: []) [] =
        aggregate [probeB] [] ++
          { probeA with
            free := join [' '] ((fields probeA.free).drop ((fields probeA.free).length - 5)) } ::
            aggregate [] [] ∧
      { probeA with
          free := join [' '] ((fields probeA.free).drop ((fields probeA.free).length - 5)) } ∈
        aggregate ([probeB] ++ probeA :: []) [] ∧
      fields (join [' '] ((fields probeA.free).drop ((fields probeA.free).length - 5))) =
        (fields probeA.free).drop ((fields probeA.free).length - 5) ∧
      ((fields probeA.free).drop ((fields probeA.free).length - 5)).length =
        min (fields probeA.free).length 5 ∧
      ((fields probeA.free).length ≤ 5 →
        (fields probeA.free).drop ((fields probeA.free).length - 5) = fields probeA.free) ∧
      (fields (join [' ']
        ((fields probeA.free).drop ((fields probeA.free).length - 5)))).length ≤ 5 ∧
      ∀ row ∈ aggregate ([probeB] ++ probeA :: []) [], (fields row.free).length ≤ 5) :=
  ⟨by decide, by decide, by decide, by decide, by decide, by decide,
    aggregate_trims_free [probeB] [] [] probeA (by decide) (by decide)⟩

/-- C4: the aggregation loop turns the drained probe results into the table that has, in
arrival order, one row for each result whose free-space and usage outputs are both
non-empty and no other row: each such result has its row in the table, each row comes from
such a result, and no row has an empty usage output.  The ranking step returns a table
when every row has a match of `\d+%`, and whenever it returns a table, that table is a
rearrangement of the aggregated one: no row is added, none removed, and none has an empty
usage output. -/
theorem table_rows_are_complete_results (next : Nat → Nat) (results : List ProbeResult) :
    aggregate results [] =
        (results.filter (fun r => decide (r.free ≠ [] ∧ r.usage ≠ []))).map
          (fun r => { r with free := trimFree r.free }) ∧
      (∀ r ∈ results, r.free ≠ [] → r.usage ≠ [] →
        { r with free := trimFree r.free } ∈ aggregate results []) ∧
      (∀ row ∈ aggregate results [], row.usage ≠ [] ∧
        ∃ r ∈ results, r.free ≠ [] ∧ r.usage ≠ [] ∧ row = { r with free := trimFree r.free }) ∧
      (∀ r ∈ results, r.usage = [] → r ∉ aggregate results []) ∧
      ((∀ row ∈ aggregate results [], HasPercent row) →
        ∃ out, finalTable next results = .ok out) ∧
      ∀ out, finalTable next results = .ok out →
        out.Perm (aggregate results []) ∧ out.length = (aggregate results []).length ∧
        (∀ row, row ∈ out ↔ row ∈ aggregate results []) ∧
        (∀ row ∈ out, row.usage ≠ [] ∧
          ∃ r ∈ results, r.free ≠ [] ∧ r.usage ≠ [] ∧
            row = { r with free := trimFree r.free }) ∧
        ∀ r ∈ results, r.usage = [] → r ∉ out := by
  have hagg := aggregate_acc results []
  simp only [List.nil_append] at hagg
  have hrows : ∀ row ∈ aggregate results [], row.usage ≠ [] ∧
      ∃ r ∈ results, r.free ≠ [] ∧ r.usage ≠ [] ∧ row = { r with free := trimFree r.free } := by
    intro row hrow
    rw [aggregate_mem] at hrow
    rcases hrow with hrow | ⟨r, hr, hf, hu, rfl⟩
    · cases hrow
    · exact ⟨hu, r, hr, hf, hu, rfl⟩
  have hdrop : ∀ r ∈ results, r.usage = [] → r ∉ aggregate results [] :=
    fun r _ hu hmem => (hrows r hmem).1 hu
  refine ⟨hagg, ?_, hrows, hdrop, ?_, ?_⟩
  · intro r hr hf hu
    rw [aggregate_mem]
    exact Or.inr ⟨r, hr, hf, hu, rfl⟩
  · intro hp
    obtain ⟨out, h1, -, -⟩ := sortSlice_total next (aggregate results [])
      (lessRows_good (aggregate results []) hp)
    exact ⟨out, h1⟩
  · intro out h
    have hperm : out.Perm (aggregate results []) := sortSlice_perm next _ out h
    refine ⟨hperm, hperm.length_eq, fun row => hperm.mem_iff, ?_, ?_⟩
    · intro row hrow
      exact hrows row (hperm.mem_iff.mp hrow)
    · intro r hr hu hmem
      exact hdrop r hr hu (hperm.mem_iff.mp hmem)

/-- C4, at three drained results of which the second has an empty usage output: the
aggregated table holds the rows of the two others in arrival order, and the final table
holds the same two rows. -/
theorem table_rows_are_complete_results_witness :
    aggregate [probeB, { probeA with pod := "podC".toList, usage := [] }, probeA] [] =
      [rowB, rowA] ∧
    finalTable (fun r => r)
        [probeB, { probeA with pod := "podC".toList, usage := [] }, probeA] =
      .ok [rowA, rowB] ∧
    [rowA, rowB].Perm
      (aggregate [probeB, { probeA with pod := "podC".toList, usage := [] }, probeA] []) ∧
    { probeA with pod := "podC".toList, usage := [] } ∉ [rowA, rowB] :=
  ⟨by decide, rfl,
    ((table_rows_are_complete_results (fun r => r)
      [probeB, { probeA with pod := "podC".toList, usage := [] }, probeA]).2.2.2.2.2
        [rowA, rowB] rfl).1,
    ((table_rows_are_complete_results (fun r => r)
      [probeB, { probeA with pod := "podC".toList, usage := [] }, probeA]).2.2.2.2.2
        [rowA, rowB] rfl).2.2.2.2 _ (by decide) rfl⟩

/-- C5: `getPods` returns, in the order of the listing, the whitespace-trimmed lines that
begin with `prometheus-k8s` or `prometheus-istio`; `filterPods` in `main` keeps all of them;
every pod discovered has one of the two prefixes; a header line, an empty line and a pod of
another workload are left out. -/
theorem getPods_keeps_prefixed (out : Str) :
    getPods out = ((splitLines out).map trimSpace).filter
        (fun pod => "prometheus-k8s".toList.isPrefixOf pod ||
          "prometheus-istio".toList.isPrefixOf pod) ∧
    discoveredPods out = getPods out ∧
    (∀ pod ∈ discoveredPods out,
      "prometheus-k8s".toList <+: pod ∨ "prometheus-istio".toList <+: pod) ∧
    getPods "NAME\nprometheus-k8s-0\n\n  prometheus-istio-1 \nalertmanager-main-0\n".toList =
      ["prometheus-k8s-0".toList, "prometheus-istio-1".toList] := by
  have h1 : getPods out = ((splitLines out).map trimSpace).filter matchGetPods := by
    unfold getPods
    rw [getPodsLoop_acc]
    rfl
  have h2 : discoveredPods out = getPods out := by
    unfold discoveredPods filterPods
    rw [filterPodsLoop_acc, h1]
    simp only [List.nil_append, List.filter_filter]
    apply List.filter_congr
    intro x _
    unfold matchPodFilter matchGetPods
    simp
  refine ⟨h1, h2, ?_, by decide⟩
  intro pod hpod
  rw [h2, h1, List.mem_filter] at hpod
  have := hpod.2
  unfold matchGetPods prefixK8s prefixIstio at this
  simpa [List.isPrefixOf_iff_prefix] using this

/-- C6, what the code does: when only the second command fails, `runKubectlCommand` returns
the partial result with the free-space output, and `getDiskUsage` sends a result whose
free-space output is empty. -/
theorem getDiskUsage_second_failure (config pod o : Str) :
    runKubectlCommand config pod (.ok o) .failed = (some ⟨config, pod, o, []⟩, true) ∧
    getDiskUsage config pod (.ok o) .failed = ⟨config, pod, [], []⟩ ∧
    getDiskUsage "cfgA".toList "podA".toList (.ok "10G 8G 2G 80% /prometheus".toList) .failed ≠
      ⟨"cfgA".toList, "podA".toList, "10G 8G 2G 80% /prometheus".toList, []⟩ :=
  ⟨rfl, rfl, by decide⟩

end PodDiskUsage

namespace PodDiskUsage

/-- C6, the probe at a concrete input: the first command prints a `df` line, the second
fails; the result sent on the channel has lost the `df` line. -/
theorem getDiskUsage_second_failure_example :
    getDiskUsage "cfgA".toList "podA".toList (.ok "10G 8G 2G 80% /prometheus".toList) .failed =
      ⟨"cfgA".toList, "podA".toList, [], []⟩ := rfl

/-- C7 fails on the code: in the table of thirteen rows `pod0` arrives before `pod6` with the
same percentage, and the ranking step, whatever the generator, returns the table in which
`pod6` stands before `pod0`. -/
theorem ties_reordered_counterexample :
    (∀ row ∈ tieTable, HasPercent row) ∧
    (∀ next : Nat → Nat, ranking next tieTable = .ok tieRanked) ∧
    pct (tieRow "pod0" "50%") = pct (tieRow "pod6" "50%") ∧
    tieTable.indexOf (tieRow "pod0" "50%") < tieTable.indexOf (tieRow "pod6" "50%") ∧
    tieRanked.indexOf (tieRow "pod6" "50%") < tieRanked.indexOf (tieRow "pod0" "50%") ∧
    tieRanked.filter (fun r => decide (pct r = 50)) ≠
      tieTable.filter (fun r => decide (pct r = 50)) :=
  ⟨by decide, fun _ => rfl, by decide, by decide, by decide, by decide⟩

/-- C7 as amended: when every aggregated row has a match of `\d+%`, the ranking step returns
a rearrangement of the table, and for a table of at most twelve rows the rows of each
percentage are in the returned table in the order in which they arrived. -/
theorem ranking_keeps_ties_up_to_twelve (next : Nat → Nat) (tableData : List ProbeResult)
    (h : ∀ row ∈ tableData, HasPercent row) :
    ∃ out, ranking next tableData = .ok out ∧ out.Perm tableData ∧
      (tableData.length ≤ 12 → ∀ v : Int,
        out.filter (fun r => decide (pct r = v)) =
          tableData.filter (fun r => decide (pct r = v))) := by
  have hg := lessRows_good tableData h
  obtain ⟨out, h1, h2, -⟩ := sortSlice_total next tableData hg
  refine ⟨out, h1, h2, ?_⟩
  intro hlen v
  have h1' : sortSlice next lessRows tableData = .ok out := h1
  rw [sortSlice_small next tableData hlen] at h1'
  have hs := insertionSort_stable tableData out 0 tableData.length (-v) hg (le_refl _) h1'
  have e : (fun r : ProbeResult => decide (-(pct r) = -v)) =
      (fun r : ProbeResult => decide (pct r = v)) := by
    funext r
    congr 1
    simp only [neg_inj]
  rw [e] at hs
  exact hs

/-- C7 as amended, at a table of three rows with a tie between the first and the last. -/
theorem ranking_keeps_ties_up_to_twelve_witness :
    (∀ row ∈ [rowB, rowA, { rowB with pod := "podC".toList }], HasPercent row) ∧
    ∃ out, ranking (fun r => r) [rowB, rowA, { rowB with pod := "podC".toList }] = .ok out ∧
      out.Perm [rowB, rowA, { rowB with pod := "podC".toList }] ∧
      ([rowB, rowA, { rowB with pod := "podC".toList }].length ≤ 12 → ∀ v : Int,
        out.filter (fun r => decide (pct r = v)) =
          [rowB, rowA, { rowB with pod := "podC".toList }].filter
            (fun r => decide (pct r = v))) :=
  ⟨by decide, ranking_keeps_ties_up_to_twelve (fun r => r) _ (by decide)⟩

/-- C8 fails on the code: a probe result with two non-empty outputs whose `df` line has no
percentage is admitted into the table, and its row has no match of `\d+%`, so that the
comparator's slice of the match is out of range. -/
theorem admitted_without_percent_counterexample :
    dashProbe.free ≠ [] ∧ dashProbe.usage ≠ [] ∧ aggregate [dashProbe] [] = [dashRow] ∧
    ¬ HasPercent dashRow ∧ rowPercent dashRow = .error .panic :=
  ⟨by decide, by decide, by decide, by decide, rfl⟩

/-- C8 as amended: a probe result with two non-empty outputs is admitted into the table,
wherever it stands among the drained results; the free-space field of its row contains a
match of `\d+%` exactly when one of the last five whitespace-separated tokens of its raw
free-space output contains one; when it does, the comparator's slice of the match is
within bounds on this row and the comparator returns a boolean on it and any other row
with a match; when it does not, the slice is out of range. -/
theorem admitted_row_has_percent (before after tableData : List ProbeResult)
    (result : ProbeResult) (hf : result.free ≠ []) (hu : result.usage ≠ []) :
    aggregate (before ++ result :: after) tableData =
        aggregate before tableData ++
          { result with free := trimFree result.free } :: aggregate after [] ∧
      { result with free := trimFree result.free } ∈
        aggregate (before ++ result :: after) tableData ∧
      (HasPercent { result with free := trimFree result.free } ↔
        ∃ t ∈ (fields result.free).drop ((fields result.free).length - 5),
          findString t ≠ []) ∧
      (HasPercent { result with free := trimFree result.free } →
        rowPercent { result with free := trimFree result.free } =
          .ok (pct { result with free := trimFree result.free }) ∧
        ∀ other, HasPercent other →
          lessRows { result with free := trimFree result.free } other =
              .ok (decide (pct { result with free := trimFree result.free } > pct other)) ∧
            lessRows other { result with free := trimFree result.free } =
              .ok (decide (pct other > pct { result with free := trimFree result.free }))) ∧
      (¬ HasPercent { result with free := trimFree result.free } →
        rowPercent { result with free := trimFree result.free } = .error .panic ∧
        ∀ other,
          lessRows { result with free := trimFree result.free } other = .error .panic ∧
            lessRows other { result with free := trimFree result.free } = .error .panic) := by
  have hs := aggregate_split before after tableData result hf hu
  refine ⟨hs, ?_, ?_, ?_, ?_⟩
  · rw [hs]
    exact List.mem_append_right _ (List.mem_cons_self _ _)
  · unfold HasPercent
    simp only
    rw [trimFree_eq]
    constructor
    · intro h
      exact findString_of_join _ h
    · rintro ⟨t, ht, hm⟩
      exact findString_join _ t ht hm
  · intro hp
    refine ⟨rowPercent_ok _ hp, ?_⟩
    intro other ho
    exact ⟨lessRows_ok _ other hp ho, lessRows_ok other _ ho hp⟩
  · intro hp
    refine ⟨rowPercent_panic _ hp, ?_⟩
    intro other
    exact ⟨lessRows_panic _ other (Or.inl hp), lessRows_panic other _ (Or.inr hp)⟩

/-- C8 as amended, at the results of pods B and A of the scenario: the row of pod A is in
the table, its free-space field has the match `80%`, and the comparator reads 80 from
it. -/
theorem admitted_row_has_percent_witness :
    (probeA.free ≠ [] ∧ probeA.usage ≠ []) ∧
    aggregate [probeB, probeA] [] = [rowB, rowA] ∧
    { probeA with free := trimFree probeA.free } = rowA ∧
    findString rowA.free = "80%".toList ∧
    rowPercent rowA = .ok 80 ∧
    lessRows rowA rowB = .ok true ∧
    (aggregate ([probeB] ++ probeA :: []) [] =
        aggregate [probeB] [] ++
          { probeA with free := trimFree probeA.free } :: aggregate [] [] ∧
      { probeA with free := trimFree probeA.free } ∈
        aggregate ([probeB] ++ probeA :: []) [] ∧
      (HasPercent { probeA with free := trimFree probeA.free } ↔
        ∃ t ∈ (fields probeA.free).drop ((fields probeA.free).length - 5),
          findString t ≠ []) ∧
      (HasPercent { probeA with free := trimFree probeA.free } →
        rowPercent { probeA with free := trimFree probeA.free } =
          .ok (pct { probeA with free := trimFree probeA.free }) ∧
        ∀ other, HasPercent other →
          lessRows { probeA with free := trimFree probeA.free } other =
              .ok (decide (pct { probeA with free := trimFree probeA.free } > pct other)) ∧
            lessRows other { probeA with free := trimFree probeA.free } =
              .ok (decide (pct other > pct { probeA with free := trimFree probeA.free }))) ∧
      (¬ HasPercent { probeA with free := trimFree probeA.free } →
        rowPercent { probeA with free := trimFree probeA.free } = .error .panic ∧
        ∀ other,
          lessRows { probeA with free := trimFree probeA.free } other = .error .panic ∧
            lessRows other { probeA with free := trimFree probeA.free } = .error .panic)) :=
  ⟨by decide, by decide, by decide, by decide, rfl, rfl,
    admitted_row_has_percent [probeB] [] [] probeA (by decide) (by decide)⟩

/-- C9: when the free-space field of one of two rows has no match of `\d+%` (`FindString`
gives the empty string), the comparator of `main` panics instead of returning a boolean,
and so does the ranking step on the table of the two rows, in either order. -/
theorem comparator_panics_without_percent (next : Nat → Nat) (rowI rowJ : ProbeResult)
    (h : findString rowI.free = [] ∨ findString rowJ.free = []) :
    lessRows rowI rowJ = .error .panic ∧ lessRows rowJ rowI = .error .panic ∧
      ranking next [rowI, rowJ] = .error .panic ∧
      ranking next [rowJ, rowI] = .error .panic := by
  have h' : ¬ HasPercent rowI ∨ ¬ HasPercent rowJ := by
    rcases h with h | h
    · exact Or.inl (fun hc => hc h)
    · exact Or.inr (fun hc => hc h)
  exact ⟨lessRows_panic rowI rowJ h', lessRows_panic rowJ rowI h'.symm,
    ranking_two_panics next rowI rowJ h', ranking_two_panics next rowJ rowI h'.symm⟩

/-- C9, at the row without a percentage and the row of pod A. -/
theorem comparator_panics_without_percent_witness :
    (findString dashRow.free = [] ∨ findString rowA.free = []) ∧
    (lessRows dashRow rowA = .error .panic ∧ lessRows rowA dashRow = .error .panic ∧
      ranking (fun r => r) [dashRow, rowA] = .error .panic ∧
      ranking (fun r => r) [rowA, dashRow] = .error .panic) :=
  ⟨by decide, comparator_panics_without_percent (fun r => r) dashRow rowA (by decide)⟩

/-- C10: in the producer/consumer system of `main` with `pairs` tasks and a results channel
of capacity 100, the aggregation phase is entered only in states in which every pair has
been launched and every task has sent its result and returned; the aggregation phase can
be reached exactly when there are at most 100 pairs.  Every run, whatever the scheduler
picks: with at most 100 pairs it reaches the aggregation phase, all tasks having returned;
with more than 100 pairs it never reaches the aggregation phase and ends in the state in
which the channel holds 100 results, the `pairs - 100` remaining tasks cannot send, `main`
waits at the barrier and no step is possible.  There are runs: the one of `schedule`. -/
theorem fanout_barrier_and_capacity (pairs : Nat) :
    (∀ s, Reachable pairs s → s.phase = .aggregating →
      s.toLaunch = 0 ∧ s.running = 0 ∧ s.sent = 0 ∧ s.finished = pairs) ∧
    ((∃ s, Reachable pairs s ∧ s.phase = .aggregating) ↔ pairs ≤ 100) ∧
    (100 < pairs → ∃ s, Reachable pairs s ∧ s.phase = .waiting ∧ s.buffered = 100 ∧
      s.running = pairs - 100 ∧ 0 < s.running ∧ s.sent = 0 ∧ Stuck s) ∧
    IsRun pairs (scheduledRun pairs) ∧
    (∀ run, IsRun pairs run →
      (∀ n, Reachable pairs (run n)) ∧
      (pairs ≤ 100 → ∃ n, (run n).phase = .aggregating ∧ (run n).finished = pairs ∧
        (run n).buffered = pairs ∧ ∀ m, n ≤ m → run m = run n) ∧
      (100 < pairs → (∀ n, (run n).phase ≠ .aggregating) ∧
        ∃ n, ∀ m, n ≤ m →
          run m = { phase := .waiting, toLaunch := 0, running := pairs - 100, sent := 0,
                    finished := 100, buffered := 100 } ∧ Stuck (run m))) := by
  have hagg : ∀ s, Reachable pairs s → s.phase = .aggregating →
      s.toLaunch = 0 ∧ s.running = 0 ∧ s.sent = 0 ∧ s.finished = pairs := by
    intro s hr hp
    obtain ⟨i1, i2, i3, i4, i5⟩ := reachable_inv pairs s hr
    have h4 := i4 (by rw [hp]; intro h; cases h)
    have h5 := i5 hp
    exact ⟨h4, h5.1, h5.2, by omega⟩
  have hle : (∃ s, Reachable pairs s ∧ s.phase = .aggregating) → pairs ≤ 100 := by
    rintro ⟨s, hr, hp⟩
    obtain ⟨i1, i2, i3, i4, i5⟩ := reachable_inv pairs s hr
    have h4 := i4 (by rw [hp]; intro h; cases h)
    have h5 := i5 hp
    unfold chanCapacity at i3
    omega
  refine ⟨hagg, ⟨hle, ?_⟩, ?_, scheduledRun_isRun pairs, ?_⟩
  · intro h
    exact ⟨_, reach_aggregating pairs h, rfl⟩
  · intro h
    have hc : chanCapacity < pairs := h
    refine ⟨_, reach_full pairs hc, rfl, rfl, rfl, ?_, rfl, full_stuck pairs hc⟩
    simp only [chanCapacity]
    omega
  · intro run hrun
    have hreach := run_reachable pairs run hrun
    obtain ⟨n, hn⟩ := run_stops pairs run hrun
    have hstay := run_stays pairs run hrun n hn
    refine ⟨hreach, ?_, ?_⟩
    · intro hp
      have hph := stuck_small pairs hp (run n) (hreach n) hn
      obtain ⟨-, -, -, h4⟩ := hagg (run n) (hreach n) hph
      obtain ⟨-, i2, -, -, i5⟩ := reachable_inv pairs (run n) (hreach n)
      have h5 := i5 hph
      exact ⟨n, hph, h4, by omega, hstay⟩
    · intro hp
      have hc : chanCapacity < pairs := hp
      refine ⟨?_, n, ?_⟩
      · intro m hm
        have := hle ⟨run m, hreach m, hm⟩
        omega
      · intro m hm
        have e := stuck_large pairs hc (run n) (hreach n) hn
        refine ⟨?_, ?_⟩
        · rw [hstay m hm, e]
          rfl
        · rw [hstay m hm]
          exact hn

/-- C10, at 101 pairs and at 3 pairs: with 101 pairs no run reaches the aggregation phase
and the run of `schedule` ends in the state with a full channel and one task left that
cannot send; with 3 pairs the run of `schedule` is in the aggregation phase after eleven
steps. -/
theorem fanout_barrier_and_capacity_witness :
    (¬ ∃ s, Reachable 101 s ∧ s.phase = .aggregating) ∧
    (∃ s, Reachable 101 s ∧ s.phase = .waiting ∧ s.buffered = 100 ∧
      s.running = 101 - 100 ∧ 0 < s.running ∧ s.sent = 0 ∧ Stuck s) ∧
    (∃ s, Reachable 3 s ∧ s.phase = .aggregating) ∧
    (∀ n, (scheduledRun 101 n).phase ≠ .aggregating) ∧
    (∃ n, ∀ m, n ≤ m →
      scheduledRun 101 m = { phase := .waiting, toLaunch := 0, running := 101 - 100, sent := 0,
                             finished := 100, buffered := 100 } ∧
        Stuck (scheduledRun 101 m)) ∧
    scheduledRun 3 11 =
      { phase := .aggregating, toLaunch := 0, running := 0, sent := 0, finished := 3,
        buffered := 3 } :=
  ⟨fun h => absurd ((fanout_barrier_and_capacity 101).2.1.mp h) (by decide),
    (fanout_barrier_and_capacity 101).2.2.1 (by decide),
    (fanout_barrier_and_capacity 3).2.1.mpr (by decide),
    (((fanout_barrier_and_capacity 101).2.2.2.2 (scheduledRun 101)
      (fanout_barrier_and_capacity 101).2.2.2.1).2.2 (by decide)).1,
    (((fanout_barrier_and_capacity 101).2.2.2.2 (scheduledRun 101)
      (fanout_barrier_and_capacity 101).2.2.2.1).2.2 (by decide)).2,
    by decide⟩

end PodDiskUsage

namespace PodDiskUsage

/-! ## Further properties of the probe -/

/-- When the first command fails, `runKubectlCommand` returns no result and an error, and
`getDiskUsage` still sends a result for the pair: configuration, pod and two empty
outputs. -/
theorem getDiskUsage_first_failure (config pod : Str) (second : Outcome) :
    runKubectlCommand config pod .failed second = (none, true) ∧
    getDiskUsage config pod .failed second = ⟨config, pod, [], []⟩ :=
  ⟨rfl, rfl⟩

/-- When both commands succeed, the probe sends the output of the first command as it is and
the output of the second with the surrounding white space trimmed. -/
theorem getDiskUsage_success (config pod out duOut : Str) :
    getDiskUsage config pod (.ok out) (.ok duOut) = ⟨config, pod, out, trimSpace duOut⟩ ∧
    getDiskUsage "cfgA".toList "podA".toList (.ok "/dev/sda1 10G 8G 2G 80% /prometheus".toList)
        (.ok "500M /prometheus/\n".toList) = probeA :=
  ⟨rfl, by decide⟩

/-- The result of a probe in which one of the two commands failed does not get into the
table. -/
theorem failed_probe_is_dropped (config pod : Str) (first second : Outcome)
    (tableData : List ProbeResult) (h : first = .failed ∨ second = .failed) :
    aggregate [getDiskUsage config pod first second] tableData = tableData := by
  have hu : (getDiskUsage config pod first second).usage = [] := by
    rcases h with h | h
    · subst h
      rfl
    · subst h
      cases first <;> rfl
  unfold aggregate
  have hc : ¬ ((getDiskUsage config pod first second).free ≠ [] ∧
      (getDiskUsage config pod first second).usage ≠ []) := fun hc => hc.2 hu
  rw [if_neg hc]
  rfl

/-- The dropped probe, at the pair of pod A with a failing second command. -/
theorem failed_probe_is_dropped_witness :
    ((Outcome.ok "10G 8G 2G 80% /prometheus".toList = Outcome.failed) ∨
      Outcome.failed = Outcome.failed) ∧
    aggregate [getDiskUsage "cfgA".toList "podA".toList
      (.ok "10G 8G 2G 80% /prometheus".toList) .failed] [rowB] = [rowB] :=
  ⟨Or.inr rfl, failed_probe_is_dropped _ _ _ _ _ (Or.inr rfl)⟩

end PodDiskUsage
